import Mathlib

/-!
Verification of the bwt-zip compressor (src/bwtzip.py) and decompressor
(src/bwtunzip.py): a BWT + run-length + Elias + Huffman pipeline over
printable ASCII texts.  Characters are modelled as their byte values
(`Nat` in `[36, 126]`, the sentinel `$` being 36); Python bit strings of
`'0'`/`'1'` are modelled as `List Bool` (`true` = `'1'`); Python integers
are `Nat`.  Python's stable `list.sort()` / `sorted()` is modelled by
`List.insertionSort` (any stable sort computes the same list).
-/

/-- Python `int.bit_length`, fuel-driven so that the kernel can evaluate it
(`bitLenAux f n` is `n.bit_length` whenever `n ≤ f`). -/
def bitLenAux : Nat → Nat → Nat
  | 0, _ => 0
  | f + 1, n => if n = 0 then 0 else bitLenAux f (n / 2) + 1

/-- Python `int.bit_length`. -/
def bitLength (n : Nat) : Nat := bitLenAux n n

/-- Minimal binary representation, MSB first (`bin(n)[2:]` for `n ≥ 1`,
`[]` for `n = 0`), fuel-driven. -/
def natBitsAux : Nat → Nat → List Bool
  | 0, _ => []
  | f + 1, n => if n = 0 then [] else natBitsAux f (n / 2) ++ [decide (n % 2 = 1)]

/-- Minimal binary representation of `n`, MSB first; empty for `0`. -/
def natBits (n : Nat) : List Bool := natBitsAux n n

/-- Python `bin(n)[2:]`: like `natBits` but `bin(0)[2:] = "0"`. -/
def binPy (n : Nat) : List Bool := if n = 0 then [false] else natBits n

/-- Python `str.zfill`: left-pad a bit string with zeros to width `w`. -/
def zfill (w : Nat) (bs : List Bool) : List Bool :=
  List.replicate (w - bs.length) false ++ bs

/-- Python `int(s, 2)` on a bit string (MSB first). -/
def bitsToNat (bs : List Bool) : Nat :=
  bs.foldl (fun a b => 2 * a + cond b 1 0) 0

/-- Python slice `s[a:b]` on a list. -/
def pySlice (bs : List Bool) (a b : Nat) : List Bool := (bs.drop a).take (b - a)

section BitBasics

theorem bitLenAux_eq_size : ∀ f n, n ≤ f → bitLenAux f n = Nat.size n := by
  intro f
  induction f with
  | zero =>
    intro n hn
    interval_cases n
    simp [bitLenAux, Nat.size_zero]
  | succ f ih =>
    intro n hn
    by_cases h0 : n = 0
    · simp [bitLenAux, h0, Nat.size_zero]
    · have hdiv : n / 2 ≤ f := by
        have h1 : 1 ≤ n := Nat.one_le_iff_ne_zero.mpr h0
        have : n / 2 < n := Nat.div_lt_self h1 (by norm_num)
        omega
      have hrec : Nat.size (n / 2) + 1 = Nat.size n := by
        rcases Nat.lt_or_ge n 2 with h2 | h2
        · interval_cases n
          · simp at h0
          · simp [Nat.size_zero, Nat.size_one]
        · have hpos : 0 < n / 2 := Nat.div_pos h2 (by norm_num)
          set k := Nat.size (n / 2) with hk
          have hkpos : 0 < k := Nat.size_pos.mpr hpos
          have hub : n / 2 < 2 ^ k := Nat.lt_size_self (n / 2)
          have hlb : 2 ^ (k - 1) ≤ n / 2 := Nat.lt_size.mp (by omega)
          have hub2 : n < 2 ^ (k + 1) := by
            have : n ≤ 2 * (n / 2) + 1 := by omega
            have h4 : 2 * (n / 2) + 1 < 2 * 2 ^ k := by omega
            calc n ≤ 2 * (n / 2) + 1 := this
              _ < 2 * 2 ^ k := h4
              _ = 2 ^ (k + 1) := by ring
          have hlb2 : 2 ^ k ≤ n := by
            have h5 : 2 ^ (k - 1 + 1) ≤ 2 * (n / 2) := by
              have := Nat.mul_le_mul_left 2 hlb
              calc 2 ^ (k - 1 + 1) = 2 * 2 ^ (k - 1) := by ring
                _ ≤ 2 * (n / 2) := this
            have hkk : k - 1 + 1 = k := by omega
            rw [hkk] at h5
            have h6 : 2 * (n / 2) ≤ n := by
              have := Nat.div_mul_le_self n 2
              omega
            omega
          have hA : Nat.size n ≤ k + 1 := Nat.size_le.mpr hub2
          have hB : k < Nat.size n := Nat.lt_size.mpr hlb2
          omega
      rw [bitLenAux, if_neg h0, ih _ hdiv, hrec]

theorem bitLength_eq_size (n : Nat) : bitLength n = Nat.size n :=
  bitLenAux_eq_size n n le_rfl

theorem bitLength_zero : bitLength 0 = 0 := by simp [bitLength, bitLenAux]

theorem bitLength_pos {n : Nat} (h : 0 < n) : 0 < bitLength n := by
  rw [bitLength_eq_size]; exact Nat.size_pos.mpr h

theorem lt_two_pow_bitLength (n : Nat) : n < 2 ^ bitLength n := by
  rw [bitLength_eq_size]; exact Nat.lt_size_self n

theorem two_pow_pred_le {n : Nat} (h : 0 < n) : 2 ^ (bitLength n - 1) ≤ n := by
  have hpos := bitLength_pos h
  rw [bitLength_eq_size] at hpos ⊢
  exact Nat.lt_size.mp (by omega)

theorem bitLength_le_self (n : Nat) : bitLength n ≤ n := by
  rw [bitLength_eq_size]
  by_contra hlt
  push_neg at hlt
  have h1 : 2 ^ n ≤ n := Nat.lt_size.mp hlt
  have h2 := Nat.lt_two_pow n
  omega

end BitBasics

section BitValue

theorem bitsToNat_foldl (bs : List Bool) :
    ∀ a : Nat, bs.foldl (fun a b => 2 * a + cond b 1 0) a
      = a * 2 ^ bs.length + bitsToNat bs := by
  induction bs with
  | nil => intro a; simp [bitsToNat]
  | cons b bs ih =>
    intro a
    have h1 : bitsToNat (b :: bs) = cond b 1 0 * 2 ^ bs.length + bitsToNat bs := by
      rw [bitsToNat, List.foldl_cons, ih]
      cases b <;> norm_num
    simp only [List.foldl_cons, List.length_cons]
    rw [ih, h1]
    ring

theorem bitsToNat_cons (b : Bool) (bs : List Bool) :
    bitsToNat (b :: bs) = cond b 1 0 * 2 ^ bs.length + bitsToNat bs := by
  rw [bitsToNat, List.foldl_cons, bitsToNat_foldl]
  cases b <;> norm_num

theorem bitsToNat_append (xs ys : List Bool) :
    bitsToNat (xs ++ ys) = bitsToNat xs * 2 ^ ys.length + bitsToNat ys := by
  induction xs with
  | nil => simp [bitsToNat]
  | cons b xs ih =>
    rw [List.cons_append, bitsToNat_cons, ih, bitsToNat_cons, List.length_append]
    ring

theorem bitsToNat_replicate_false (k : Nat) :
    bitsToNat (List.replicate k false) = 0 := by
  induction k with
  | zero => simp [bitsToNat]
  | succ k ih => rw [List.replicate_succ, bitsToNat_cons, ih]; simp

theorem bitsToNat_zfill (w : Nat) (bs : List Bool) :
    bitsToNat (zfill w bs) = bitsToNat bs := by
  rw [zfill, bitsToNat_append, bitsToNat_replicate_false]; simp

theorem natBitsAux_length : ∀ f n, n ≤ f → (natBitsAux f n).length = bitLenAux f n := by
  intro f
  induction f with
  | zero => intro n hn; interval_cases n; simp [natBitsAux, bitLenAux]
  | succ f ih =>
    intro n hn
    by_cases h0 : n = 0
    · simp [natBitsAux, bitLenAux, h0]
    · have h1 : 1 ≤ n := Nat.one_le_iff_ne_zero.mpr h0
      have hdiv : n / 2 ≤ f := by
        have : n / 2 < n := Nat.div_lt_self h1 (by norm_num)
        omega
      simp [natBitsAux, bitLenAux, h0, ih _ hdiv]

theorem natBits_length (n : Nat) : (natBits n).length = bitLength n :=
  natBitsAux_length n n le_rfl

theorem bitsToNat_natBitsAux : ∀ f n, n ≤ f → bitsToNat (natBitsAux f n) = n := by
  intro f
  induction f with
  | zero => intro n hn; interval_cases n; simp [natBitsAux, bitsToNat]
  | succ f ih =>
    intro n hn
    by_cases h0 : n = 0
    · simp [natBitsAux, h0, bitsToNat]
    · have h1 : 1 ≤ n := Nat.one_le_iff_ne_zero.mpr h0
      have hdiv : n / 2 ≤ f := by
        have : n / 2 < n := Nat.div_lt_self h1 (by norm_num)
        omega
      rw [natBitsAux, if_neg h0, bitsToNat_append, ih _ hdiv]
      have hbit : bitsToNat [decide (n % 2 = 1)] = n % 2 := by
        rcases Nat.mod_two_eq_zero_or_one n with h | h <;> simp [h, bitsToNat]
      rw [hbit]
      simp only [List.length_singleton, pow_one]
      omega

theorem bitsToNat_natBits (n : Nat) : bitsToNat (natBits n) = n :=
  bitsToNat_natBitsAux n n le_rfl

theorem natBitsAux_zero : ∀ f, natBitsAux f 0 = [] := by
  intro f; cases f <;> simp [natBitsAux]

theorem natBitsAux_ne_nil : ∀ f n, 1 ≤ n → n ≤ f → natBitsAux f n ≠ [] := by
  intro f n h1 h2
  have := natBitsAux_length f n h2
  have hb : 0 < bitLenAux f n := by
    rw [bitLenAux_eq_size f n h2]
    exact Nat.size_pos.mpr h1
  intro hnil
  rw [hnil] at this
  simp at this
  omega

theorem natBitsAux_head : ∀ f n, 1 ≤ n → n ≤ f →
    ∃ t, natBitsAux f n = true :: t := by
  intro f
  induction f with
  | zero => intro n h1 h2; omega
  | succ f ih =>
    intro n h1 h2
    have h0 : n ≠ 0 := by omega
    rw [natBitsAux, if_neg h0]
    by_cases hd : n / 2 = 0
    · have hn1 : n = 1 := by omega
      subst hn1
      exact ⟨[], by simp [natBitsAux_zero]⟩
    · have h1d : 1 ≤ n / 2 := by omega
      have h2d : n / 2 ≤ f := by
        have : n / 2 < n := Nat.div_lt_self (by omega) (by norm_num)
        omega
      obtain ⟨t, ht⟩ := ih (n / 2) h1d h2d
      exact ⟨t ++ [decide (n % 2 = 1)], by rw [ht]; rfl⟩

theorem natBits_head {n : Nat} (h : 1 ≤ n) : ∃ t, natBits n = true :: t :=
  natBitsAux_head n n h le_rfl

end BitValue

/-! ## The Elias coder (src/bwtzip.py `EliasEncoding`, src/bwtunzip.py `EliasDecoding`) -/

namespace EliasEncoding

/-- One length-prefix component appended by an iteration of the loop in
`EliasEncoding.elias_encoding`: for the current value `m = length - 1` the
code computes `length = m.bit_length()`, clears the top bit of `m`
(`mask & self.value`, i.e. `m % 2 ^ (length - 1)`) and zero-fills to
`length` bits. -/
def eliasBlock (m : Nat) : List Bool :=
  zfill (bitLength m) (binPy (m % 2 ^ (bitLength m - 1)))

/-- The `while self.value > 1` loop of `EliasEncoding.elias_encoding`,
returning the list of appended length-prefix components (fuel-driven; the
initial call `eliasLoop v v (bitLength v)` never exhausts the fuel). -/
def eliasLoop : Nat → Nat → Nat → List (List Bool)
  | 0, _, _ => []
  | f + 1, value, length =>
    if 1 < value then
      eliasBlock (length - 1) :: eliasLoop f (length - 1) (bitLength (length - 1))
    else []

/-- `EliasEncoding.elias_encoding`: start `bit_array` with `bin(value)[2:]`,
run the loop, then concatenate in reverse order. -/
def elias_string (v : Nat) : List Bool :=
  ((binPy v :: eliasLoop v v (bitLength v)).reverse).flatten

/-- Specification form of the chain of length-prefix components of
`elias_string v` (proved equal to the loop output below). -/
def eliasChain (v : Nat) : List Bool :=
  if _h : v ≤ 1 then []
  else eliasChain (bitLength v - 1) ++ eliasBlock (bitLength v - 1)
termination_by v
decreasing_by
  have := bitLength_le_self v
  omega

/-- Number of loop iterations performed while encoding `v`. -/
def eliasIters (v : Nat) : Nat :=
  if _h : v ≤ 1 then 0 else eliasIters (bitLength v - 1) + 1
termination_by v
decreasing_by
  have := bitLength_le_self v
  omega

theorem flatten_reverse_cons (a : List Bool) (l : List (List Bool)) :
    ((a :: l).reverse).flatten = (l.reverse).flatten ++ a := by
  simp

theorem eliasLoop_eq_chain : ∀ f v, v ≤ f →
    ((eliasLoop f v (bitLength v)).reverse).flatten = eliasChain v := by
  intro f
  induction f with
  | zero =>
    intro v hv
    interval_cases v
    simp [eliasLoop, eliasChain]
  | succ f ih =>
    intro v hv
    by_cases h1 : v ≤ 1
    · rw [eliasChain, dif_pos h1]
      rcases Nat.lt_or_ge 1 v with h | h
      · omega
      · simp [eliasLoop, Nat.not_lt.mpr h]
    · push_neg at h1
      have hm : bitLength v - 1 ≤ f := by
        have := bitLength_le_self v
        omega
      have hc : eliasChain v
          = eliasChain (bitLength v - 1) ++ eliasBlock (bitLength v - 1) := by
        rw [eliasChain]
        rw [dif_neg (by omega : ¬ v ≤ 1)]
      rw [eliasLoop, if_pos h1, flatten_reverse_cons, ih _ hm, hc]

theorem elias_string_eq (v : Nat) :
    elias_string v = eliasChain v ++ binPy v := by
  rw [elias_string, flatten_reverse_cons, eliasLoop_eq_chain v v le_rfl]

end EliasEncoding

theorem bitLength_one : bitLength 1 = 1 := rfl

theorem bitLength_two_le {v : Nat} (h : 2 ≤ v) : 2 ≤ bitLength v := by
  rw [bitLength_eq_size]
  have h1 : 1 < Nat.size v := Nat.lt_size.mpr (by simpa using h)
  omega

theorem natBits_decomp {v : Nat} (h : 1 ≤ v) :
    ∃ t, natBits v = true :: t ∧ t.length = bitLength v - 1
      ∧ bitsToNat (true :: t) = v := by
  obtain ⟨t, ht⟩ := natBits_head h
  refine ⟨t, ht, ?_, ?_⟩
  · have := natBits_length v
    rw [ht] at this
    simp at this
    omega
  · rw [← ht]
    exact bitsToNat_natBits v

namespace EliasEncoding

theorem eliasBlock_decomp {m : Nat} (h : 1 ≤ m) :
    ∃ t, eliasBlock m = false :: t ∧ t.length = bitLength m - 1
      ∧ bitsToNat (true :: t) = m := by
  set L := bitLength m with hL
  have hL1 : 1 ≤ L := bitLength_pos h
  have hub : m < 2 ^ L := lt_two_pow_bitLength m
  have hlb : 2 ^ (L - 1) ≤ m := two_pow_pred_le h
  rcases Nat.lt_or_ge L 2 with h2 | h2
  · -- L = 1, hence m = 1 and the block is "0"
    have hLe : L = 1 := by omega
    have hm1 : m = 1 := by
      rw [hLe] at hub
      omega
    refine ⟨[], ?_, by simp [← hL, hLe], ?_⟩
    · rw [eliasBlock, ← hL, hLe, hm1]
      simp [zfill, binPy, natBits, natBitsAux]
    · rw [bitsToNat_cons, hm1]
      simp [bitsToNat]
  · -- L ≥ 2
    set temp := m % 2 ^ (L - 1) with htemp
    have htlt : temp < 2 ^ (L - 1) := Nat.mod_lt _ (Nat.pos_pow_of_pos _ (by norm_num))
    have hlen : (binPy temp).length ≤ L - 1 := by
      by_cases h0 : temp = 0
      · have hb0 : binPy temp = [false] := by rw [h0]; rfl
        rw [hb0, List.length_singleton]
        omega
      · rw [binPy, if_neg h0, natBits_length]
        have : bitLength temp ≤ L - 1 := by
          rw [bitLength_eq_size]
          exact Nat.size_le.mpr htlt
        omega
    have hval : bitsToNat (binPy temp) = temp := by
      by_cases h0 : temp = 0
      · simp [binPy, h0, bitsToNat]
      · rw [binPy, if_neg h0]
        exact bitsToNat_natBits temp
    have hpad : 1 ≤ L - (binPy temp).length := by omega
    refine ⟨List.replicate (L - (binPy temp).length - 1) false ++ binPy temp, ?_, ?_, ?_⟩
    · rw [eliasBlock, ← hL, ← htemp, zfill]
      have : L - (binPy temp).length = (L - (binPy temp).length - 1) + 1 := by omega
      rw [this, List.replicate_succ]
      rfl
    · simp
      omega
    · rw [bitsToNat_cons, bitsToNat_append, bitsToNat_replicate_false, hval]
      simp
      have hexp : L - (binPy temp).length - 1 + (binPy temp).length = L - 1 := by omega
      rw [hexp]
      have hdiv : m = 2 ^ (L - 1) * (m / 2 ^ (L - 1)) + temp := by
        rw [htemp]
        exact (Nat.div_add_mod m (2 ^ (L - 1))).symm
      have hq : m / 2 ^ (L - 1) = 1 := by
        have hL2 : 2 ^ L = 2 * 2 ^ (L - 1) := by
          conv_lhs => rw [show L = (L - 1) + 1 by omega]
          rw [pow_succ]
          ring
        rw [hL2] at hub
        have hlt2 : m / 2 ^ (L - 1) < 2 := Nat.div_lt_of_lt_mul (by omega)
        have hge1 : 1 ≤ m / 2 ^ (L - 1) := (Nat.one_le_div_iff (Nat.pos_pow_of_pos _ (by norm_num))).mpr hlb
        omega
      rw [hq, Nat.mul_one] at hdiv
      omega

theorem eliasBlock_length {m : Nat} (h : 1 ≤ m) :
    (eliasBlock m).length = bitLength m := by
  obtain ⟨t, ht, htl, _⟩ := eliasBlock_decomp h
  rw [ht]
  have := bitLength_pos h
  simp [htl]
  omega

theorem eliasIters_le_chain : ∀ v, eliasIters v ≤ (eliasChain v).length := by
  intro v
  induction v using Nat.strong_induction_on with
  | _ v ih =>
    by_cases h1 : v ≤ 1
    · rw [eliasIters, eliasChain]
      simp [h1]
    · push_neg at h1
      have hm1 : 1 ≤ bitLength v - 1 := by
        have := bitLength_two_le (by omega : 2 ≤ v)
        omega
      have hmlt : bitLength v - 1 < v := by
        have := bitLength_le_self v
        omega
      rw [eliasIters, eliasChain]
      rw [dif_neg (by omega : ¬ v ≤ 1), dif_neg (by omega : ¬ v ≤ 1)]
      have hb := eliasBlock_length hm1
      have := ih _ hmlt
      have hbp : 0 < bitLength (bitLength v - 1) := bitLength_pos hm1
      simp [hb]
      omega

end EliasEncoding

namespace EliasDecoding

/-- The `while i < len(self.bit_string)` loop of `EliasDecoding.decode`
(fuel-driven; the initial fuel `len + 1` never runs out because `i`
strictly increases).  State: current index `i`, current component width
`value`, `decoded`, `end_pointer`.  A `'0'` bit reads a length component,
a `'1'` bit returns the decoded value. -/
def decodeLoop : Nat → List Bool → Nat → Nat → Nat → Nat → Nat × Nat
  | 0, _, _, _, decoded, ep => (decoded, ep)
  | f + 1, bits, i, value, decoded, ep =>
    if i < bits.length then
      if bits.getD i false = false then
        decodeLoop f bits (i + value) (bitsToNat (true :: pySlice bits (i + 1) ep) + 1)
          decoded ((bitsToNat (true :: pySlice bits (i + 1) ep) + 1) + (i + value))
      else (bitsToNat (true :: pySlice bits (i + 1) ep), ep)
    else (decoded, ep)

/-- `EliasDecoding.__init__` + `decode` + `get_decode`: decode starting at
`start` with initial width 1, `decoded = 0`, `end_pointer = start + 1`. -/
def decode (bits : List Bool) (start : Nat) : Nat × Nat :=
  decodeLoop (bits.length + 1) bits start 1 0 (start + 1)

end EliasDecoding

section ListIndexHelpers

theorem getD_append_length (X : List Bool) (b : Bool) (Y : List Bool) :
    (X ++ b :: Y).getD X.length false = b := by
  induction X with
  | nil => rfl
  | cons a X ih => simpa using ih

theorem pySlice_block (X t R : List Bool) :
    pySlice (X ++ (t ++ R)) X.length (X.length + t.length) = t := by
  rw [pySlice]
  have h1 : (X ++ (t ++ R)).drop X.length = t ++ R := List.drop_left X (t ++ R)
  have h2 : X.length + t.length - X.length = t.length := by omega
  rw [h1, h2]
  exact List.take_left t R

end ListIndexHelpers

namespace EliasDecoding

theorem decodeLoop_step0 (f : Nat) (bits : List Bool) (i value d ep : Nat)
    (hi : i < bits.length) (hb : bits.getD i false = false) :
    decodeLoop (f + 1) bits i value d ep
      = decodeLoop f bits (i + value) (bitsToNat (true :: pySlice bits (i + 1) ep) + 1) d
          ((bitsToNat (true :: pySlice bits (i + 1) ep) + 1) + (i + value)) := by
  rw [decodeLoop, if_pos hi, if_pos hb]

theorem decodeLoop_step1 (f : Nat) (bits : List Bool) (i value d ep : Nat)
    (hi : i < bits.length) (hb : bits.getD i false = true) :
    decodeLoop (f + 1) bits i value d ep
      = (bitsToNat (true :: pySlice bits (i + 1) ep), ep) := by
  rw [decodeLoop, if_pos hi, if_neg (by rw [hb]; simp)]

theorem decodeLoop_stop (f : Nat) (bits : List Bool) (i value d ep : Nat)
    (hi : ¬ i < bits.length) :
    decodeLoop (f + 1) bits i value d ep = (d, ep) := by
  rw [decodeLoop, if_neg hi]

open EliasEncoding in
/-- Running the decoder loop over the length-prefix chain of the encoding of
`v` consumes the whole chain, arriving with component width `bitLength v`. -/
theorem decodeLoop_chain :
    ∀ v, 1 ≤ v → ∀ (f : Nat) (pre rest : List Bool) (d : Nat),
    decodeLoop (f + eliasIters v + 1) (pre ++ (eliasChain v ++ rest))
        pre.length 1 d (pre.length + 1)
      = decodeLoop (f + 1) (pre ++ (eliasChain v ++ rest))
          (pre.length + (eliasChain v).length) (bitLength v) d
          (bitLength v + (pre.length + (eliasChain v).length)) := by
  intro v
  induction v using Nat.strong_induction_on with
  | _ v ih =>
    intro hv f pre rest d
    by_cases h1 : v ≤ 1
    · have hv1 : v = 1 := by omega
      subst hv1
      have hch1 : eliasChain 1 = [] := by rw [eliasChain]; simp
      have hit1 : eliasIters 1 = 0 := by rw [eliasIters]; simp
      rw [hch1, hit1, bitLength_one]
      simp only [List.nil_append, List.length_nil, Nat.add_zero]
      have e2 : 1 + pre.length = pre.length + 1 := by omega
      rw [e2]
    · push_neg at h1
      have h2v : 2 ≤ v := h1
      have hm1 : 1 ≤ bitLength v - 1 := by
        have := bitLength_two_le h2v
        omega
      have hmlt : bitLength v - 1 < v := by
        have := bitLength_le_self v
        omega
      have hch : eliasChain v = eliasChain (bitLength v - 1) ++ eliasBlock (bitLength v - 1) := by
        rw [eliasChain]
        rw [dif_neg (by omega : ¬ v ≤ 1)]
      have hit : eliasIters v = eliasIters (bitLength v - 1) + 1 := by
        rw [eliasIters]
        rw [dif_neg (by omega : ¬ v ≤ 1)]
      set m := bitLength v - 1 with hm
      obtain ⟨t, hbt, htl, hbv⟩ := eliasBlock_decomp hm1
      have hblm : (eliasBlock m).length = bitLength m := eliasBlock_length hm1
      have hassoc : pre ++ (eliasChain v ++ rest)
          = pre ++ (eliasChain m ++ (eliasBlock m ++ rest)) := by
        rw [hch, List.append_assoc]
      rw [hassoc, hit]
      have hfuel : f + (eliasIters m + 1) + 1 = (f + 1) + eliasIters m + 1 := by omega
      rw [hfuel]
      rw [ih m hmlt hm1 (f + 1) pre (eliasBlock m ++ rest) d]
      -- one more iteration consumes the final block of the chain
      set B := pre ++ (eliasChain m ++ (eliasBlock m ++ rest)) with hBdef
      have hX : B = (pre ++ eliasChain m) ++ (false :: (t ++ rest)) := by
        rw [hBdef, hbt]
        simp [List.append_assoc]
      have hi1 : pre.length + (eliasChain m).length = (pre ++ eliasChain m).length := by
        simp
      have hiB : pre.length + (eliasChain m).length < B.length := by
        rw [hX, hi1]
        simp
      have hgb : B.getD (pre.length + (eliasChain m).length) false = false := by
        rw [hX, hi1]
        exact getD_append_length _ _ _
      rw [decodeLoop_step0 _ _ _ _ _ _ hiB hgb]
      have hslice : pySlice B (pre.length + (eliasChain m).length + 1)
          (bitLength m + (pre.length + (eliasChain m).length)) = t := by
        have hX2 : B = ((pre ++ eliasChain m) ++ [false]) ++ (t ++ rest) := by
          rw [hX]
          simp
        have hlen2 : ((pre ++ eliasChain m) ++ [false]).length
            = pre.length + (eliasChain m).length + 1 := by
          rw [List.length_append, List.length_append, List.length_singleton]
        have hup : bitLength m + (pre.length + (eliasChain m).length)
            = (pre.length + (eliasChain m).length + 1) + t.length := by
          have hb1 : 1 ≤ bitLength m := bitLength_pos hm1
          omega
        rw [hX2, hup, ← hlen2]
        exact pySlice_block _ _ _
      rw [hslice, hbv]
      have hmv : m + 1 = bitLength v := by
        have := bitLength_two_le h2v
        omega
      have hlenv : (eliasChain v).length = (eliasChain m).length + bitLength m := by
        rw [hch]
        simp [hblm]
      have e3 : pre.length + (eliasChain m).length + bitLength m
          = pre.length + (eliasChain v).length := by
        rw [hlenv]
        omega
      rw [e3, hmv]

end EliasDecoding

namespace EliasDecoding

open EliasEncoding in
/-- Decoding an Elias code embedded at an arbitrary position in a larger bit
string returns the encoded value and the index one past the code. -/
theorem decode_at (v : Nat) (hv : 1 ≤ v) (pre rest : List Bool) :
    decode (pre ++ (elias_string v ++ rest)) pre.length
      = (v, pre.length + (elias_string v).length) := by
  obtain ⟨tv, htv, htvl, htvv⟩ := natBits_decomp hv
  have hbp : binPy v = natBits v := by rw [binPy, if_neg (by omega)]
  have henc : elias_string v = eliasChain v ++ natBits v := by
    rw [elias_string_eq, hbp]
  have hencl : (elias_string v).length = (eliasChain v).length + bitLength v := by
    rw [henc, List.length_append, natBits_length]
  have hassoc : pre ++ (elias_string v ++ rest)
      = pre ++ (eliasChain v ++ (natBits v ++ rest)) := by
    rw [henc, List.append_assoc]
  rw [decode, hassoc]
  set B := pre ++ (eliasChain v ++ (natBits v ++ rest)) with hBdef
  have hlenB : B.length = pre.length + ((eliasChain v).length
      + ((natBits v).length + rest.length)) := by
    rw [hBdef]
    simp
  have hiters := eliasIters_le_chain v
  have hblv : 1 ≤ bitLength v := bitLength_pos hv
  have hnbl : (natBits v).length = bitLength v := natBits_length v
  have hfuel : B.length + 1 = (B.length - eliasIters v) + eliasIters v + 1 := by
    have : eliasIters v ≤ B.length := by omega
    omega
  rw [hfuel, decodeLoop_chain v hv (B.length - eliasIters v) pre (natBits v ++ rest) 0]
  -- final component: the value itself, starting with a 1 bit
  have hX : B = (pre ++ eliasChain v) ++ (true :: (tv ++ rest)) := by
    rw [hBdef, htv]
    simp [List.append_assoc]
  have hi1 : pre.length + (eliasChain v).length = (pre ++ eliasChain v).length := by
    simp
  have hiB : pre.length + (eliasChain v).length < B.length := by omega
  have hgb : B.getD (pre.length + (eliasChain v).length) false = true := by
    rw [hX, hi1]
    exact getD_append_length _ _ _
  rw [decodeLoop_step1 _ _ _ _ _ _ hiB hgb]
  have hslice : pySlice B (pre.length + (eliasChain v).length + 1)
      (bitLength v + (pre.length + (eliasChain v).length)) = tv := by
    have hX2 : B = ((pre ++ eliasChain v) ++ [true]) ++ (tv ++ rest) := by
      rw [hX]
      simp
    have hlen2 : ((pre ++ eliasChain v) ++ [true]).length
        = pre.length + (eliasChain v).length + 1 := by
      rw [List.length_append, List.length_append, List.length_singleton]
    have hup : bitLength v + (pre.length + (eliasChain v).length)
        = (pre.length + (eliasChain v).length + 1) + tv.length := by omega
    rw [hX2, hup, ← hlen2]
    exact pySlice_block _ _ _
  rw [hslice, htvv]
  have e5 : bitLength v + (pre.length + (eliasChain v).length)
      = pre.length + (elias_string v).length := by omega
  rw [e5]

/-- If the bit string holds no `1` bit at or after the start index, the
decoder never reaches the `else` branch, so the returned value is the
initial `self.decoded = 0`. -/
theorem decodeLoop_allzero : ∀ (f : Nat) (bits : List Bool) (i value d ep : Nat),
    (∀ j, i ≤ j → bits.getD j false = false) →
    (decodeLoop f bits i value d ep).1 = d := by
  intro f
  induction f with
  | zero => intro bits i value d ep _; rfl
  | succ f ih =>
    intro bits i value d ep h
    by_cases hi : i < bits.length
    · rw [decodeLoop_step0 _ _ _ _ _ _ hi (h i le_rfl)]
      exact ih _ _ _ _ _ (fun j hj => h j (by omega))
    · rw [decodeLoop_stop _ _ _ _ _ _ hi]

theorem decode_allzero (bits : List Bool) (i : Nat)
    (h : ∀ j, i ≤ j → bits.getD j false = false) :
    (decode bits i).1 = 0 :=
  decodeLoop_allzero _ _ _ _ _ _ h

end EliasDecoding

/-- Claim C5: for every integer `v ≥ 1`, decoding the Elias encoding of `v`
at bit index 0 returns `(v, length of the encoding)`, and on any bit string
that begins with the Elias code of `v` followed by arbitrary suffix bits the
decoder returns the same value together with the index where the suffix
starts. -/
theorem claim_C5_elias_bijection (v : Nat) (rest : List Bool) (hv : 1 ≤ v) :
    EliasDecoding.decode (EliasEncoding.elias_string v) 0
        = (v, (EliasEncoding.elias_string v).length)
    ∧ EliasDecoding.decode (EliasEncoding.elias_string v ++ rest) 0
        = (v, (EliasEncoding.elias_string v).length) := by
  constructor
  · have h := EliasDecoding.decode_at v hv [] []
    simpa using h
  · have h := EliasDecoding.decode_at v hv [] rest
    simpa using h

/-- Witness for C5 at `v = 5` with suffix `[1]`. -/
theorem claim_C5_elias_bijection_witness :
    EliasDecoding.decode (EliasEncoding.elias_string 5) 0
        = (5, (EliasEncoding.elias_string 5).length)
    ∧ EliasDecoding.decode (EliasEncoding.elias_string 5 ++ [true]) 0
        = (5, (EliasEncoding.elias_string 5).length) :=
  claim_C5_elias_bijection 5 [true] (by norm_num)

/-- Claim C2, counterexample: the encoder does not map 5 to `"00101"` nor
8 to `"0001000"` (those are Elias gamma codes; the code implements an
omega-style recursive code), and the decoder does not return 5 resp. 8 on
those strings. -/
theorem claim_C2_counterexample :
    EliasEncoding.elias_string 5 ≠ [false, false, true, false, true]
    ∧ (EliasDecoding.decode [false, false, true, false, true] 0).1 ≠ 5
    ∧ EliasEncoding.elias_string 8 ≠ [false, false, false, true, false, false, false]
    ∧ (EliasDecoding.decode [false, false, false, true, false, false, false] 0).1 ≠ 8 := by
  decide

/-- Claim C2 as amended: the encoder maps 1 to `"1"`, 2 to `"010"`,
5 to `"000101"` and 8 to `"0011000"`, and the decoder, started at index 0
on each of those strings, returns the corresponding integer. -/
theorem claim_C2_amended_values :
    EliasEncoding.elias_string 1 = [true]
    ∧ EliasEncoding.elias_string 2 = [false, true, false]
    ∧ EliasEncoding.elias_string 5 = [false, false, false, true, false, true]
    ∧ EliasEncoding.elias_string 8 = [false, false, true, true, false, false, false]
    ∧ (EliasDecoding.decode [true] 0).1 = 1
    ∧ (EliasDecoding.decode [false, true, false] 0).1 = 2
    ∧ (EliasDecoding.decode [false, false, false, true, false, true] 0).1 = 5
    ∧ (EliasDecoding.decode [false, false, true, true, false, false, false] 0).1 = 8 := by
  decide

/-! ## Suffix array and forward BWT (src/bwtzip.py `SuffixArray`, `BWT_Encoding`) -/

/-- Python string `<=` (lexicographic comparison on byte values). -/
def pyStrLE : List Nat → List Nat → Bool
  | [], _ => true
  | _ :: _, [] => false
  | a :: as, b :: bs => if a < b then true else if b < a then false else pyStrLE as bs

/-- Python tuple `<=` on `(suffix, index)` pairs, as used by `array.sort()`
in `naive_suffix_array`. -/
def pairLE (p q : List Nat × Nat) : Bool :=
  if p.1 = q.1 then decide (p.2 ≤ q.2) else pyStrLE p.1 q.1

namespace SuffixArray

/-- The list of `(suffix, start index)` pairs built by `naive_suffix_array`. -/
def suffixPairs (text : List Nat) : List (List Nat × Nat) :=
  (List.range text.length).map (fun i => (text.drop i, i))

/-- The sorted pair list (`array.sort()`; Python's stable sort is modelled
by insertion sort, which computes the same list for any comparator). -/
def sortedPairs (text : List Nat) : List (List Nat × Nat) :=
  List.insertionSort (fun p q => pairLE p q = true) (suffixPairs text)

/-- `SuffixArray.naive_suffix_array`: 1-indexed sorted suffix start
positions. -/
def naive_suffix_array (text : List Nat) : List Nat :=
  (sortedPairs text).map (fun x => x.2 + 1)

end SuffixArray

namespace BWT_Encoding

/-- `BWT_Encoding.bwt`: `BWT[k] = T[(SA[k] + n - 2) % n]` over the 1-indexed
suffix array. -/
def bwt (text : List Nat) : List Nat :=
  (SuffixArray.naive_suffix_array text).map
    (fun y => text.getD ((y + text.length - 2) % text.length) 0)

end BWT_Encoding

/-- The run-length decomposition computed by the loop in `Compress.message`:
walk the BWT string comparing `bwt[i]` and `bwt[i+1]`, incrementing a
counter on equality, emitting `(symbol, counter)` on a change, and emitting
the final run after the loop. -/
def runsLoop : List Nat → Nat → List (Nat × Nat)
  | [], _ => []
  | [c], counter => [(c, counter)]
  | c :: c2 :: rest, counter =>
    if c = c2 then runsLoop (c2 :: rest) (counter + 1)
    else (c, counter) :: runsLoop (c2 :: rest) 1

/-- Maximal-run decomposition of a BWT string (counter starts at 1). -/
def runsOf (l : List Nat) : List (Nat × Nat) := runsLoop l 1

/-- Claim C3, counterexample: the BWT of `"aaaa$"` is not `"a$aaaa"` (that
string is not even a permutation of the 5 input characters), and the run
decomposition is not `(a,1)($,1)(a,4)`. -/
theorem claim_C3_counterexample :
    BWT_Encoding.bwt [97, 97, 97, 97, 36] ≠ [97, 36, 97, 97, 97, 97]
    ∧ runsOf (BWT_Encoding.bwt [97, 97, 97, 97, 36]) ≠ [(97, 1), (36, 1), (97, 4)] := by
  decide

/-- Claim C3 as amended: for the input text `"aaaa"`, the forward BWT of
`"aaaa$"` is `"aaaa$"` (four `a`s then the sentinel), and the maximal-run
decomposition the compressor emits for it is `(a,4)($,1)`. -/
theorem claim_C3_amended_bwt_runs :
    BWT_Encoding.bwt [97, 97, 97, 97, 36] = [97, 97, 97, 97, 36]
    ∧ runsOf (BWT_Encoding.bwt [97, 97, 97, 97, 36]) = [(97, 4), (36, 1)] := by
  decide

/-! ## Decompressor (src/bwtunzip.py) -/

/-- `ReadBinaryFile`: each byte becomes 8 bits, MSB first
(`format(byte, '08b')`). -/
def bytesToBits (bytes : List Nat) : List Bool :=
  bytes.flatMap (fun b => zfill 8 (binPy b))

/-- `Node`: a payload and two child slots (`child_nodes[0]`/`[1]`). -/
inductive PyNode : Type where
  | mk : Option Nat → Option PyNode → Option PyNode → PyNode

def PyNode.payload : PyNode → Option Nat
  | .mk p _ _ => p

/-- Child selection: `false` is `child_nodes[0]` (bit `'0'`), `true` is
`child_nodes[1]` (bit `'1'`). -/
def PyNode.child : PyNode → Bool → Option PyNode
  | .mk _ l _, false => l
  | .mk _ _ r, true => r

namespace HuffmanDecoding

/-- One insertion of `generate_huffman_tree`: walk the code bits, creating
missing nodes, then set the payload at the end of the path. -/
def insertCode : PyNode → List Bool → Nat → PyNode
  | .mk _ l r, [], c => .mk (some c) l r
  | .mk p l r, false :: bs, c =>
      .mk p (some (insertCode (match l with | some t => t | none => .mk none none none) bs c)) r
  | .mk p l r, true :: bs, c =>
      .mk p l (some (insertCode (match r with | some t => t | none => .mk none none none) bs c))

/-- `generate_huffman_tree`: insert every `(char, code)` pair of the decoded
header into a fresh trie. -/
def generate_huffman_tree (unique_chars : List (Nat × List Bool)) : PyNode :=
  unique_chars.foldl (fun t p => insertCode t p.2 p.1) (.mk none none none)

/-- Result of `HuffmanDecoding.decode`: a payload and the index after the
consumed code; `(None, None)` when the bits run out mid-walk; or an
uncaught `AttributeError` when the walk steps to a missing child. -/
inductive DecodeRes : Type where
  | found : Nat → Nat → DecodeRes
  | exhausted : DecodeRes
  | crash : DecodeRes
deriving DecidableEq

/-- The `for bit in bit_string[start_index:]` walk of
`HuffmanDecoding.decode`, carrying the absolute index. -/
def walk : PyNode → List Bool → Nat → DecodeRes
  | _, [], _ => .exhausted
  | t, b :: rest, idx =>
    match t.child b with
    | none => .crash
    | some t2 =>
      match t2.payload with
      | some c => .found c (idx + 1)
      | none => walk t2 rest (idx + 1)

/-- `HuffmanDecoding.decode` on the bit string from `start` on. -/
def decode (t : PyNode) (bits : List Bool) (start : Nat) : DecodeRes :=
  walk t (bits.drop start) start

end HuffmanDecoding

namespace Decompress

/-- The `for _ in range(self.no_unique)` loop of `decode_header`: read 7
ASCII bits, an Elias-coded code length, and that many raw code bits.  (On a
truncated stream Python would raise `ValueError` on an empty `int(·, 2)`
slice; this model returns 0 there — the development only evaluates it where
the slices are full or the loop body never runs.) -/
def headerLoop (bits : List Bool) :
    Nat → Nat → List (Nat × List Bool) → List (Nat × List Bool) × Nat
  | 0, e, acc => (acc, e)
  | u + 1, e, acc =>
    let c := bitsToNat (pySlice bits e (e + 7))
    let L := (EliasDecoding.decode bits (e + 7)).1
    let e2 := (EliasDecoding.decode bits (e + 7)).2
    headerLoop bits u (e2 + L) (acc ++ [(c, pySlice bits e2 (e2 + L))])

/-- `Decompress.decode_header`: text length, unique-symbol count, symbol
table in stream order, and the index where the payload starts. -/
def decode_header (bits : List Bool) : Nat × Nat × List (Nat × List Bool) × Nat :=
  let n := (EliasDecoding.decode bits 0).1
  let e1 := (EliasDecoding.decode bits 0).2
  let u := (EliasDecoding.decode bits e1).1
  let e2 := (EliasDecoding.decode bits e1).2
  let tb := headerLoop bits u e2 []
  (n, u, tb.1, tb.2)

/-- Result of the `decode_data` loop: the reconstructed BWT string and the
final index, or the string accumulated before an uncaught exception. -/
inductive DataRes : Type where
  | ok : List Nat → Nat → DataRes
  | crash : List Nat → DataRes
deriving DecidableEq

/-- The BWT buffer held in a `DataRes`. -/
def DataRes.bwt : DataRes → List Nat
  | .ok b _ => b
  | .crash b => b

/-- The `while self.end_index < len(self.bit_string)` loop of
`decode_data` (fuel-driven; the index strictly increases each iteration,
so `len + 1` fuel suffices). -/
def dataLoop (t : PyNode) (bits : List Bool) : Nat → Nat → List Nat → DataRes
  | 0, e, acc => .ok acc e
  | f + 1, e, acc =>
    if e < bits.length then
      match HuffmanDecoding.decode t bits e with
      | .crash => .crash acc
      | .exhausted => .ok acc e
      | .found c e1 =>
        dataLoop t bits f (EliasDecoding.decode bits e1).2
          (acc ++ List.replicate (EliasDecoding.decode bits e1).1 c)
    else .ok acc e

/-- `Decompress.decode_data` starting at the end of the header. -/
def decode_data (t : PyNode) (bits : List Bool) (start : Nat) : DataRes :=
  dataLoop t bits (bits.length + 1) start []

end Decompress

namespace BWT_Decoding

/-- `rank_order`: one pass over all indices computing `rank` (index of the
first occurrence of each symbol in the sorted first column), the occurrence
counters `order_checker`, and `order[k]` (occurrences of `bwt[k]` in
`bwt[0..k]`).  Python's `sorted` is modelled by insertion sort. -/
def rank_order (bwt : List Nat) : List (Option Nat) × List Nat :=
  let fc := List.insertionSort (fun a b : Nat => a ≤ b) bwt
  let st := (List.range bwt.length).foldl
    (fun (st : List (Option Nat) × List Nat × List Nat) idx =>
      let rk := st.1
      let oc := st.2.1
      let od := st.2.2
      let rk2 := if (rk.getD (fc.getD idx 0 - 36) none) = none
        then rk.set (fc.getD idx 0 - 36) (some idx) else rk
      let j := bwt.getD idx 0 - 36
      (rk2, oc.set j (oc.getD j 0 + 1), od.set idx (oc.getD j 0 + 1)))
    (List.replicate 91 none, List.replicate 91 0, List.replicate bwt.length 0)
  (st.1, st.2.2)

/-- `BWT_Decoding.formula`: `rank[bwt[counter]] + order[counter] - 1`.
(Python would raise if the rank entry were `None`; for a symbol occurring
in `bwt` it is always set.) -/
def formula (bwt : List Nat) (rank : List (Option Nat)) (order : List Nat)
    (counter : Nat) : Nat :=
  (rank.getD (bwt.getD counter 0 - 36) none).getD 0 + order.getD counter 0 - 1

/-- The decode loop of `BWT_Decoding.decode`: fill `answer` from the right
following the LF mapping, breaking when the sentinel is read. -/
def decodeLoop (bwt : List Nat) (rank : List (Option Nat)) (order : List Nat) :
    List Nat → Nat → List (Option Nat) → List (Option Nat)
  | [], _, ans => ans
  | i :: rest, counter, ans =>
    if bwt.getD counter 0 = 36 then ans
    else decodeLoop bwt rank order rest (formula bwt rank order counter)
      (ans.set i (some (bwt.getD counter 0)))

/-- `BWT_Decoding.decode` + `get_text`: run the loop over indices
`len-2, …, 0` on `answer = [None] * (len - 1)` and join.  (Python's
`''.join` raises if some entry is still `None`; entries left `None` are
dropped here, and the correctness theorems show none remain.) -/
def get_text (bwt : List Nat) : List Nat :=
  let ro := rank_order bwt
  (decodeLoop bwt ro.1 ro.2 (List.range (bwt.length - 1)).reverse 0
    (List.replicate (bwt.length - 1) none)).filterMap id

end BWT_Decoding

namespace Decompress

/-- `Decompress.run` on a bit string: parse the header, build the trie,
decode the payload, invert the BWT; `none` when `decode_data` raised. -/
def run (bits : List Bool) : Option (List Nat) :=
  let hd := decode_header bits
  let t := HuffmanDecoding.generate_huffman_tree hd.2.2.1
  match decode_data t bits hd.2.2.2 with
  | .crash _ => none
  | .ok bwtText _ => some (BWT_Decoding.get_text bwtText)

/-- `Decompress.__init__` on the bytes of the binary file. -/
def decompressBytes (bytes : List Nat) : Option (List Nat) :=
  run (bytesToBits bytes)

end Decompress

namespace EliasDecoding

/-- Starting at or past the end of the stream, the loop never runs: the
result is the initial `(decoded, end_pointer) = (0, start + 1)`. -/
theorem decode_past_end (bits : List Bool) (i : Nat) (h : bits.length ≤ i) :
    decode bits i = (0, i + 1) := by
  rw [decode]
  exact decodeLoop_stop _ _ _ _ _ _ (by omega)

/-- The returned `end_pointer` always lies strictly past the start index. -/
theorem decodeLoop_snd_ge : ∀ (f : Nat) (bits : List Bool) (i value d ep : Nat),
    i + 1 ≤ ep → i + 1 ≤ (decodeLoop f bits i value d ep).2 := by
  intro f
  induction f with
  | zero => intro bits i value d ep h; exact h
  | succ f ih =>
    intro bits i value d ep h
    by_cases hi : i < bits.length
    · by_cases hb : bits.getD i false = false
      · rw [decodeLoop_step0 _ _ _ _ _ _ hi hb]
        have := ih bits (i + value) (bitsToNat (true :: pySlice bits (i + 1) ep) + 1) d
          ((bitsToNat (true :: pySlice bits (i + 1) ep) + 1) + (i + value)) (by omega)
        omega
      · have hb2 : bits.getD i false = true := by
          cases h2 : bits.getD i false
          · exact absurd h2 hb
          · rfl
        rw [decodeLoop_step1 _ _ _ _ _ _ hi hb2]
        exact h
    · rw [decodeLoop_stop _ _ _ _ _ _ hi]
      exact h

theorem decode_snd_ge (bits : List Bool) (i : Nat) :
    i + 1 ≤ (decode bits i).2 :=
  decodeLoop_snd_ge _ _ _ _ _ _ le_rfl

end EliasDecoding

namespace HuffmanDecoding

/-- A successful Huffman decode consumes at least one bit. -/
theorem walk_found_ge : ∀ (l : List Bool) (t : PyNode) (idx c j : Nat),
    walk t l idx = .found c j → idx + 1 ≤ j := by
  intro l
  induction l with
  | nil => intro t idx c j h; simp [walk] at h
  | cons b rest ih =>
    intro t idx c j h
    rw [walk] at h
    cases hc : t.child b with
    | none => rw [hc] at h; simp at h
    | some t2 =>
      rw [hc] at h
      dsimp only at h
      cases hp : t2.payload with
      | some c2 =>
        rw [hp] at h
        dsimp only at h
        cases h
        omega
      | none =>
        rw [hp] at h
        dsimp only at h
        have := ih t2 (idx + 1) c j h
        omega

theorem decode_found_ge (t : PyNode) (bits : List Bool) (start c j : Nat)
    (h : decode t bits start = .found c j) : start + 1 ≤ j :=
  walk_found_ge _ _ _ _ _ h

end HuffmanDecoding

namespace Decompress

/-- On an all-zero tail, one pass of `decode_data` never extends the BWT
buffer: a symbol found inside the padding is followed by an all-zero Elias
region decoding to count 0, so the appended run is empty. -/
theorem dataLoop_allzero : ∀ (f : Nat) (t : PyNode) (bits : List Bool) (e : Nat)
    (acc : List Nat), (∀ j, e ≤ j → bits.getD j false = false) →
    (dataLoop t bits f e acc).bwt = acc := by
  intro f
  induction f with
  | zero => intro t bits e acc _; rfl
  | succ f ih =>
    intro t bits e acc h
    rw [dataLoop]
    by_cases hi : e < bits.length
    · rw [if_pos hi]
      cases hd : HuffmanDecoding.decode t bits e with
      | crash => rfl
      | exhausted => rfl
      | found c e1 =>
        have he1 : e + 1 ≤ e1 := HuffmanDecoding.decode_found_ge _ _ _ _ _ hd
        have hz : (EliasDecoding.decode bits e1).1 = 0 :=
          EliasDecoding.decode_allzero bits e1 (fun j hj => h j (by omega))
        have he2 : e1 + 1 ≤ (EliasDecoding.decode bits e1).2 :=
          EliasDecoding.decode_snd_ge bits e1
        show (dataLoop t bits f (EliasDecoding.decode bits e1).2
          (acc ++ List.replicate (EliasDecoding.decode bits e1).1 c)).bwt = acc
        rw [hz]
        simp only [List.replicate_zero, List.append_nil]
        exact ih t bits _ acc (fun j hj => h j (by omega))
    · rw [if_neg hi]
      rfl

end Decompress

/-- Claim C9: on a bit string holding no `1` bit at or after index `i`, the
Elias decoder returns the value 0, and the `decode_data` loop started at
`i` leaves the reconstructed BWT buffer unchanged (any symbol Huffman-
decoded from such a region is followed by an all-zero Elias region decoding
to count 0, hence an empty run).  Since the compressor's 0-to-7 padding
bits are all zero, the padding never adds symbols to the decompressor's
BWT buffer. -/
theorem claim_C9_padding_harmless (bits : List Bool) (i : Nat) (t : PyNode)
    (f : Nat) (acc : List Nat)
    (h : ∀ j, i ≤ j → bits.getD j false = false) :
    (EliasDecoding.decode bits i).1 = 0
    ∧ (Decompress.dataLoop t bits f i acc).bwt = acc :=
  ⟨EliasDecoding.decode_allzero bits i h,
   Decompress.dataLoop_allzero f t bits i acc h⟩

/-- Witness for C9: bit string `101 00` with two zero padding bits after
index 3, a one-leaf trie, fuel 6, buffer `[97]`. -/
theorem claim_C9_padding_harmless_witness :
    (EliasDecoding.decode [true, false, true, false, false] 3).1 = 0
    ∧ (Decompress.dataLoop (PyNode.mk none (some (PyNode.mk (some 97) none none)) none)
        [true, false, true, false, false] 6 3 [97]).bwt = [97] :=
  claim_C9_padding_harmless [true, false, true, false, false] 3
    (PyNode.mk none (some (PyNode.mk (some 97) none none)) none) 6 [97]
    (by
      intro j hj
      rcases Nat.lt_or_ge j 5 with h5 | h5
      · interval_cases j <;> rfl
      · exact List.getD_eq_default _ _ (by simpa using h5))

/-- Claim C4, counterexample: the one-byte stream `0x00` is erroneous (it
ends inside the very first Elias component), yet decompression does not
raise: it returns the empty text, which the program then writes to
`recovered.txt` with exit status 0. -/
theorem claim_C4_counterexample :
    Decompress.decompressBytes [0] = some [] := by
  decide

/-- Claim C4 as amended: hitting end-of-stream mid-Elias-component is not a
fatal decode error — the decoder returns the initialized value 0 and the
pointer `start + 1`; consequently there are erroneous streams (e.g. the
single byte `0x00`) on which decompression completes normally and produces
(empty) output instead of exiting nonzero. -/
theorem claim_C4_amended_no_error (bits : List Bool) (i : Nat)
    (h : bits.length ≤ i) :
    EliasDecoding.decode bits i = (0, i + 1)
    ∧ Decompress.decompressBytes [0] = some [] :=
  ⟨EliasDecoding.decode_past_end bits i h, claim_C4_counterexample⟩

/-- Witness for C4's amended claim at `bits = [1,1]`, `i = 5`. -/
theorem claim_C4_amended_no_error_witness :
    EliasDecoding.decode [true, true] 5 = (0, 6)
    ∧ Decompress.decompressBytes [0] = some [] :=
  claim_C4_amended_no_error [true, true] 5 (by decide)

/-! ## Huffman encoding (src/bwtzip.py `HuffManEncoding`) and the compressor -/

/-- One entry of the `characters` list handed to `HuffManEncoding`:
initially the occurrence count (a Python `int`), replaced by the
accumulating Huffman code string on the first `append` (the `int += str`
in `HuffManEncoding.append` raises `TypeError` and the `except` branch
overwrites the entry with the bit). -/
abbrev HuffEntry := Sum Nat (List Bool)

/-- Python tuple `<=` on `(count, symbol-string)` heap elements. -/
def heapLE (p q : Nat × List Nat) : Bool :=
  if p.1 = q.1 then pyStrLE p.2 q.2 else decide (p.1 < q.1)

namespace HuffManEncoding

/-- `HuffManEncoding.append`. -/
def appendBit (chars : List HuffEntry) (index : Nat) (value : Bool) : List HuffEntry :=
  match chars.getD index (Sum.inl 0) with
  | Sum.inl _ => chars.set index (Sum.inr [value])
  | Sum.inr s => chars.set index (Sum.inr (s ++ [value]))

/-- Append `value` to every character of a heap element's symbol string
(the two `for char in ...` loops of `huffman_encoding`). -/
def appendAll (chars : List HuffEntry) (syms : List Nat) (value : Bool) : List HuffEntry :=
  syms.foldl (fun cs c => appendBit cs (c - 36) value) chars

/-- A least element of `x :: xs` under the tuple order `heapLE`.  This
models `heapq.heappop`: the tuple order is antisymmetric on values, so the
least value is independent of the heap's internal layout (`heapify` only
rearranges the list). -/
def findMin (x : Nat × List Nat) (xs : List (Nat × List Nat)) : Nat × List Nat :=
  xs.foldl (fun m y => if heapLE m y then m else y) x

/-- `heapq.heappop`: remove and return a least element (the result on an
empty heap is irrelevant — Python raises there, and the loop guard
prevents it). -/
def popMin : List (Nat × List Nat) → (Nat × List Nat) × List (Nat × List Nat)
  | [] => ((0, []), [])
  | x :: xs => (findMin x xs, (x :: xs).erase (findMin x xs))

/-- The `while len(self.unique) > 1` loop of `huffman_encoding`
(fuel-driven; each iteration shrinks the heap by one element, so
`unique.length` fuel suffices).  `heappush` is modelled as list insertion
at the front — only the multiset of heap elements matters for `popMin`. -/
def hLoop : Nat → List HuffEntry → List (Nat × List Nat) →
    List HuffEntry × List (Nat × List Nat)
  | 0, chars, heap => (chars, heap)
  | f + 1, chars, heap =>
    if 1 < heap.length then
      hLoop f
        (appendAll (appendAll chars (popMin heap).1.2 false)
          (popMin (popMin heap).2).1.2 true)
        (((popMin heap).1.1 + (popMin (popMin heap).2).1.1,
          (popMin heap).1.2 ++ (popMin (popMin heap).2).1.2)
          :: (popMin (popMin heap).2).2)
    else (chars, heap)

/-- `HuffManEncoding.huffman_encoding`. -/
def huffman_encoding (chars : List HuffEntry) (unique : List (Nat × List Nat)) :
    List HuffEntry × List (Nat × List Nat) :=
  hLoop unique.length chars unique

/-- `get_unique_characters`: the symbol string of `self.unique[0]`. -/
def get_unique_characters (heap : List (Nat × List Nat)) : List Nat :=
  (heap.headD (0, [])).2

/-- `reverse_all`: reverse each accumulated code string.  (Python raises on
an entry still holding an `int`; with at least two distinct symbols every
unique character holds a code by then, so that branch is never reached.) -/
def reverse_all (chars : List HuffEntry) (syms : List Nat) : List HuffEntry :=
  syms.foldl (fun cs c =>
    match cs.getD (c - 36) (Sum.inl 0) with
    | Sum.inl _ => cs
    | Sum.inr s => cs.set (c - 36) (Sum.inr s.reverse)) chars

end HuffManEncoding

namespace Compress

/-- The first loop of `Compress.header`: occurrence counts in a 91-entry
array indexed by `byte - 36`. -/
def countChars (text : List Nat) : List Nat :=
  text.foldl (fun cs c => cs.set (c - 36) (cs.getD (c - 36) 0 + 1))
    (List.replicate 91 0)

/-- The second loop of `Compress.header`: `self.unique`, one
`(count, single-character string)` per symbol with a positive count, in
increasing byte order. -/
def uniqueList (text : List Nat) : List (Nat × List Nat) :=
  (List.range 91).filterMap (fun i =>
    if 0 < (countChars text).getD i 0
    then some ((countChars text).getD i 0, [i + 36]) else none)

/-- The `HuffManEncoding` constructed in `Compress.header` (its `characters`
list starts as the counts array). -/
def huffRun (text : List Nat) : List HuffEntry × List (Nat × List Nat) :=
  HuffManEncoding.huffman_encoding ((countChars text).map Sum.inl) (uniqueList text)

/-- The serialization order of symbols
(`self.huffman_encoding.get_unique_characters()`). -/
def huffOrder (text : List Nat) : List Nat :=
  HuffManEncoding.get_unique_characters (huffRun text).2

/-- The `characters` array after construction and `reverse_all`. -/
def huffChars (text : List Nat) : List HuffEntry :=
  HuffManEncoding.reverse_all (huffRun text).1 (huffOrder text)

/-- The finished Huffman code of byte `c`
(`self.huffman_encoding[ord(c) - 36]`). -/
def codeOf (text : List Nat) (c : Nat) : List Bool :=
  match (huffChars text).getD (c - 36) (Sum.inl 0) with
  | Sum.inl _ => []
  | Sum.inr s => s

/-- 7-bit ASCII of a symbol, MSB first (`bin(ord(char))[2:].zfill(7)`). -/
def ascii7 (c : Nat) : List Bool := zfill 7 (binPy c)

/-- `Compress.header` (on the text that already carries the sentinel):
`Elias(len(text))`, `Elias(len(unique))`, then per symbol in Huffman order
its 7-bit ASCII, the Elias code of its code length, and the code bits. -/
def header (text : List Nat) : List Bool :=
  EliasEncoding.elias_string text.length
    ++ EliasEncoding.elias_string (uniqueList text).length
    ++ (huffOrder text).flatMap (fun c =>
        ascii7 c ++ EliasEncoding.elias_string (codeOf text c).length ++ codeOf text c)

/-- The run-length emission loop of `Compress.message`: on each change of
symbol emit `code(c) ++ Elias(counter)`, and emit the final run after the
loop. -/
def msgLoop (code : Nat → List Bool) : List Nat → Nat → List Bool
  | [], _ => []
  | [c], counter => code c ++ EliasEncoding.elias_string counter
  | c :: c2 :: rest, counter =>
    if c = c2 then msgLoop code (c2 :: rest) (counter + 1)
    else (code c ++ EliasEncoding.elias_string counter) ++ msgLoop code (c2 :: rest) 1

/-- `Compress.message` (on the text with sentinel). -/
def message (text : List Nat) : List Bool :=
  msgLoop (codeOf text) (BWT_Encoding.bwt text) 1

/-- The `while len(self.to_write) >= 8` loop of `Compress.write` plus the
final padded byte (fuel-driven; `s.length` fuel suffices since every
iteration drops 8 bits). -/
def writeBytes : Nat → List Bool → List Nat
  | f + 1, s =>
    if 8 ≤ s.length then bitsToNat (s.take 8) :: writeBytes f (s.drop 8)
    else if 0 < s.length then [bitsToNat (s ++ List.replicate (8 - s.length) false)]
    else []
  | 0, s =>
    if 0 < s.length then [bitsToNat (s ++ List.replicate (8 - s.length) false)]
    else []

/-- The full bit string `self.to_write` accumulated by `Compress.__init__`
on user text `t` (the constructor appends the sentinel `'$'`). -/
def compressBits (t : List Nat) : List Bool :=
  header (t ++ [36]) ++ message (t ++ [36])

/-- The bytes written to `bwtencoded.bin`. -/
def outBytes (t : List Nat) : List Nat :=
  writeBytes (compressBits t).length (compressBits t)

end Compress

/-! ## Huffman construction invariants (towards prefix-freeness) -/

/-- The bit string held in a `characters` entry (`[]` while the entry still
holds the integer count). -/
def entryBits : HuffEntry → List Bool
  | Sum.inl _ => []
  | Sum.inr s => s

/-- The accumulated code bits of symbol `c` in a `characters` list. -/
def codeBits (chars : List HuffEntry) (c : Nat) : List Bool :=
  entryBits (chars.getD (c - 36) (Sum.inl 0))

theorem getD_set_self {α : Type} (l : List α) (i : Nat) (x d : α)
    (h : i < l.length) : (l.set i x).getD i d = x := by
  simp [List.getD_eq_getElem?_getD, List.getElem?_set_self, h]

theorem getD_set_ne {α : Type} (l : List α) (i j : Nat) (x d : α)
    (h : i ≠ j) : (l.set i x).getD j d = l.getD j d := by
  simp [List.getD_eq_getElem?_getD, List.getElem?_set_ne, h]

namespace HuffManEncoding

theorem appendBit_length (chars : List HuffEntry) (i : Nat) (v : Bool) :
    (appendBit chars i v).length = chars.length := by
  rw [appendBit]
  cases chars.getD i (Sum.inl 0) <;> simp

theorem appendBit_getD_self (chars : List HuffEntry) (i : Nat) (v : Bool)
    (h : i < chars.length) :
    entryBits ((appendBit chars i v).getD i (Sum.inl 0))
      = entryBits (chars.getD i (Sum.inl 0)) ++ [v] := by
  rw [appendBit]
  cases he : chars.getD i (Sum.inl 0) with
  | inl k => rw [getD_set_self _ _ _ _ h]; rfl
  | inr s => rw [getD_set_self _ _ _ _ h]; rfl

theorem appendBit_getD_ne (chars : List HuffEntry) (i j : Nat) (v : Bool)
    (h : i ≠ j) :
    (appendBit chars i v).getD j (Sum.inl 0) = chars.getD j (Sum.inl 0) := by
  rw [appendBit]
  cases chars.getD i (Sum.inl 0) <;> exact getD_set_ne _ _ _ _ _ h

theorem appendAll_length (syms : List Nat) : ∀ (chars : List HuffEntry) (v : Bool),
    (appendAll chars syms v).length = chars.length := by
  induction syms with
  | nil => intro chars v; rfl
  | cons s rest ih =>
    intro chars v
    rw [appendAll, List.foldl_cons]
    have := ih (appendBit chars (s - 36) v) v
    rw [appendAll] at this
    rw [this, appendBit_length]

theorem appendAll_getD_outside (syms : List Nat) : ∀ (chars : List HuffEntry)
    (v : Bool) (j : Nat), (∀ c ∈ syms, c - 36 ≠ j) →
    (appendAll chars syms v).getD j (Sum.inl 0) = chars.getD j (Sum.inl 0) := by
  induction syms with
  | nil => intro chars v j _; rfl
  | cons s rest ih =>
    intro chars v j h
    rw [appendAll, List.foldl_cons]
    have h1 := ih (appendBit chars (s - 36) v) v j
      (fun c hc => h c (List.mem_cons_of_mem _ hc))
    rw [appendAll] at h1
    rw [h1, appendBit_getD_ne _ _ _ _ (h s (List.mem_cons_self _ _))]

theorem appendAll_codeBits_mem (syms : List Nat) : ∀ (chars : List HuffEntry)
    (v : Bool) (c : Nat), syms.Nodup → c ∈ syms → 36 ≤ c →
    (∀ d ∈ syms, 36 ≤ d) → c - 36 < chars.length →
    codeBits (appendAll chars syms v) c = codeBits chars c ++ [v] := by
  induction syms with
  | nil => intro chars v c _ hc; simp at hc
  | cons s rest ih =>
    intro chars v c hnd hc hc36 hd36 hlen
    rw [appendAll, List.foldl_cons]
    rcases List.mem_cons.mp hc with hcs | hcr
    · subst hcs
      have hout : ∀ d ∈ rest, d - 36 ≠ c - 36 := by
        intro d hd hdc
        have hd36d := hd36 d (List.mem_cons_of_mem _ hd)
        have : d = c := by omega
        subst this
        exact (List.nodup_cons.mp hnd).1 hd
      have h1 := appendAll_getD_outside rest (appendBit chars (c - 36) v) v (c - 36) hout
      rw [codeBits]
      change entryBits ((appendAll (appendBit chars (c - 36) v) rest v).getD
        (c - 36) (Sum.inl 0)) = _
      rw [h1, appendBit_getD_self _ _ _ hlen]
      rfl
    · have hs : s - 36 ≠ c - 36 := by
        intro hsc
        have hs36 := hd36 s (List.mem_cons_self _ _)
        have : s = c := by omega
        subst this
        exact (List.nodup_cons.mp hnd).1 hcr
      have h2 := ih (appendBit chars (s - 36) v) v c (List.nodup_cons.mp hnd).2 hcr hc36
        (fun d hd => hd36 d (List.mem_cons_of_mem _ hd))
        (by rw [appendBit_length]; exact hlen)
      rw [appendAll] at h2
      rw [h2]
      rw [codeBits, codeBits, appendBit_getD_ne _ _ _ _ hs]

theorem appendAll_codeBits_outside (syms : List Nat) (chars : List HuffEntry)
    (v : Bool) (c : Nat) (h : ∀ d ∈ syms, d - 36 ≠ c - 36) :
    codeBits (appendAll chars syms v) c = codeBits chars c := by
  rw [codeBits, codeBits, appendAll_getD_outside syms chars v (c - 36) h]

theorem foldlMin_mem : ∀ (xs : List (Nat × List Nat)) (x : Nat × List Nat),
    xs.foldl (fun m y => if heapLE m y then m else y) x ∈ x :: xs := by
  intro xs
  induction xs with
  | nil => intro x; simp
  | cons y ys ih =>
    intro x
    rw [List.foldl_cons]
    rcases List.mem_cons.mp (ih (if heapLE x y then x else y)) with h | h
    · rw [h]
      by_cases hle : heapLE x y
      · rw [if_pos hle]
        exact List.mem_cons_self _ _
      · rw [if_neg hle]
        exact List.mem_cons_of_mem _ (List.mem_cons_self _ _)
    · exact List.mem_cons_of_mem _ (List.mem_cons_of_mem _ h)

theorem findMin_mem (x : Nat × List Nat) (xs : List (Nat × List Nat)) :
    findMin x xs ∈ x :: xs := by
  rw [findMin]
  exact foldlMin_mem xs x

theorem popMin_fst_mem {heap : List (Nat × List Nat)} (h : heap ≠ []) :
    (popMin heap).1 ∈ heap := by
  cases heap with
  | nil => exact absurd rfl h
  | cons x xs => exact findMin_mem x xs

theorem perm_cons_erase_heap : ∀ (l : List (Nat × List Nat)) (a : Nat × List Nat),
    a ∈ l → l.Perm (a :: l.erase a) := by
  intro l
  induction l with
  | nil => intro a h; simp at h
  | cons x xs ih =>
    intro a h
    by_cases hxa : x = a
    · subst hxa
      rw [List.erase_cons_head]
    · rw [List.erase_cons_tail (by simp [hxa])]
      have hm : a ∈ xs := by
        rcases List.mem_cons.mp h with h1 | h1
        · exact absurd h1.symm hxa
        · exact h1
      exact ((ih a hm).cons x).trans (List.Perm.swap _ _ _)

theorem popMin_perm {heap : List (Nat × List Nat)} (h : heap ≠ []) :
    heap.Perm ((popMin heap).1 :: (popMin heap).2) := by
  cases heap with
  | nil => exact absurd rfl h
  | cons x xs =>
    show (x :: xs).Perm (findMin x xs :: (x :: xs).erase (findMin x xs))
    exact perm_cons_erase_heap _ _ (findMin_mem x xs)

theorem popMin_snd_length {heap : List (Nat × List Nat)} (h : heap ≠ []) :
    (popMin heap).2.length = heap.length - 1 := by
  have := (popMin_perm h).length_eq
  simp at this
  omega

end HuffManEncoding

namespace HuffManEncoding

/-- Well-formedness of the heap's symbol strings: nonempty, duplicate-free,
all symbols in the admitted byte range. -/
def SymsOk (heap : List (Nat × List Nat)) : Prop :=
  ∀ p ∈ heap, p.2 ≠ [] ∧ p.2.Nodup ∧ ∀ c ∈ p.2, 36 ≤ c ∧ c ≤ 126

/-- The symbol strings of distinct heap elements are disjoint. -/
def HeapDisj (heap : List (Nat × List Nat)) : Prop :=
  heap.Pairwise (fun p q => ∀ c, c ∈ p.2 → c ∉ q.2)

/-- Two distinct symbols grouped in one heap element already carry nonempty
accumulated codes, neither being a suffix of the other.  (Codes accumulate
reversed; `reverse_all` later turns suffix-freeness into prefix-freeness.) -/
def CodesOk (chars : List HuffEntry) (heap : List (Nat × List Nat)) : Prop :=
  ∀ p ∈ heap, ∀ c ∈ p.2, ∀ d ∈ p.2, c ≠ d →
    codeBits chars c ≠ [] ∧ ¬ ∃ r, r ++ codeBits chars c = codeBits chars d

/-- Symbol `c` occurs in some heap element's string. -/
def inHeap (c : Nat) (heap : List (Nat × List Nat)) : Prop :=
  ∃ p ∈ heap, c ∈ p.2

theorem heapDisj_symm {p q : Nat × List Nat}
    (h : ∀ c, c ∈ p.2 → c ∉ q.2) : ∀ c, c ∈ q.2 → c ∉ p.2 :=
  fun c hcq hcp => h c hcp hcq

/-- One merge step preserves the invariants, for any two popped elements
`L`, `R` (the heap is only used through its multiset of elements). -/
theorem step_preserves (chars : List HuffEntry) (heap h2 : List (Nat × List Nat))
    (L R : Nat × List Nat) (hperm : heap.Perm (L :: R :: h2))
    (hlen91 : chars.length = 91) (hs : SymsOk heap) (hd : HeapDisj heap)
    (hc : CodesOk chars heap) :
    (appendAll (appendAll chars L.2 false) R.2 true).length = 91
    ∧ SymsOk ((L.1 + R.1, L.2 ++ R.2) :: h2)
    ∧ HeapDisj ((L.1 + R.1, L.2 ++ R.2) :: h2)
    ∧ CodesOk (appendAll (appendAll chars L.2 false) R.2 true)
        ((L.1 + R.1, L.2 ++ R.2) :: h2)
    ∧ ∀ c, inHeap c ((L.1 + R.1, L.2 ++ R.2) :: h2) ↔ inHeap c heap := by
  have hs3 : SymsOk (L :: R :: h2) := fun p hp => hs p (hperm.mem_iff.mpr hp)
  have hd3 : HeapDisj (L :: R :: h2) :=
    (hperm.pairwise_iff (fun h => heapDisj_symm h)).mp hd
  have hc3 : CodesOk chars (L :: R :: h2) := fun p hp => hc p (hperm.mem_iff.mpr hp)
  obtain ⟨hLR, hdtail⟩ := List.pairwise_cons.mp hd3
  obtain ⟨hRq, hdh2⟩ := List.pairwise_cons.mp hdtail
  have hLq : ∀ q ∈ h2, ∀ c, c ∈ L.2 → c ∉ q.2 :=
    fun q hq => hLR q (List.mem_cons_of_mem _ hq)
  have hLRdisj : ∀ c, c ∈ L.2 → c ∉ R.2 := hLR R (List.mem_cons_self _ _)
  obtain ⟨hLne, hLnd, hLrange⟩ := hs3 L (List.mem_cons_self _ _)
  obtain ⟨hRne, hRnd, hRrange⟩ := hs3 R (List.mem_cons_of_mem _ (List.mem_cons_self _ _))
  set chars1 := appendAll chars L.2 false with hchars1
  set chars2 := appendAll chars1 R.2 true with hchars2
  have hlen1 : chars1.length = 91 := by rw [hchars1, appendAll_length, hlen91]
  have hlen2 : chars2.length = 91 := by rw [hchars2, appendAll_length, hlen1]
  -- code evolution equations
  have eqL : ∀ x ∈ L.2, codeBits chars2 x = codeBits chars x ++ [false] := by
    intro x hx
    have hx36 := hLrange x hx
    have houtR : ∀ d ∈ R.2, d - 36 ≠ x - 36 := by
      intro d hd hdx
      have hd36 := hRrange d hd
      have : d = x := by omega
      subst this
      exact hLRdisj d hx hd
    rw [hchars2, appendAll_codeBits_outside _ _ _ _ houtR, hchars1,
      appendAll_codeBits_mem L.2 chars false x hLnd hx hx36.1
        (fun d hd => (hLrange d hd).1) (by omega)]
  have eqR : ∀ x ∈ R.2, codeBits chars2 x = codeBits chars x ++ [true] := by
    intro x hx
    have hx36 := hRrange x hx
    have houtL : ∀ d ∈ L.2, d - 36 ≠ x - 36 := by
      intro d hd hdx
      have hd36 := hLrange d hd
      have : d = x := by omega
      subst this
      exact hLRdisj d hd hx
    have h1 : codeBits chars1 x = codeBits chars x := by
      rw [hchars1, appendAll_codeBits_outside _ _ _ _ houtL]
    rw [hchars2, appendAll_codeBits_mem R.2 chars1 true x hRnd hx hx36.1
      (fun d hd => (hRrange d hd).1) (by omega), h1]
  have eqOut : ∀ x, 36 ≤ x → x ≤ 126 → x ∉ L.2 → x ∉ R.2 →
      codeBits chars2 x = codeBits chars x := by
    intro x hx36 hx126 hxL hxR
    have houtR : ∀ d ∈ R.2, d - 36 ≠ x - 36 := by
      intro d hd hdx
      have hd36 := hRrange d hd
      have : d = x := by omega
      subst this
      exact hxR hd
    have houtL : ∀ d ∈ L.2, d - 36 ≠ x - 36 := by
      intro d hd hdx
      have hd36 := hLrange d hd
      have : d = x := by omega
      subst this
      exact hxL hd
    rw [hchars2, appendAll_codeBits_outside _ _ _ _ houtR, hchars1,
      appendAll_codeBits_outside _ _ _ _ houtL]
  -- suffix-freeness helpers
  have nosuffix_same : ∀ (a b : List Bool) (v : Bool),
      (¬ ∃ r, r ++ a = b) → ¬ ∃ r, r ++ (a ++ [v]) = b ++ [v] := by
    intro a b v hno ⟨r, hr⟩
    exact hno ⟨r, (List.append_left_inj [v]).mp (by rw [List.append_assoc]; exact hr)⟩
  have nosuffix_diff : ∀ (a b : List Bool) (v w : Bool), v ≠ w →
      ¬ ∃ r, r ++ (a ++ [v]) = b ++ [w] := by
    intro a b v w hvw ⟨r, hr⟩
    rw [← List.append_assoc] at hr
    have := congrArg List.getLast? hr
    rw [List.getLast?_concat, List.getLast?_concat] at this
    exact hvw (Option.some.inj this)
  refine ⟨hlen2, ?_, ?_, ?_, ?_⟩
  · -- SymsOk
    intro p hp
    rcases List.mem_cons.mp hp with hph | hph
    · subst hph
      refine ⟨by simp [hLne], List.Nodup.append hLnd hRnd hLRdisj, ?_⟩
      intro c hc2
      rcases List.mem_append.mp hc2 with h | h
      · exact hLrange c h
      · exact hRrange c h
    · exact hs3 p (List.mem_cons_of_mem _ (List.mem_cons_of_mem _ hph))
  · -- HeapDisj
    rw [HeapDisj, List.pairwise_cons]
    refine ⟨?_, hdh2⟩
    intro q hq c hc2
    rcases List.mem_append.mp hc2 with h | h
    · exact hLq q hq c h
    · exact hRq q hq c h
  · -- CodesOk
    intro p hp c hcp d hdp hcd
    rcases List.mem_cons.mp hp with hph | hph
    · subst hph
      rcases List.mem_append.mp hcp with hcL | hcR
      · rcases List.mem_append.mp hdp with hdL | hdR
        · obtain ⟨hne, hns⟩ := hc3 L (List.mem_cons_self _ _) c hcL d hdL hcd
          rw [eqL c hcL, eqL d hdL]
          exact ⟨by simp, nosuffix_same _ _ _ hns⟩
        · rw [eqL c hcL, eqR d hdR]
          exact ⟨by simp, nosuffix_diff _ _ _ _ (by simp)⟩
      · rcases List.mem_append.mp hdp with hdL | hdR
        · rw [eqR c hcR, eqL d hdL]
          exact ⟨by simp, nosuffix_diff _ _ _ _ (by simp)⟩
        · obtain ⟨hne, hns⟩ := hc3 R (List.mem_cons_of_mem _ (List.mem_cons_self _ _))
            c hcR d hdR hcd
          rw [eqR c hcR, eqR d hdR]
          exact ⟨by simp, nosuffix_same _ _ _ hns⟩
    · obtain ⟨hqne, hqnd, hqrange⟩ :=
        hs3 p (List.mem_cons_of_mem _ (List.mem_cons_of_mem _ hph))
      have hcL : c ∉ L.2 := fun h => hLq p hph c h hcp
      have hcR : c ∉ R.2 := fun h => hRq p hph c h hcp
      have hdL2 : d ∉ L.2 := fun h => hLq p hph d h hdp
      have hdR2 : d ∉ R.2 := fun h => hRq p hph d h hdp
      have hc36 := hqrange c hcp
      have hd36 := hqrange d hdp
      rw [eqOut c hc36.1 hc36.2 hcL hcR, eqOut d hd36.1 hd36.2 hdL2 hdR2]
      exact hc3 p (List.mem_cons_of_mem _ (List.mem_cons_of_mem _ hph)) c hcp d hdp hcd
  · -- heap symbol membership is preserved
    intro c
    constructor
    · intro ⟨p, hp, hcp⟩
      rcases List.mem_cons.mp hp with hph | hph
      · subst hph
        rcases List.mem_append.mp hcp with h | h
        · exact ⟨L, hperm.mem_iff.mpr (List.mem_cons_self _ _), h⟩
        · exact ⟨R, hperm.mem_iff.mpr (List.mem_cons_of_mem _ (List.mem_cons_self _ _)), h⟩
      · exact ⟨p, hperm.mem_iff.mpr
          (List.mem_cons_of_mem _ (List.mem_cons_of_mem _ hph)), hcp⟩
    · intro ⟨p, hp, hcp⟩
      rcases List.mem_cons.mp (hperm.mem_iff.mp hp) with hph | hph
      · exact ⟨(L.1 + R.1, L.2 ++ R.2), List.mem_cons_self _ _,
          List.mem_append.mpr (Or.inl (hph ▸ hcp))⟩
      · rcases List.mem_cons.mp hph with hph2 | hph2
        · exact ⟨(L.1 + R.1, L.2 ++ R.2), List.mem_cons_self _ _,
            List.mem_append.mpr (Or.inr (hph2 ▸ hcp))⟩
        · exact ⟨p, List.mem_cons_of_mem _ hph2, hcp⟩

end HuffManEncoding

namespace HuffManEncoding

/-- The Huffman loop preserves the invariants, keeps the symbol multiset of
the heap, and shrinks the heap to (at most, and when nonempty at least) one
element given enough fuel. -/
theorem hLoop_invariant : ∀ (f : Nat) (chars : List HuffEntry)
    (heap : List (Nat × List Nat)),
    chars.length = 91 → SymsOk heap → HeapDisj heap → CodesOk chars heap →
    (hLoop f chars heap).1.length = 91
    ∧ SymsOk (hLoop f chars heap).2
    ∧ HeapDisj (hLoop f chars heap).2
    ∧ CodesOk (hLoop f chars heap).1 (hLoop f chars heap).2
    ∧ (∀ c, inHeap c (hLoop f chars heap).2 ↔ inHeap c heap)
    ∧ (1 ≤ heap.length → 1 ≤ (hLoop f chars heap).2.length)
    ∧ (hLoop f chars heap).2.length ≤ max 1 (heap.length - f) := by
  intro f
  induction f with
  | zero =>
    intro chars heap h91 hs hd hc
    refine ⟨h91, hs, hd, hc, fun c => Iff.rfl, fun h => h, ?_⟩
    show heap.length ≤ max 1 (heap.length - 0)
    omega
  | succ f ih =>
    intro chars heap h91 hs hd hc
    by_cases hlen : 1 < heap.length
    · rw [hLoop, if_pos hlen]
      have hne : heap ≠ [] := by
        intro h
        rw [h] at hlen
        simp at hlen
      have hperm1 : heap.Perm ((popMin heap).1 :: (popMin heap).2) := popMin_perm hne
      have hlen1 : (popMin heap).2.length = heap.length - 1 := popMin_snd_length hne
      have h1ne : (popMin heap).2 ≠ [] := by
        intro h
        rw [h] at hlen1
        simp at hlen1
        omega
      have hperm2 : (popMin heap).2.Perm
          ((popMin (popMin heap).2).1 :: (popMin (popMin heap).2).2) := popMin_perm h1ne
      have hlen2 : (popMin (popMin heap).2).2.length = (popMin heap).2.length - 1 :=
        popMin_snd_length h1ne
      have hperm : heap.Perm ((popMin heap).1 :: (popMin (popMin heap).2).1
          :: (popMin (popMin heap).2).2) :=
        hperm1.trans (hperm2.cons (popMin heap).1)
      obtain ⟨s91, sS, sD, sC, sIn⟩ :=
        step_preserves chars heap (popMin (popMin heap).2).2 (popMin heap).1
          (popMin (popMin heap).2).1 hperm h91 hs hd hc
      obtain ⟨i91, iS, iD, iC, iIn, iPos, iMax⟩ := ih _ _ s91 sS sD sC
      refine ⟨i91, iS, iD, iC, fun c => (iIn c).trans (sIn c), ?_, ?_⟩
      · intro _
        apply iPos
        simp
      · refine le_trans iMax ?_
        simp only [List.length_cons]
        omega
    · rw [hLoop, if_neg hlen]
      refine ⟨h91, hs, hd, hc, fun c => Iff.rfl, fun h => h, ?_⟩
      show heap.length ≤ max 1 (heap.length - (f + 1))
      omega

end HuffManEncoding

namespace Compress

theorem countChars_foldl_length : ∀ (text : List Nat) (cs : List Nat),
    (text.foldl (fun cs c => cs.set (c - 36) (cs.getD (c - 36) 0 + 1)) cs).length
      = cs.length := by
  intro text
  induction text with
  | nil => intro cs; rfl
  | cons c rest ih =>
    intro cs
    rw [List.foldl_cons, ih, List.length_set]

theorem countChars_length (text : List Nat) : (countChars text).length = 91 := by
  rw [countChars, countChars_foldl_length]
  simp

theorem countChars_foldl_getD : ∀ (text : List Nat) (cs : List Nat) (i : Nat),
    (∀ c ∈ text, 36 ≤ c) → i < cs.length →
    (text.foldl (fun cs c => cs.set (c - 36) (cs.getD (c - 36) 0 + 1)) cs).getD i 0
      = cs.getD i 0 + text.count (i + 36) := by
  intro text
  induction text with
  | nil => intro cs i _ _; simp
  | cons c rest ih =>
    intro cs i hval hi
    rw [List.foldl_cons, ih _ _ (fun d hd => hval d (List.mem_cons_of_mem _ hd))
      (by rw [List.length_set]; exact hi)]
    have hc36 := hval c (List.mem_cons_self _ _)
    rw [List.count_cons]
    by_cases hci : c - 36 = i
    · have hc : c = i + 36 := by omega
      rw [hci, getD_set_self _ _ _ _ hi]
      simp [hc]
      omega
    · have hc : ¬ (c = i + 36) := by omega
      rw [getD_set_ne _ _ _ _ _ hci]
      simp [hc]

theorem countChars_getD (text : List Nat) (i : Nat)
    (hval : ∀ c ∈ text, 36 ≤ c) (hi : i < 91) :
    (countChars text).getD i 0 = text.count (i + 36) := by
  rw [countChars, countChars_foldl_getD text _ i hval (by simp [hi])]
  have hz : (List.replicate 91 (0 : Nat)).getD i 0 = 0 := by
    rw [List.getD_eq_getElem?_getD, List.getElem?_replicate]
    simp [hi]
  rw [hz]
  simp

theorem uniqueList_mem {text : List Nat} {p : Nat × List Nat} :
    p ∈ uniqueList text ↔ ∃ i, i ∈ List.range 91
      ∧ 0 < (countChars text).getD i 0
      ∧ p = ((countChars text).getD i 0, [i + 36]) := by
  rw [uniqueList, List.mem_filterMap]
  constructor
  · intro ⟨i, hi, hif⟩
    by_cases h : 0 < (countChars text).getD i 0
    · rw [if_pos h] at hif
      exact ⟨i, hi, h, (Option.some.inj hif).symm⟩
    · rw [if_neg h] at hif
      simp at hif
  · intro ⟨i, hi, hpos, hp⟩
    exact ⟨i, hi, by rw [if_pos hpos, hp]⟩

/-- Membership of a symbol in some `uniqueList` string is exactly
occurrence in the text (for texts over the admitted alphabet). -/
theorem inHeap_uniqueList {text : List Nat} (hval : ∀ c ∈ text, 36 ≤ c ∧ c ≤ 126)
    (c : Nat) : HuffManEncoding.inHeap c (uniqueList text) ↔ c ∈ text := by
  constructor
  · intro ⟨p, hp, hcp⟩
    obtain ⟨i, hi, hpos, hpe⟩ := uniqueList_mem.mp hp
    rw [hpe] at hcp
    simp at hcp
    subst hcp
    rw [countChars_getD text i (fun d hd => (hval d hd).1) (List.mem_range.mp hi)] at hpos
    exact List.count_pos_iff.mp hpos
  · intro hc
    have hc36 := hval c hc
    have hpos : 0 < (countChars text).getD (c - 36) 0 := by
      rw [countChars_getD text _ (fun d hd => (hval d hd).1) (by omega)]
      have : c - 36 + 36 = c := by omega
      rw [this]
      exact List.count_pos_iff.mpr hc
    refine ⟨((countChars text).getD (c - 36) 0, [c - 36 + 36]), ?_, ?_⟩
    · exact uniqueList_mem.mpr ⟨c - 36, List.mem_range.mpr (by omega), hpos, rfl⟩
    · simp
      omega

theorem uniqueList_symsOk {text : List Nat} :
    HuffManEncoding.SymsOk (uniqueList text) := by
  intro p hp
  obtain ⟨i, hi, _, hpe⟩ := uniqueList_mem.mp hp
  rw [hpe]
  refine ⟨by simp, by simp, ?_⟩
  intro c hc
  simp at hc
  subst hc
  have := List.mem_range.mp hi
  omega

theorem uniqueList_disj_aux (text : List Nat) : ∀ (l : List Nat),
    l.Pairwise (· < ·) →
    List.Pairwise (fun p q : Nat × List Nat => ∀ c ∈ p.2, c ∉ q.2)
      (l.filterMap (fun i => if 0 < (countChars text).getD i 0
        then some ((countChars text).getD i 0, [i + 36]) else none)) := by
  intro l
  induction l with
  | nil => intro _; simp
  | cons i rest ih =>
    intro hpr
    rw [List.filterMap_cons]
    have htail := ih (List.pairwise_cons.mp hpr).2
    cases hfi : (if 0 < (countChars text).getD i 0
        then some ((countChars text).getD i 0, [i + 36]) else none) with
    | none => exact htail
    | some p =>
      rw [List.pairwise_cons]
      refine ⟨?_, htail⟩
      intro q hq c hcp hcq
      have hpi : p = ((countChars text).getD i 0, [i + 36]) := by
        by_cases h : 0 < (countChars text).getD i 0
        · rw [if_pos h] at hfi
          exact (Option.some.inj hfi).symm
        · rw [if_neg h] at hfi
          simp at hfi
      obtain ⟨j, hj, hjq⟩ := List.mem_filterMap.mp hq
      have hij : i < j := (List.pairwise_cons.mp hpr).1 j hj
      have hqj : q = ((countChars text).getD j 0, [j + 36]) := by
        by_cases h : 0 < (countChars text).getD j 0
        · rw [if_pos h] at hjq
          exact (Option.some.inj hjq).symm
        · rw [if_neg h] at hjq
          simp at hjq
      rw [hpi] at hcp
      rw [hqj] at hcq
      simp at hcp hcq
      omega

theorem uniqueList_heapDisj {text : List Nat} :
    HuffManEncoding.HeapDisj (uniqueList text) :=
  uniqueList_disj_aux text (List.range 91) (List.pairwise_lt_range 91)

theorem uniqueList_codesOk {text : List Nat} (chars : List HuffEntry) :
    HuffManEncoding.CodesOk chars (uniqueList text) := by
  intro p hp c hcp d hdp hcd
  obtain ⟨i, _, _, hpe⟩ := uniqueList_mem.mp hp
  rw [hpe] at hcp hdp
  simp at hcp hdp
  exact absurd (hcp.trans hdp.symm) hcd

end Compress

namespace HuffManEncoding

theorem revStep_length (cs : List HuffEntry) (c : Nat) :
    (match cs.getD (c - 36) (Sum.inl 0) with
      | Sum.inl _ => cs
      | Sum.inr s => cs.set (c - 36) (Sum.inr s.reverse)).length = cs.length := by
  cases cs.getD (c - 36) (Sum.inl 0) <;> simp

theorem revAll_length : ∀ (syms : List Nat) (chars : List HuffEntry),
    (reverse_all chars syms).length = chars.length := by
  intro syms
  induction syms with
  | nil => intro chars; rfl
  | cons s rest ih =>
    intro chars
    rw [reverse_all, List.foldl_cons]
    have h1 := ih (match chars.getD (s - 36) (Sum.inl 0) with
      | Sum.inl _ => chars
      | Sum.inr v => chars.set (s - 36) (Sum.inr v.reverse))
    rw [reverse_all] at h1
    rw [h1, revStep_length]

theorem revStep_getD_ne (cs : List HuffEntry) (c : Nat) (j : Nat)
    (h : c - 36 ≠ j) :
    (match cs.getD (c - 36) (Sum.inl 0) with
      | Sum.inl _ => cs
      | Sum.inr s => cs.set (c - 36) (Sum.inr s.reverse)).getD j (Sum.inl 0)
      = cs.getD j (Sum.inl 0) := by
  cases cs.getD (c - 36) (Sum.inl 0) with
  | inl k => rfl
  | inr s => exact getD_set_ne _ _ _ _ _ h

theorem revAll_getD_outside : ∀ (syms : List Nat) (chars : List HuffEntry) (j : Nat),
    (∀ d ∈ syms, d - 36 ≠ j) →
    (reverse_all chars syms).getD j (Sum.inl 0) = chars.getD j (Sum.inl 0) := by
  intro syms
  induction syms with
  | nil => intro chars j _; rfl
  | cons s rest ih =>
    intro chars j h
    rw [reverse_all, List.foldl_cons]
    have h1 := ih (match chars.getD (s - 36) (Sum.inl 0) with
      | Sum.inl _ => chars
      | Sum.inr v => chars.set (s - 36) (Sum.inr v.reverse)) j
      (fun d hd => h d (List.mem_cons_of_mem _ hd))
    rw [reverse_all] at h1
    rw [h1, revStep_getD_ne _ _ _ (h s (List.mem_cons_self _ _))]

theorem revAll_codeBits_mem : ∀ (syms : List Nat) (chars : List HuffEntry) (c : Nat),
    syms.Nodup → c ∈ syms → 36 ≤ c → (∀ d ∈ syms, 36 ≤ d) →
    c - 36 < chars.length →
    codeBits (reverse_all chars syms) c = (codeBits chars c).reverse := by
  intro syms
  induction syms with
  | nil => intro chars c _ hc; simp at hc
  | cons s rest ih =>
    intro chars c hnd hc hc36 hd36 hlen
    rw [reverse_all, List.foldl_cons]
    rcases List.mem_cons.mp hc with hcs | hcr
    · subst hcs
      have hout : ∀ d ∈ rest, d - 36 ≠ c - 36 := by
        intro d hd hdc
        have hd36d := hd36 d (List.mem_cons_of_mem _ hd)
        have : d = c := by omega
        subst this
        exact (List.nodup_cons.mp hnd).1 hd
      have h1 := revAll_getD_outside rest (match chars.getD (c - 36) (Sum.inl 0) with
        | Sum.inl _ => chars
        | Sum.inr v => chars.set (c - 36) (Sum.inr v.reverse)) (c - 36) hout
      rw [codeBits]
      change entryBits ((reverse_all (match chars.getD (c - 36) (Sum.inl 0) with
        | Sum.inl _ => chars
        | Sum.inr v => chars.set (c - 36) (Sum.inr v.reverse)) rest).getD
        (c - 36) (Sum.inl 0)) = _
      rw [h1]
      cases he : chars.getD (c - 36) (Sum.inl 0) with
      | inl k =>
        rw [codeBits, he]
        rfl
      | inr s =>
        rw [codeBits, he, getD_set_self _ _ _ _ hlen]
        rfl
    · have hs : s - 36 ≠ c - 36 := by
        intro hsc
        have hs36 := hd36 s (List.mem_cons_self _ _)
        have : s = c := by omega
        subst this
        exact (List.nodup_cons.mp hnd).1 hcr
      have h2 := ih (match chars.getD (s - 36) (Sum.inl 0) with
        | Sum.inl _ => chars
        | Sum.inr v => chars.set (s - 36) (Sum.inr v.reverse)) c
        (List.nodup_cons.mp hnd).2 hcr hc36
        (fun d hd => hd36 d (List.mem_cons_of_mem _ hd))
        (by rw [revStep_length]; exact hlen)
      rw [reverse_all] at h2
      rw [h2, codeBits, codeBits, revStep_getD_ne _ _ _ hs]

end HuffManEncoding

namespace Compress

theorem codeOf_eq_codeBits (text : List Nat) (c : Nat) :
    codeOf text c = codeBits (huffChars text) c := by
  rw [codeOf, codeBits]
  cases h : (huffChars text).getD (c - 36) (Sum.inl 0) <;> rfl

/-- Master facts about the Huffman table the compressor builds for a valid
user text: the serialization order lists exactly the distinct symbols of the
sentinel-extended text without repetition, all codes are nonempty, and no
code is a prefix of another. -/
theorem huffman_facts (t : List Nat) (hne : t ≠ [])
    (hval : ∀ c ∈ t, 37 ≤ c ∧ c ≤ 126) :
    (huffOrder (t ++ [36])).Nodup
    ∧ (∀ c, c ∈ huffOrder (t ++ [36]) ↔ c ∈ t ++ [36])
    ∧ (∀ c ∈ huffOrder (t ++ [36]), 36 ≤ c ∧ c ≤ 126)
    ∧ (∀ c ∈ huffOrder (t ++ [36]), codeOf (t ++ [36]) c ≠ [])
    ∧ (∀ c ∈ huffOrder (t ++ [36]), ∀ d ∈ huffOrder (t ++ [36]), c ≠ d →
        ¬ ∃ r, codeOf (t ++ [36]) c ++ r = codeOf (t ++ [36]) d) := by
  have hvalS : ∀ c ∈ t ++ [36], 36 ≤ c ∧ c ≤ 126 := by
    intro c hc
    rcases List.mem_append.mp hc with h | h
    · have := hval c h
      omega
    · simp at h
      omega
  have h91 : ((countChars (t ++ [36])).map (Sum.inl : Nat → HuffEntry)).length = 91 := by
    rw [List.length_map, countChars_length]
  obtain ⟨f91, fS, fD, fC, fIn, fPos, fMax⟩ :=
    HuffManEncoding.hLoop_invariant (uniqueList (t ++ [36])).length
      ((countChars (t ++ [36])).map (Sum.inl : Nat → HuffEntry)) (uniqueList (t ++ [36]))
      h91 uniqueList_symsOk uniqueList_heapDisj (uniqueList_codesOk _)
  have hrun : huffRun (t ++ [36])
      = HuffManEncoding.hLoop (uniqueList (t ++ [36])).length
        ((countChars (t ++ [36])).map (Sum.inl : Nat → HuffEntry))
        (uniqueList (t ++ [36])) := rfl
  rw [← hrun] at f91 fS fD fC fIn fPos fMax
  have h36mem : (36 : Nat) ∈ t ++ [36] := List.mem_append.mpr (Or.inr (by simp))
  have huniqNe : uniqueList (t ++ [36]) ≠ [] := by
    obtain ⟨p, hp, _⟩ := (inHeap_uniqueList hvalS 36).mpr h36mem
    intro h
    rw [h] at hp
    simp at hp
  have hfh1 : (huffRun (t ++ [36])).2.length = 1 := by
    have h1 : 1 ≤ (huffRun (t ++ [36])).2.length := by
      apply fPos
      cases hu : uniqueList (t ++ [36]) with
      | nil => exact absurd hu huniqNe
      | cons a l => simp
    have h2 : (huffRun (t ++ [36])).2.length ≤ 1 := by
      refine le_trans fMax ?_
      omega
    omega
  obtain ⟨q, hq⟩ := List.length_eq_one.mp hfh1
  have horder : huffOrder (t ++ [36]) = q.2 := by
    rw [huffOrder, hq]
    rfl
  have hqS := fS q (by rw [hq]; simp)
  have hmemU : ∀ c, c ∈ huffOrder (t ++ [36]) ↔ c ∈ t ++ [36] := by
    intro c
    rw [horder]
    have h1 : HuffManEncoding.inHeap c (huffRun (t ++ [36])).2 ↔ c ∈ q.2 := by
      rw [hq]
      constructor
      · intro ⟨p, hp, hcp⟩
        simp at hp
        rw [hp] at hcp
        exact hcp
      · intro hc
        exact ⟨q, by simp, hc⟩
    rw [← h1, fIn c]
    exact inHeap_uniqueList hvalS c
  have hrevEq : ∀ c ∈ huffOrder (t ++ [36]),
      codeOf (t ++ [36]) c = (codeBits (huffRun (t ++ [36])).1 c).reverse := by
    intro c hc
    rw [codeOf_eq_codeBits, huffChars]
    exact HuffManEncoding.revAll_codeBits_mem (huffOrder (t ++ [36]))
      (huffRun (t ++ [36])).1 c (horder ▸ hqS.2.1) hc
      (hqS.2.2 c (horder ▸ hc)).1
      (fun d hd => (hqS.2.2 d (horder ▸ hd)).1)
      (by rw [f91]; have := (hqS.2.2 c (horder ▸ hc)).2; omega)
  have hpairs : ∀ c ∈ huffOrder (t ++ [36]), ∀ d ∈ huffOrder (t ++ [36]), c ≠ d →
      codeBits (huffRun (t ++ [36])).1 c ≠ []
      ∧ ¬ ∃ r, r ++ codeBits (huffRun (t ++ [36])).1 c
          = codeBits (huffRun (t ++ [36])).1 d := by
    intro c hc d hd hcd
    exact fC q (by rw [hq]; simp) c (horder ▸ hc) d (horder ▸ hd) hcd
  have htwo : ∀ c ∈ huffOrder (t ++ [36]), ∃ d ∈ huffOrder (t ++ [36]), d ≠ c := by
    intro c hc
    obtain ⟨e, he⟩ := List.exists_mem_of_ne_nil t hne
    have heU : e ∈ huffOrder (t ++ [36]) :=
      (hmemU e).mpr (List.mem_append.mpr (Or.inl he))
    have h36U : (36 : Nat) ∈ huffOrder (t ++ [36]) := (hmemU 36).mpr h36mem
    by_cases hc36 : c = 36
    · refine ⟨e, heU, ?_⟩
      have := hval e he
      omega
    · exact ⟨36, h36U, fun h => hc36 h.symm⟩
  refine ⟨horder ▸ hqS.2.1, hmemU, fun c hc => hqS.2.2 c (horder ▸ hc), ?_, ?_⟩
  · intro c hc
    obtain ⟨d, hd, hdc⟩ := htwo c hc
    obtain ⟨hne2, _⟩ := hpairs c hc d hd (fun h => hdc h.symm)
    rw [hrevEq c hc]
    intro h
    exact hne2 (by simpa using congrArg List.reverse h)
  · intro c hc d hd hcd ⟨r, hr⟩
    obtain ⟨-, hns⟩ := hpairs c hc d hd hcd
    apply hns
    refine ⟨r.reverse, ?_⟩
    rw [hrevEq c hc, hrevEq d hd] at hr
    have := congrArg List.reverse hr
    rw [List.reverse_append, List.reverse_reverse, List.reverse_reverse] at this
    exact this

end Compress

/-- Claim C7: for every valid input text (nonempty, over the admitted
alphabet, no sentinel), the Huffman construction assigns every distinct
symbol of the sentinel-extended text a nonempty bit-string code, and no
assigned code is a prefix of another assigned code. -/
theorem claim_C7_huffman_prefix_free (t : List Nat) (hne : t ≠ [])
    (hval : ∀ c ∈ t, 37 ≤ c ∧ c ≤ 126) :
    (∀ c, c ∈ Compress.huffOrder (t ++ [36]) ↔ c ∈ t ++ [36])
    ∧ (∀ c ∈ Compress.huffOrder (t ++ [36]), Compress.codeOf (t ++ [36]) c ≠ [])
    ∧ (∀ c ∈ Compress.huffOrder (t ++ [36]), ∀ d ∈ Compress.huffOrder (t ++ [36]),
        c ≠ d → ¬ ∃ r, Compress.codeOf (t ++ [36]) c ++ r = Compress.codeOf (t ++ [36]) d) := by
  obtain ⟨_, hmem, _, hne2, hpf⟩ := Compress.huffman_facts t hne hval
  exact ⟨hmem, hne2, hpf⟩

/-- Witness for C7 on the text `"ab"`: the codes of `a`, `b`, `$` are
nonempty and mutually prefix-free. -/
theorem claim_C7_huffman_prefix_free_witness :
    (∀ c, c ∈ Compress.huffOrder ([97, 98] ++ [36]) ↔ c ∈ [97, 98] ++ [36])
    ∧ (∀ c ∈ Compress.huffOrder ([97, 98] ++ [36]),
        Compress.codeOf ([97, 98] ++ [36]) c ≠ [])
    ∧ (∀ c ∈ Compress.huffOrder ([97, 98] ++ [36]),
        ∀ d ∈ Compress.huffOrder ([97, 98] ++ [36]), c ≠ d →
        ¬ ∃ r, Compress.codeOf ([97, 98] ++ [36]) c ++ r
          = Compress.codeOf ([97, 98] ++ [36]) d) :=
  claim_C7_huffman_prefix_free [97, 98] (by simp) (by decide)

section PyOrder

theorem pyStrLE_refl : ∀ a : List Nat, pyStrLE a a = true := by
  intro a
  induction a with
  | nil => rfl
  | cons x xs ih => simp [pyStrLE, ih]

theorem pyStrLE_total : ∀ a b : List Nat, pyStrLE a b = true ∨ pyStrLE b a = true := by
  intro a
  induction a with
  | nil => intro b; left; rfl
  | cons x xs ih =>
    intro b
    cases b with
    | nil => right; rfl
    | cons y ys =>
      rcases Nat.lt_trichotomy x y with h | h | h
      · left
        simp [pyStrLE, h]
      · subst h
        rcases ih ys with h2 | h2
        · left
          simp [pyStrLE, h2]
        · right
          simp [pyStrLE, h2]
      · right
        simp [pyStrLE, h]

theorem pyStrLE_antisymm : ∀ a b : List Nat,
    pyStrLE a b = true → pyStrLE b a = true → a = b := by
  intro a
  induction a with
  | nil =>
    intro b hab hba
    cases b with
    | nil => rfl
    | cons y ys => simp [pyStrLE] at hba
  | cons x xs ih =>
    intro b hab hba
    cases b with
    | nil => simp [pyStrLE] at hab
    | cons y ys =>
      rcases Nat.lt_trichotomy x y with h | h | h
      · simp [pyStrLE, h, Nat.not_lt.mpr (le_of_lt h), Nat.ne_of_gt h] at hba
      · subst h
        simp [pyStrLE] at hab hba
        rw [ih ys hab hba]
      · simp [pyStrLE, h, Nat.not_lt.mpr (le_of_lt h)] at hab

theorem pyStrLE_trans : ∀ a b c : List Nat,
    pyStrLE a b = true → pyStrLE b c = true → pyStrLE a c = true := by
  intro a
  induction a with
  | nil => intro b c _ _; rfl
  | cons x xs ih =>
    intro b c hab hbc
    cases b with
    | nil => simp [pyStrLE] at hab
    | cons y ys =>
      cases c with
      | nil => simp [pyStrLE] at hbc
      | cons z zs =>
        rcases Nat.lt_trichotomy x y with h | h | h
        · rcases Nat.lt_trichotomy y z with h2 | h2 | h2
          · simp [pyStrLE, lt_trans h h2]
          · subst h2
            simp [pyStrLE, h]
          · simp [pyStrLE, h2, Nat.not_lt.mpr (le_of_lt h2)] at hbc
        · subst h
          rcases Nat.lt_trichotomy x z with h2 | h2 | h2
          · simp [pyStrLE, h2]
          · subst h2
            simp [pyStrLE] at hab hbc ⊢
            exact ih ys zs hab hbc
          · simp [pyStrLE, h2, Nat.not_lt.mpr (le_of_lt h2)] at hbc
        · simp [pyStrLE, h, Nat.not_lt.mpr (le_of_lt h)] at hab

theorem heapLE_refl (p : Nat × List Nat) : heapLE p p = true := by
  simp [heapLE, pyStrLE_refl]

theorem heapLE_total (p q : Nat × List Nat) :
    heapLE p q = true ∨ heapLE q p = true := by
  rw [heapLE, heapLE]
  by_cases h : p.1 = q.1
  · rw [if_pos h, if_pos h.symm]
    exact pyStrLE_total p.2 q.2
  · rw [if_neg h, if_neg (fun h2 => h h2.symm)]
    simp
    omega

theorem heapLE_antisymm (p q : Nat × List Nat)
    (hpq : heapLE p q = true) (hqp : heapLE q p = true) : p = q := by
  rw [heapLE] at hpq hqp
  by_cases h : p.1 = q.1
  · rw [if_pos h] at hpq
    rw [if_pos h.symm] at hqp
    have := pyStrLE_antisymm p.2 q.2 hpq hqp
    exact Prod.ext h this
  · rw [if_neg h] at hpq
    rw [if_neg (fun h2 => h h2.symm)] at hqp
    simp at hpq hqp
    omega

theorem heapLE_trans (p q r : Nat × List Nat)
    (hpq : heapLE p q = true) (hqr : heapLE q r = true) : heapLE p r = true := by
  rw [heapLE] at hpq hqr ⊢
  by_cases h1 : p.1 = q.1 <;> by_cases h2 : q.1 = r.1
  · rw [if_pos h1] at hpq
    rw [if_pos h2] at hqr
    rw [if_pos (h1.trans h2)]
    exact pyStrLE_trans _ _ _ hpq hqr
  · rw [if_neg h2] at hqr
    simp at hqr
    rw [if_neg (by omega), h1]
    simp
    omega
  · rw [if_neg h1] at hpq
    simp at hpq
    rw [if_neg (by omega), ← h2]
    simp
    omega
  · rw [if_neg h1] at hpq
    rw [if_neg h2] at hqr
    simp at hpq hqr
    rw [if_neg (by omega)]
    simp
    omega

end PyOrder

namespace HuffManEncoding

/-- `m` is a least element of `h` under the heap's tuple order. -/
def IsMinOf (m : Nat × List Nat) (h : List (Nat × List Nat)) : Prop :=
  m ∈ h ∧ ∀ x ∈ h, heapLE m x = true

instance (m : Nat × List Nat) (h : List (Nat × List Nat)) :
    Decidable (IsMinOf m h) := by
  rw [IsMinOf]
  infer_instance

theorem isMinOf_unique {m m2 : Nat × List Nat} {h : List (Nat × List Nat)}
    (h1 : IsMinOf m h) (h2 : IsMinOf m2 h) : m = m2 :=
  heapLE_antisymm m m2 (h1.2 m2 h2.1) (h2.2 m h1.1)

theorem isMinOf_perm {m : Nat × List Nat} {h h2 : List (Nat × List Nat)}
    (hp : h.Perm h2) (h1 : IsMinOf m h) : IsMinOf m h2 :=
  ⟨hp.mem_iff.mp h1.1, fun x hx => h1.2 x (hp.mem_iff.mpr hx)⟩

/-- One `heapq`-compliant merge iteration of `huffman_encoding`: pop some
least element, pop some least element of the rest, append the `0`/`1` bits,
push the merged pair.  The heap is tracked up to permutation, since the
internal binary-heap layout after `heapify`/`heappush`/`heappop` is not
observable through the popped values. -/
def HStep (s t : List HuffEntry × List (Nat × List Nat)) : Prop :=
  1 < s.2.length ∧ ∃ L h1 R h2, IsMinOf L s.2 ∧ s.2.Perm (L :: h1)
    ∧ IsMinOf R h1 ∧ h1.Perm (R :: h2)
    ∧ t = (appendAll (appendAll s.1 L.2 false) R.2 true,
        (L.1 + R.1, L.2 ++ R.2) :: h2)

/-- An execution of the `while` loop: zero or more merge iterations. -/
inductive HRun : (List HuffEntry × List (Nat × List Nat)) →
    (List HuffEntry × List (Nat × List Nat)) → Prop where
  | refl (s : List HuffEntry × List (Nat × List Nat)) : HRun s s
  | step {s t u : List HuffEntry × List (Nat × List Nat)} :
      HStep s t → HRun t u → HRun s u

/-- The loop has terminated: at most one heap element remains. -/
def HFinal (s : List HuffEntry × List (Nat × List Nat)) : Prop :=
  ¬ 1 < s.2.length

/-- States equal up to the unobservable heap layout. -/
def HEquiv (s t : List HuffEntry × List (Nat × List Nat)) : Prop :=
  s.1 = t.1 ∧ s.2.Perm t.2

theorem hstep_det {s t s2 t2 : List HuffEntry × List (Nat × List Nat)}
    (he : HEquiv s t) (hs : HStep s s2) (ht : HStep t t2) : HEquiv s2 t2 := by
  obtain ⟨hchars, hheap⟩ := he
  obtain ⟨_, L, h1, R, h2, hLmin, hLperm, hRmin, hRperm, hs2⟩ := hs
  obtain ⟨_, L2, h12, R2, h22, hLmin2, hLperm2, hRmin2, hRperm2, ht2⟩ := ht
  have hLL : L = L2 := isMinOf_unique (isMinOf_perm hheap hLmin) hLmin2
  subst hLL
  have hh1 : h1.Perm h12 := by
    have : (L :: h1).Perm (L :: h12) :=
      (hLperm.symm.trans hheap).trans hLperm2
    exact this.cons_inv
  have hRR : R = R2 := isMinOf_unique (isMinOf_perm hh1 hRmin) hRmin2
  subst hRR
  have hh2 : h2.Perm h22 := by
    have : (R :: h2).Perm (R :: h22) :=
      (hRperm.symm.trans hh1).trans hRperm2
    exact this.cons_inv
  rw [hs2, ht2]
  exact ⟨by rw [hchars], (hh2.cons _)⟩

theorem hfinal_equiv {s t : List HuffEntry × List (Nat × List Nat)}
    (he : HEquiv s t) (hf : HFinal s) : HFinal t := by
  rw [HFinal, ← he.2.length_eq]
  exact hf

theorem hfinal_no_step {s t : List HuffEntry × List (Nat × List Nat)}
    (hf : HFinal s) (hs : HStep s t) : False :=
  hf hs.1

/-- Two completed `heapq`-compliant executions from equivalent states end in
equivalent states. -/
theorem hrun_det : ∀ {s s1 : List HuffEntry × List (Nat × List Nat)},
    HRun s s1 → HFinal s1 → ∀ {t t1 : List HuffEntry × List (Nat × List Nat)},
    HEquiv s t → HRun t t1 → HFinal t1 → HEquiv s1 t1 := by
  intro s s1 h
  induction h with
  | refl s =>
    intro hf1 t t1 he hrun hf2
    cases hrun with
    | refl => exact he
    | step hst _ => exact absurd hst (hfinal_no_step (hfinal_equiv he hf1))
  | step hst hrun ih =>
    intro hf1 t t1 he hrun2 hf2
    cases hrun2 with
    | refl =>
      have : HFinal _ := hfinal_equiv ⟨he.1.symm, he.2.symm⟩ hf2
      exact absurd hst (hfinal_no_step this)
    | step hst2 hrun3 =>
      exact ih hf1 (hstep_det he hst hst2) hrun3 hf2

theorem foldlMin_le : ∀ (xs : List (Nat × List Nat)) (m : Nat × List Nat),
    heapLE (xs.foldl (fun m y => if heapLE m y then m else y) m) m = true
    ∧ ∀ y ∈ xs, heapLE (xs.foldl (fun m y => if heapLE m y then m else y) m) y = true := by
  intro xs
  induction xs with
  | nil => intro m; exact ⟨heapLE_refl m, by simp⟩
  | cons y ys ih =>
    intro m
    rw [List.foldl_cons]
    obtain ⟨ih1, ih2⟩ := ih (if heapLE m y then m else y)
    by_cases hle : heapLE m y
    · rw [if_pos hle] at ih1 ih2 ⊢
      refine ⟨ih1, ?_⟩
      intro z hz
      rcases List.mem_cons.mp hz with hzy | hzy
      · rw [hzy]
        exact heapLE_trans _ _ _ ih1 hle
      · exact ih2 z hzy
    · rw [if_neg hle] at ih1 ih2 ⊢
      have hym : heapLE y m = true := by
        rcases heapLE_total m y with h | h
        · exact absurd h hle
        · exact h
      refine ⟨heapLE_trans _ _ _ ih1 hym, ?_⟩
      intro z hz
      rcases List.mem_cons.mp hz with hzy | hzy
      · rw [hzy]
        exact ih1
      · exact ih2 z hzy

theorem findMin_isMin (x : Nat × List Nat) (xs : List (Nat × List Nat)) :
    IsMinOf (findMin x xs) (x :: xs) := by
  refine ⟨findMin_mem x xs, ?_⟩
  intro z hz
  obtain ⟨h1, h2⟩ := foldlMin_le xs x
  rcases List.mem_cons.mp hz with hzx | hzx
  · rw [hzx]
    exact h1
  · exact h2 z hzx

theorem popMin_isMin {heap : List (Nat × List Nat)} (h : heap ≠ []) :
    IsMinOf (popMin heap).1 heap := by
  cases heap with
  | nil => exact absurd rfl h
  | cons x xs => exact findMin_isMin x xs

/-- The canonical model `hLoop` is itself a `heapq`-compliant execution. -/
theorem hLoop_is_run : ∀ (f : Nat) (chars : List HuffEntry)
    (heap : List (Nat × List Nat)), HRun (chars, heap) (hLoop f chars heap) := by
  intro f
  induction f with
  | zero => intro chars heap; exact HRun.refl _
  | succ f ih =>
    intro chars heap
    by_cases hlen : 1 < heap.length
    · rw [hLoop, if_pos hlen]
      have hne : heap ≠ [] := by
        intro h
        rw [h] at hlen
        simp at hlen
      have hlen1 : (popMin heap).2.length = heap.length - 1 := popMin_snd_length hne
      have h1ne : (popMin heap).2 ≠ [] := by
        intro h
        rw [h] at hlen1
        simp at hlen1
        omega
      refine HRun.step ?_ (ih _ _)
      refine ⟨hlen, (popMin heap).1, (popMin heap).2, (popMin (popMin heap).2).1,
        (popMin (popMin heap).2).2, popMin_isMin hne, popMin_perm hne,
        popMin_isMin h1ne, popMin_perm h1ne, rfl⟩
    · rw [hLoop, if_neg hlen]
      exact HRun.refl _

/-- With fuel at least `heap.length - 1` the canonical loop terminates. -/
theorem hLoop_is_final : ∀ (f : Nat) (chars : List HuffEntry)
    (heap : List (Nat × List Nat)), heap.length ≤ f + 1 →
    HFinal (hLoop f chars heap) := by
  intro f
  induction f with
  | zero =>
    intro chars heap h
    rw [hLoop]
    intro hc
    simp at hc
    omega
  | succ f ih =>
    intro chars heap h
    by_cases hlen : 1 < heap.length
    · rw [hLoop, if_pos hlen]
      have hne : heap ≠ [] := by
        intro hx
        rw [hx] at hlen
        simp at hlen
      have hlen1 : (popMin heap).2.length = heap.length - 1 := popMin_snd_length hne
      have h1ne : (popMin heap).2 ≠ [] := by
        intro hx
        rw [hx] at hlen1
        simp at hlen1
        omega
      have hlen2 : (popMin (popMin heap).2).2.length = (popMin heap).2.length - 1 :=
        popMin_snd_length h1ne
      apply ih
      simp only [List.length_cons]
      omega
    · rw [hLoop, if_neg hlen]
      exact hlen

end HuffManEncoding

theorem hequiv_final_eq {s t : List HuffEntry × List (Nat × List Nat)}
    (he : HuffManEncoding.HEquiv s t) (hlen : s.2.length ≤ 1) : s = t := by
  obtain ⟨h1, h2⟩ := he
  refine Prod.ext h1 ?_
  cases hs : s.2 with
  | nil =>
    rw [hs] at h2
    exact h2.nil_eq
  | cons a tail =>
    cases tail with
    | nil =>
      rw [hs] at h2
      exact ((List.perm_singleton).mp h2.symm).symm
    | cons b tail2 =>
      rw [hs] at hlen
      simp at hlen

/-- Claim C10: compression is deterministic.  All run-to-run nondeterminism
of the pipeline sits in the `heapq` priority queue; any two completed
`heapq`-compliant executions of the Huffman loop from the compressor's
initial state end in the same `characters` array and the same final heap,
equal to the canonical model `huffRun` — every other stage is a pure
function of the text, so two runs of the compressor on the same text
produce byte-identical output. -/
theorem claim_C10_compression_deterministic (t : List Nat)
    (s1 s2 : List HuffEntry × List (Nat × List Nat))
    (h1 : HuffManEncoding.HRun
      ((Compress.countChars (t ++ [36])).map (Sum.inl : Nat → HuffEntry),
        Compress.uniqueList (t ++ [36])) s1)
    (hf1 : HuffManEncoding.HFinal s1)
    (h2 : HuffManEncoding.HRun
      ((Compress.countChars (t ++ [36])).map (Sum.inl : Nat → HuffEntry),
        Compress.uniqueList (t ++ [36])) s2)
    (hf2 : HuffManEncoding.HFinal s2) :
    s1 = s2 ∧ s1 = Compress.huffRun (t ++ [36]) := by
  have hcrun : HuffManEncoding.HRun
      ((Compress.countChars (t ++ [36])).map (Sum.inl : Nat → HuffEntry),
        Compress.uniqueList (t ++ [36])) (Compress.huffRun (t ++ [36])) :=
    HuffManEncoding.hLoop_is_run (Compress.uniqueList (t ++ [36])).length _ _
  have hcfin : HuffManEncoding.HFinal (Compress.huffRun (t ++ [36])) :=
    HuffManEncoding.hLoop_is_final (Compress.uniqueList (t ++ [36])).length _ _
      (Nat.le_succ _)
  have he1 : HuffManEncoding.HEquiv s1 (Compress.huffRun (t ++ [36])) := by
    refine HuffManEncoding.hrun_det h1 hf1 ⟨rfl, List.Perm.refl _⟩ hcrun hcfin
  have he2 : HuffManEncoding.HEquiv s2 (Compress.huffRun (t ++ [36])) := by
    refine HuffManEncoding.hrun_det h2 hf2 ⟨rfl, List.Perm.refl _⟩ hcrun hcfin
  have hlen1 : s1.2.length ≤ 1 := by
    rw [HuffManEncoding.HFinal] at hf1
    omega
  have hlen2 : s2.2.length ≤ 1 := by
    rw [HuffManEncoding.HFinal] at hf2
    omega
  have e1 := hequiv_final_eq he1 hlen1
  have e2 := hequiv_final_eq he2 hlen2
  exact ⟨e1.trans e2.symm, e1⟩

/-- Witness for C10 on text `"a"`: the single explicit merge step
`pop ($,1), pop (a,1), push ($a,2)` is a completed run, and any such run
ends in the canonical result. -/
theorem claim_C10_compression_deterministic_witness :
    (HuffManEncoding.appendAll (HuffManEncoding.appendAll
        ((Compress.countChars ([97] ++ [36])).map (Sum.inl : Nat → HuffEntry))
        [36] false) [97] true, [((2 : Nat), [36, 97])])
      = (HuffManEncoding.appendAll (HuffManEncoding.appendAll
        ((Compress.countChars ([97] ++ [36])).map (Sum.inl : Nat → HuffEntry))
        [36] false) [97] true, [((2 : Nat), [36, 97])])
    ∧ (HuffManEncoding.appendAll (HuffManEncoding.appendAll
        ((Compress.countChars ([97] ++ [36])).map (Sum.inl : Nat → HuffEntry))
        [36] false) [97] true, [((2 : Nat), [36, 97])])
      = Compress.huffRun ([97] ++ [36]) :=
  claim_C10_compression_deterministic [97] _ _
    (HuffManEncoding.HRun.step
      ⟨by decide, (1, [36]), [(1, [97])], (1, [97]), [],
        by decide, by decide, by decide, by decide, by decide⟩
      (HuffManEncoding.HRun.refl _))
    (by intro h; simp at h)
    (HuffManEncoding.HRun.step
      ⟨by decide, (1, [36]), [(1, [97])], (1, [97]), [],
        by decide, by decide, by decide, by decide, by decide⟩
      (HuffManEncoding.HRun.refl _))
    (by intro h; simp at h)

section HeaderParse

theorem zfill_length (w : Nat) (bs : List Bool) (h : bs.length ≤ w) :
    (zfill w bs).length = w := by
  rw [zfill, List.length_append, List.length_replicate]
  omega

theorem ascii7_length {c : Nat} (h : c < 128) : (Compress.ascii7 c).length = 7 := by
  rw [Compress.ascii7]
  apply zfill_length
  by_cases h0 : c = 0
  · simp [binPy, h0]
  · rw [binPy, if_neg h0, natBits_length]
    have : bitLength c ≤ 7 := by
      rw [bitLength_eq_size]
      exact Nat.size_le.mpr h
    omega

theorem ascii7_value {c : Nat} : bitsToNat (Compress.ascii7 c) = c := by
  rw [Compress.ascii7, bitsToNat_zfill]
  by_cases h0 : c = 0
  · simp [binPy, h0, bitsToNat]
  · rw [binPy, if_neg h0]
    exact bitsToNat_natBits c

theorem uniqueList_ne_nil {text : List Nat} (hval : ∀ c ∈ text, 36 ≤ c ∧ c ≤ 126)
    (hmem : (36 : Nat) ∈ text) : Compress.uniqueList text ≠ [] := by
  obtain ⟨p, hp, _⟩ := (Compress.inHeap_uniqueList hval 36).mpr hmem
  intro h
  rw [h] at hp
  simp at hp

theorem headerLoop_spec : ∀ (syms : List Nat) (code : Nat → List Bool)
    (pre rest : List Bool) (acc : List (Nat × List Bool)),
    (∀ c ∈ syms, 1 ≤ c ∧ c < 128 ∧ 1 ≤ (code c).length) →
    Decompress.headerLoop
      (pre ++ (syms.flatMap (fun c => Compress.ascii7 c
        ++ EliasEncoding.elias_string (code c).length ++ code c) ++ rest))
      syms.length pre.length acc
      = (acc ++ syms.map (fun c => (c, code c)),
         pre.length + (syms.flatMap (fun c => Compress.ascii7 c
           ++ EliasEncoding.elias_string (code c).length ++ code c)).length) := by
  intro syms
  induction syms with
  | nil =>
    intro code pre rest acc _
    rw [List.length_nil, Decompress.headerLoop]
    simp
  | cons c cs ih =>
    intro code pre rest acc hval
    obtain ⟨hc1, hc128, hcode⟩ := hval c (List.mem_cons_self _ _)
    have hA7 : (Compress.ascii7 c).length = 7 := ascii7_length hc128
    set A := Compress.ascii7 c with hA
    set E := EliasEncoding.elias_string (code c).length with hE
    set K := code c with hK
    set B := cs.flatMap (fun d => Compress.ascii7 d
      ++ EliasEncoding.elias_string (code d).length ++ code d) with hB
    have hbits : pre ++ ((c :: cs).flatMap (fun d => Compress.ascii7 d
        ++ EliasEncoding.elias_string (code d).length ++ code d) ++ rest)
        = pre ++ (A ++ (E ++ (K ++ (B ++ rest)))) := by
      simp only [List.flatMap_cons]
      rw [← hB, ← hK, ← hA, ← hE]
      simp only [List.append_assoc]
    rw [List.length_cons, hbits, Decompress.headerLoop]
    -- the 7 ascii bits
    have hslice1 : pySlice (pre ++ (A ++ (E ++ (K ++ (B ++ rest)))))
        pre.length (pre.length + 7) = A := by
      have := pySlice_block pre A (E ++ (K ++ (B ++ rest)))
      rw [hA7] at this
      exact this
    rw [hslice1]
    have hchar : bitsToNat A = c := ascii7_value
    rw [hchar]
    -- the Elias-coded code length
    have helias : EliasDecoding.decode (pre ++ (A ++ (E ++ (K ++ (B ++ rest)))))
        (pre.length + 7) = ((code c).length, pre.length + 7 + E.length) := by
      have h2 : pre ++ (A ++ (E ++ (K ++ (B ++ rest))))
          = (pre ++ A) ++ (E ++ (K ++ (B ++ rest))) := by
        simp [List.append_assoc]
      have h3 := EliasDecoding.decode_at (code c).length hcode (pre ++ A)
        (K ++ (B ++ rest))
      rw [List.length_append, hA7] at h3
      rw [h2]
      exact h3
    rw [helias]
    -- the raw code bits
    have hslice2 : pySlice (pre ++ (A ++ (E ++ (K ++ (B ++ rest)))))
        (pre.length + 7 + E.length) (pre.length + 7 + E.length + K.length) = K := by
      have h2 : pre ++ (A ++ (E ++ (K ++ (B ++ rest))))
          = (pre ++ A ++ E) ++ (K ++ (B ++ rest)) := by
        simp [List.append_assoc]
      have h3 := pySlice_block (pre ++ A ++ E) K (B ++ rest)
      rw [List.length_append, List.length_append, hA7] at h3
      rw [h2]
      exact h3
    have hKlen : pre.length + 7 + E.length + K.length
        = (pre.length + 7 + E.length) + K.length := by omega
    rw [← hKlen] at hslice2
    rw [hslice2]
    -- recursive call on the tail, with the consumed prefix folded into `pre`
    have h4 : pre ++ (A ++ (E ++ (K ++ (B ++ rest))))
        = (pre ++ A ++ E ++ K) ++ (B ++ rest) := by
      simp [List.append_assoc]
    have h5 := ih code (pre ++ A ++ E ++ K) rest (acc ++ [(c, K)])
      (fun d hd => hval d (List.mem_cons_of_mem _ hd))
    rw [← h4] at h5
    have h6 : (pre ++ A ++ E ++ K).length = pre.length + 7 + E.length + K.length := by
      simp [hA7]
      omega
    rw [h6] at h5
    rw [h5]
    have h7 : (acc ++ [(c, K)]) ++ cs.map (fun d => (d, code d))
        = acc ++ (c :: cs).map (fun d => (d, code d)) := by
      simp
    rw [h7]
    have h8 : pre.length + 7 + E.length + K.length + B.length
        = pre.length + ((c :: cs).flatMap (fun d => Compress.ascii7 d
          ++ EliasEncoding.elias_string (code d).length ++ code d)).length := by
      simp only [List.flatMap_cons]
      rw [← hB, ← hK, ← hA, ← hE]
      simp only [List.length_append, hA7]
      omega
    rw [h8]

end HeaderParse

theorem length_filterMap_count {α β : Type} (f : α → Option β) :
    ∀ l : List α, (l.filterMap f).length = l.countP (fun a => (f a).isSome) := by
  intro l
  induction l with
  | nil => rfl
  | cons a l ih =>
    rw [List.filterMap_cons, List.countP_cons]
    cases hfa : f a with
    | none => simp [ih]
    | some b => simp [ih]

theorem filter_nodup_dedup_length {L textS : List Nat} (hL : L.Nodup)
    (hsub : ∀ c ∈ textS, c ∈ L) :
    (L.filter (fun c => decide (c ∈ textS))).length = textS.dedup.length := by
  apply List.Perm.length_eq
  rw [List.perm_iff_count]
  intro a
  by_cases ha : a ∈ textS
  · rw [List.count_filter (by simp [ha])]
    rw [List.count_eq_one_of_mem hL (hsub a ha)]
    rw [List.count_eq_one_of_mem (List.nodup_dedup textS) (List.mem_dedup.mpr ha)]
  · have h1 : List.count a (L.filter (fun c => decide (c ∈ textS))) = 0 := by
      rw [List.count_eq_zero]
      intro h
      exact ha (by simpa using (List.mem_filter.mp h).2)
    have h2 : List.count a textS.dedup = 0 := by
      rw [List.count_eq_zero]
      intro h
      exact ha (List.mem_dedup.mp h)
    rw [h1, h2]

/-- The number of `(count, char)` pairs put on the heap equals the number
of distinct symbols of the text. -/
theorem uniqueList_length {textS : List Nat} (hval : ∀ c ∈ textS, 36 ≤ c ∧ c ≤ 126) :
    (Compress.uniqueList textS).length = textS.dedup.length := by
  rw [Compress.uniqueList, length_filterMap_count]
  have h1 : List.countP (fun i =>
        (if 0 < (Compress.countChars textS).getD i 0
         then some ((Compress.countChars textS).getD i 0, [i + 36]) else none).isSome)
        (List.range 91)
      = List.countP (fun i => decide ((i + 36) ∈ textS)) (List.range 91) := by
    apply List.countP_congr
    intro i hi
    have hcount := Compress.countChars_getD textS i (fun d hd => (hval d hd).1)
      (List.mem_range.mp hi)
    by_cases h : 0 < (Compress.countChars textS).getD i 0
    · rw [if_pos h]
      simp only [Option.isSome_some]
      rw [hcount] at h
      simp [List.count_pos_iff.mp h]
    · rw [if_neg h]
      simp only [Option.isSome_none]
      rw [hcount] at h
      constructor
      · intro hF
        exact absurd hF (by simp)
      · intro hmem
        exact absurd (List.count_pos_iff.mpr (by simpa using hmem)) h
  rw [h1, List.countP_eq_length_filter]
  have h2 : (List.filter (fun i => decide ((i + 36) ∈ textS)) (List.range 91)).length
      = (List.filter (fun c => decide (c ∈ textS))
          ((List.range 91).map (fun i => i + 36))).length := by
    rw [List.filter_map, List.length_map]
    rfl
  rw [h2]
  apply filter_nodup_dedup_length
  · exact List.Nodup.map (fun a b h => by omega) (List.nodup_range 91)
  · intro c hc
    have := hval c hc
    rw [List.mem_map]
    exact ⟨c - 36, List.mem_range.mpr (by omega), by omega⟩

theorem nodup_same_mem_length {l1 l2 : List Nat} (h1 : l1.Nodup) (h2 : l2.Nodup)
    (hm : ∀ a, a ∈ l1 ↔ a ∈ l2) : l1.length = l2.length := by
  apply List.Perm.length_eq
  rw [List.perm_iff_count]
  intro a
  by_cases ha : a ∈ l1
  · rw [List.count_eq_one_of_mem h1 ha, List.count_eq_one_of_mem h2 ((hm a).mp ha)]
  · rw [List.count_eq_zero.mpr ha, List.count_eq_zero.mpr (fun h => ha ((hm a).mpr h))]

/-- The symbol serialization order lists exactly as many symbols as the
heap-initialization loop put on the heap. -/
theorem huffOrder_length (t : List Nat) (hne : t ≠ [])
    (hval : ∀ c ∈ t, 37 ≤ c ∧ c ≤ 126) :
    (Compress.huffOrder (t ++ [36])).length = (Compress.uniqueList (t ++ [36])).length := by
  have hvalS : ∀ c ∈ t ++ [36], 36 ≤ c ∧ c ≤ 126 := by
    intro c hc
    rcases List.mem_append.mp hc with h | h
    · have := hval c h
      omega
    · simp at h
      omega
  obtain ⟨hnd, hmem, _, _, _⟩ := Compress.huffman_facts t hne hval
  rw [uniqueList_length hvalS]
  apply nodup_same_mem_length hnd (List.nodup_dedup _)
  intro a
  rw [List.mem_dedup]
  exact hmem a

/-- The decompressor's header parse on a compressor-produced header (with
arbitrary payload bits after it): it recovers the sentinel-extended text
length, the distinct-symbol count, the full symbol/code table in
serialization order, and the exact header length as payload start. -/
theorem decode_header_spec (t : List Nat) (rest : List Bool) (hne : t ≠ [])
    (hval : ∀ c ∈ t, 37 ≤ c ∧ c ≤ 126) :
    Decompress.decode_header (Compress.header (t ++ [36]) ++ rest)
      = ((t ++ [36]).length, (Compress.uniqueList (t ++ [36])).length,
         (Compress.huffOrder (t ++ [36])).map (fun c => (c, Compress.codeOf (t ++ [36]) c)),
         (Compress.header (t ++ [36])).length) := by
  have hvalS : ∀ c ∈ t ++ [36], 36 ≤ c ∧ c ≤ 126 := by
    intro c hc
    rcases List.mem_append.mp hc with h | h
    · have := hval c h
      omega
    · simp at h
      omega
  obtain ⟨hnd, hmem, hrange, hcne, _⟩ := Compress.huffman_facts t hne hval
  have hn1 : 1 ≤ (t ++ [36]).length := by simp
  have hU1 : 1 ≤ (Compress.uniqueList (t ++ [36])).length := by
    cases hu : Compress.uniqueList (t ++ [36]) with
    | nil => exact absurd hu (uniqueList_ne_nil hvalS (by simp))
    | cons a l => simp
  -- the stream, re-associated so each component is exposed in turn
  have hb : Compress.header (t ++ [36]) ++ rest
      = EliasEncoding.elias_string (t ++ [36]).length ++
          (EliasEncoding.elias_string (Compress.uniqueList (t ++ [36])).length ++
           ((Compress.huffOrder (t ++ [36])).flatMap (fun c =>
              Compress.ascii7 c
              ++ EliasEncoding.elias_string (Compress.codeOf (t ++ [36]) c).length
              ++ Compress.codeOf (t ++ [36]) c) ++ rest)) := by
    rw [Compress.header]
    simp [List.append_assoc]
  have h1 : EliasDecoding.decode (Compress.header (t ++ [36]) ++ rest) 0
      = ((t ++ [36]).length, (EliasEncoding.elias_string (t ++ [36]).length).length) := by
    rw [hb]
    have := EliasDecoding.decode_at (t ++ [36]).length hn1 []
      (EliasEncoding.elias_string (Compress.uniqueList (t ++ [36])).length ++
       ((Compress.huffOrder (t ++ [36])).flatMap (fun c =>
          Compress.ascii7 c
          ++ EliasEncoding.elias_string (Compress.codeOf (t ++ [36]) c).length
          ++ Compress.codeOf (t ++ [36]) c) ++ rest))
    simpa using this
  have h2 : EliasDecoding.decode (Compress.header (t ++ [36]) ++ rest)
      (EliasEncoding.elias_string (t ++ [36]).length).length
      = ((Compress.uniqueList (t ++ [36])).length,
         (EliasEncoding.elias_string (t ++ [36]).length).length
           + (EliasEncoding.elias_string (Compress.uniqueList (t ++ [36])).length).length) := by
    have hb2 : Compress.header (t ++ [36]) ++ rest
        = EliasEncoding.elias_string (t ++ [36]).length ++
            (EliasEncoding.elias_string (Compress.uniqueList (t ++ [36])).length ++
             ((Compress.huffOrder (t ++ [36])).flatMap (fun c =>
                Compress.ascii7 c
                ++ EliasEncoding.elias_string (Compress.codeOf (t ++ [36]) c).length
                ++ Compress.codeOf (t ++ [36]) c) ++ rest)) := hb
    rw [hb2]
    have := EliasDecoding.decode_at (Compress.uniqueList (t ++ [36])).length hU1
      (EliasEncoding.elias_string (t ++ [36]).length)
      ((Compress.huffOrder (t ++ [36])).flatMap (fun c =>
          Compress.ascii7 c
          ++ EliasEncoding.elias_string (Compress.codeOf (t ++ [36]) c).length
          ++ Compress.codeOf (t ++ [36]) c) ++ rest)
    exact this
  have h3 := headerLoop_spec (Compress.huffOrder (t ++ [36])) (Compress.codeOf (t ++ [36]))
    (EliasEncoding.elias_string (t ++ [36]).length ++
      EliasEncoding.elias_string (Compress.uniqueList (t ++ [36])).length) rest []
    (fun c hc => ⟨by have := hrange c hc; omega, by have := hrange c hc; omega,
      List.length_pos.mpr (hcne c hc)⟩)
  have hb3 : Compress.header (t ++ [36]) ++ rest
      = (EliasEncoding.elias_string (t ++ [36]).length ++
          EliasEncoding.elias_string (Compress.uniqueList (t ++ [36])).length) ++
          ((Compress.huffOrder (t ++ [36])).flatMap (fun c =>
              Compress.ascii7 c
              ++ EliasEncoding.elias_string (Compress.codeOf (t ++ [36]) c).length
              ++ Compress.codeOf (t ++ [36]) c) ++ rest) := by
    rw [Compress.header]
    simp [List.append_assoc]
  rw [← hb3, List.length_append, List.nil_append] at h3
  have hOL := huffOrder_length t hne hval
  have hlen : (EliasEncoding.elias_string (t ++ [36]).length).length
      + (EliasEncoding.elias_string (Compress.uniqueList (t ++ [36])).length).length
      + ((Compress.huffOrder (t ++ [36])).flatMap (fun c =>
          Compress.ascii7 c
          ++ EliasEncoding.elias_string (Compress.codeOf (t ++ [36]) c).length
          ++ Compress.codeOf (t ++ [36]) c)).length
      = (Compress.header (t ++ [36])).length := by
    rw [Compress.header]
    simp [List.length_append]
    omega
  simp only [Decompress.decode_header, h1, h2]
  rw [← hOL] at h3 hlen ⊢
  rw [h3, hlen]

/-- The header layout as the spec words it (§4.6): `Elias(n)` with
`n = len(text) + 1` counting the sentinel, `Elias(u)` with `u` the number
of distinct symbols of the text-with-sentinel, then per symbol in Huffman
order its 7-bit ASCII, the Elias code of its code length, and the raw code
bits.  Stated from the spec, for comparison with `Compress.header`. -/
def specHeaderLayout (t : List Nat) : List Bool :=
  EliasEncoding.elias_string (t.length + 1)
    ++ EliasEncoding.elias_string ((t ++ [36]).dedup.length)
    ++ (Compress.huffOrder (t ++ [36])).flatMap (fun c =>
        Compress.ascii7 c
        ++ EliasEncoding.elias_string (Compress.codeOf (t ++ [36]) c).length
        ++ Compress.codeOf (t ++ [36]) c)

/-- Claim C8: for every valid input text, the compressed header is exactly
`Elias(len(text)+1)`, then `Elias(#distinct symbols of text+'$')`, then per
distinct symbol in Huffman-construction order its 7-bit MSB-first ASCII,
the Elias code of its Huffman code length, and its raw code bits; and the
decompressor's header parse recovers precisely these fields (text length,
distinct-symbol count, the full symbol/code table in that order) together
with the exact bit index where the payload begins. -/
theorem claim_C8_header_layout (t : List Nat) (rest : List Bool) (hne : t ≠ [])
    (hval : ∀ c ∈ t, 37 ≤ c ∧ c ≤ 126) :
    Compress.header (t ++ [36]) = specHeaderLayout t
    ∧ Decompress.decode_header (Compress.header (t ++ [36]) ++ rest)
      = (t.length + 1, (t ++ [36]).dedup.length,
         (Compress.huffOrder (t ++ [36])).map (fun c => (c, Compress.codeOf (t ++ [36]) c)),
         (Compress.header (t ++ [36])).length) := by
  have hvalS : ∀ c ∈ t ++ [36], 36 ≤ c ∧ c ≤ 126 := by
    intro c hc
    rcases List.mem_append.mp hc with h | h
    · have := hval c h
      omega
    · simp at h
      omega
  have hdl : (Compress.uniqueList (t ++ [36])).length = (t ++ [36]).dedup.length :=
    uniqueList_length hvalS
  constructor
  · rw [Compress.header, specHeaderLayout, hdl]
    simp
  · have := decode_header_spec t rest hne hval
    rw [hdl] at this
    simpa using this

/-- Witness for C8 on the text `"ab"`: both the layout identity and the
header parse hold concretely. -/
theorem claim_C8_header_layout_witness :
    Compress.header ([97, 98] ++ [36]) = specHeaderLayout [97, 98]
    ∧ Decompress.decode_header (Compress.header ([97, 98] ++ [36]) ++ [])
      = ([97, 98].length + 1, (([97, 98] : List Nat) ++ [36]).dedup.length,
         (Compress.huffOrder ([97, 98] ++ [36])).map
           (fun c => (c, Compress.codeOf ([97, 98] ++ [36]) c)),
         (Compress.header ([97, 98] ++ [36])).length) :=
  claim_C8_header_layout [97, 98] [] (by simp) (by decide)

section BWTInverse

/-- Strict lexicographic order on byte strings (Python `<`). -/
def pyStrLT : List Nat → List Nat → Bool
  | [], [] => false
  | [], _ :: _ => true
  | _ :: _, [] => false
  | a :: as, b :: bs => if a < b then true else if a = b then pyStrLT as bs else false

/-- The rank of the suffix starting at `p`: how many suffixes of `text` are
lexicographically strictly smaller. -/
def sufRank (text : List Nat) (p : Nat) : Nat :=
  (List.range text.length).countP (fun i => pyStrLT (text.drop i) (text.drop p))

theorem pyStrLT_irrefl : ∀ a : List Nat, pyStrLT a a = false := by
  intro a
  induction a with
  | nil => rfl
  | cons x xs ih => simp [pyStrLT, ih]

theorem pyStrLE_iff_lt_or_eq : ∀ a b : List Nat,
    pyStrLE a b = true ↔ (pyStrLT a b = true ∨ a = b) := by
  intro a
  induction a with
  | nil =>
    intro b
    cases b with
    | nil => simp [pyStrLE, pyStrLT]
    | cons y ys => simp [pyStrLE, pyStrLT]
  | cons x xs ih =>
    intro b
    cases b with
    | nil => simp [pyStrLE, pyStrLT]
    | cons y ys =>
      by_cases hxy : x < y
      · simp [pyStrLE, pyStrLT, hxy]
      · by_cases hyx : y < x
        · have hne : x ≠ y := by omega
          simp [pyStrLE, pyStrLT, hxy, hyx, hne]
        · have heq : x = y := by omega
          subst heq
          simp [pyStrLE, pyStrLT, ih]

theorem pyStrLT_le : ∀ a b : List Nat, pyStrLT a b = true → pyStrLE a b = true := by
  intro a b h
  exact (pyStrLE_iff_lt_or_eq a b).mpr (Or.inl h)

theorem pyStrLT_ne : ∀ a b : List Nat, pyStrLT a b = true → a ≠ b := by
  intro a b h he
  subst he
  rw [pyStrLT_irrefl] at h
  exact Bool.false_ne_true h

theorem pyStrLT_asymm : ∀ a b : List Nat,
    pyStrLT a b = true → pyStrLT b a = true → False := by
  intro a b h1 h2
  exact pyStrLT_ne a b h1 (pyStrLE_antisymm a b (pyStrLT_le a b h1) (pyStrLT_le b a h2))

theorem pyStrLT_iff_le_ne : ∀ a b : List Nat, a ≠ b →
    (pyStrLT a b = pyStrLE a b) := by
  intro a b hne
  cases hlt : pyStrLT a b with
  | true => exact ((pyStrLE_iff_lt_or_eq a b).mpr (Or.inl hlt)).symm
  | false =>
    cases hle : pyStrLE a b with
    | false => rfl
    | true =>
      rcases (pyStrLE_iff_lt_or_eq a b).mp hle with h | h
      · rw [hlt] at h
        exact absurd h (by simp)
      · exact absurd h hne

theorem pyStrLT_total : ∀ a b : List Nat, a ≠ b →
    pyStrLT a b = true ∨ pyStrLT b a = true := by
  intro a b hne
  rcases pyStrLE_total a b with h | h
  · rcases (pyStrLE_iff_lt_or_eq a b).mp h with h2 | h2
    · exact Or.inl h2
    · exact absurd h2 hne
  · rcases (pyStrLE_iff_lt_or_eq b a).mp h with h2 | h2
    · exact Or.inr h2
    · exact absurd h2.symm hne

theorem pyStrLT_trans : ∀ a b c : List Nat,
    pyStrLT a b = true → pyStrLT b c = true → pyStrLT a c = true := by
  intro a
  induction a with
  | nil =>
    intro b c hab hbc
    cases b with
    | nil => exact absurd hab (by simp [pyStrLT])
    | cons y ys =>
      cases c with
      | nil => exact absurd hbc (by simp [pyStrLT])
      | cons z zs => rfl
  | cons x xs ih =>
    intro b c hab hbc
    cases b with
    | nil => exact absurd hab (by simp [pyStrLT])
    | cons y ys =>
      cases c with
      | nil => exact absurd hbc (by simp [pyStrLT])
      | cons z zs =>
        rw [pyStrLT] at hab hbc ⊢
        by_cases hxy : x < y
        · by_cases hyz : y < z
          · rw [if_pos (by omega)]
          · by_cases hyz2 : y = z
            · rw [if_pos (by omega)]
            · rw [if_neg hyz, if_neg hyz2] at hbc
              exact absurd hbc (by simp)
        · by_cases hxy2 : x = y
          · subst hxy2
            rw [if_neg hxy, if_pos rfl] at hab
            by_cases hyz : x < z
            · rw [if_pos hyz]
            · by_cases hyz2 : x = z
              · rw [if_neg hyz, if_pos hyz2]
                rw [if_neg hyz, if_pos hyz2] at hbc
                exact ih ys zs hab hbc
              · rw [if_neg hyz, if_neg hyz2] at hbc
                exact absurd hbc (by simp)
          · rw [if_neg hxy, if_neg hxy2] at hab
            exact absurd hab (by simp)

theorem pairLE_total : ∀ p q : List Nat × Nat, pairLE p q = true ∨ pairLE q p = true := by
  intro p q
  rw [pairLE, pairLE]
  by_cases h : p.1 = q.1
  · rw [if_pos h, if_pos h.symm]
    rcases Nat.le_total p.2 q.2 with h2 | h2
    · left
      simpa using h2
    · right
      simpa using h2
  · rw [if_neg h, if_neg (fun h2 => h h2.symm)]
    exact pyStrLE_total p.1 q.1

theorem pairLE_antisymm : ∀ p q : List Nat × Nat,
    pairLE p q = true → pairLE q p = true → p = q := by
  intro p q hpq hqp
  rw [pairLE] at hpq hqp
  by_cases h : p.1 = q.1
  · rw [if_pos h] at hpq
    rw [if_pos h.symm] at hqp
    simp at hpq hqp
    have : p.2 = q.2 := by omega
    exact Prod.ext h this
  · rw [if_neg h] at hpq
    rw [if_neg (fun h2 => h h2.symm)] at hqp
    exact absurd (pyStrLE_antisymm _ _ hpq hqp) h

theorem pairLE_trans : ∀ p q r : List Nat × Nat,
    pairLE p q = true → pairLE q r = true → pairLE p r = true := by
  intro p q r hpq hqr
  rw [pairLE] at hpq hqr ⊢
  by_cases h1 : p.1 = q.1
  · rw [if_pos h1] at hpq
    by_cases h2 : q.1 = r.1
    · rw [if_pos h2] at hqr
      rw [if_pos (h1.trans h2)]
      simp at hpq hqr ⊢
      omega
    · rw [if_neg h2] at hqr
      rw [if_neg (h1 ▸ h2), h1]
      exact hqr
  · rw [if_neg h1] at hpq
    by_cases h2 : q.1 = r.1
    · rw [if_neg (h2 ▸ h1), ← h2]
      exact hpq
    · rw [if_neg h2] at hqr
      by_cases h3 : p.1 = r.1
      · exact absurd (pyStrLE_antisymm _ _ hpq (h3 ▸ hqr)) h1
      · rw [if_neg h3]
        exact pyStrLE_trans _ _ _ hpq hqr

theorem suffixPairs_length (text : List Nat) :
    (SuffixArray.suffixPairs text).length = text.length := by
  rw [SuffixArray.suffixPairs, List.length_map, List.length_range]

theorem suffixPairs_nodup (text : List Nat) : (SuffixArray.suffixPairs text).Nodup := by
  rw [SuffixArray.suffixPairs]
  apply List.Nodup.map
  · intro a b h
    simpa using congrArg Prod.snd h
  · exact List.nodup_range _

theorem sortedPairs_perm (text : List Nat) :
    (SuffixArray.sortedPairs text).Perm (SuffixArray.suffixPairs text) :=
  List.perm_insertionSort _ _

theorem sortedPairs_length (text : List Nat) :
    (SuffixArray.sortedPairs text).length = text.length := by
  rw [(sortedPairs_perm text).length_eq, suffixPairs_length]

theorem sortedPairs_nodup (text : List Nat) : (SuffixArray.sortedPairs text).Nodup :=
  (sortedPairs_perm text).nodup_iff.mpr (suffixPairs_nodup text)

theorem sortedPairs_pairwise (text : List Nat) :
    (SuffixArray.sortedPairs text).Pairwise (fun p q => pairLE p q = true) := by
  haveI : IsTotal (List Nat × Nat) (fun p q => pairLE p q = true) := ⟨pairLE_total⟩
  haveI : IsTrans (List Nat × Nat) (fun p q => pairLE p q = true) :=
    ⟨fun p q r => pairLE_trans p q r⟩
  exact List.sorted_insertionSort _ _

theorem sorted_pos_countP {α : Type} [DecidableEq α] (R : α → α → Bool)
    (hA : ∀ a b, R a b = true → R b a = true → a = b) :
    ∀ (l : List α), l.Pairwise (fun a b => R a b = true) → l.Nodup →
    ∀ (k : Nat) (hk : k < l.length),
    l.countP (fun a => R a (l.get ⟨k, hk⟩) && decide (a ≠ l.get ⟨k, hk⟩)) = k := by
  intro l
  induction l with
  | nil =>
    intro _ _ k hk
    simp at hk
  | cons x xs ih =>
    intro hp hn k hk
    obtain ⟨hx, hxs⟩ := List.pairwise_cons.mp hp
    obtain ⟨hxmem, hxsn⟩ := List.nodup_cons.mp hn
    cases k with
    | zero =>
      have hget : (x :: xs).get ⟨0, hk⟩ = x := rfl
      rw [hget, List.countP_cons]
      have hpx : (R x x && decide (x ≠ x)) = false := by simp
      rw [hpx]
      have h0 : xs.countP (fun a => R a x && decide (a ≠ x)) = 0 := by
        rw [List.countP_eq_zero]
        intro a ha hcontra
        simp only [Bool.and_eq_true, decide_eq_true_eq] at hcontra
        exact hcontra.2 (hA a x hcontra.1 (hx a ha))
      rw [h0]
      simp
    | succ k =>
      have hk2 : k < xs.length := by
        rw [List.length_cons] at hk
        omega
      have hget : (x :: xs).get ⟨k + 1, hk⟩ = xs.get ⟨k, hk2⟩ := rfl
      rw [hget, List.countP_cons]
      have hmm : xs.get ⟨k, hk2⟩ ∈ xs := List.get_mem xs k hk2
      have hpx : (R x (xs.get ⟨k, hk2⟩) && decide (x ≠ xs.get ⟨k, hk2⟩)) = true := by
        simp only [Bool.and_eq_true, decide_eq_true_eq]
        exact ⟨hx _ hmm, fun he => hxmem (he ▸ hmm)⟩
      rw [hpx, ih hxs hxsn k hk2]
      simp

end BWTInverse

theorem drop_ne_of_ne (text : List Nat) (i p : Nat) (hi : i < text.length)
    (hp : p < text.length) (hne : i ≠ p) : text.drop i ≠ text.drop p := by
  intro h
  have h2 : (text.drop i).length = (text.drop p).length := by rw [h]
  rw [List.length_drop, List.length_drop] at h2
  omega

/-- Every position of the sorted suffix-pair list holds the pair of some
suffix start `p`, at position exactly `sufRank p`. -/
theorem sortedPairs_get_spec (text : List Nat) (k : Nat)
    (hk : k < (SuffixArray.sortedPairs text).length) :
    ∃ p, p < text.length
      ∧ (SuffixArray.sortedPairs text).get ⟨k, hk⟩ = (text.drop p, p)
      ∧ sufRank text p = k := by
  have hmem : (SuffixArray.sortedPairs text).get ⟨k, hk⟩ ∈ SuffixArray.sortedPairs text :=
    List.get_mem _ k hk
  have hmem2 := (sortedPairs_perm text).mem_iff.mp hmem
  rw [SuffixArray.suffixPairs, List.mem_map] at hmem2
  obtain ⟨p, hp, hpe⟩ := hmem2
  rw [List.mem_range] at hp
  have hcount := sorted_pos_countP pairLE pairLE_antisymm (SuffixArray.sortedPairs text)
    (sortedPairs_pairwise text) (sortedPairs_nodup text) k hk
  rw [← hpe] at hcount
  have hcount2 : (SuffixArray.suffixPairs text).countP
      (fun a => pairLE a (text.drop p, p) && decide (a ≠ (text.drop p, p))) = k := by
    rw [← (sortedPairs_perm text).countP_eq]
    exact hcount
  rw [SuffixArray.suffixPairs, List.countP_map] at hcount2
  refine ⟨p, hp, hpe.symm, ?_⟩
  rw [sufRank, ← hcount2]
  apply List.countP_congr
  intro i hi
  rw [List.mem_range] at hi
  simp only [Function.comp]
  by_cases hip : i = p
  · subst hip
    simp [pyStrLT_irrefl]
  · have hdne : text.drop i ≠ text.drop p := drop_ne_of_ne text i p hi hp hip
    have hpair : pairLE (text.drop i, i) (text.drop p, p)
        = pyStrLE (text.drop i) (text.drop p) := by
      rw [pairLE, if_neg]
      simpa using hdne
    have hne2 : decide ((text.drop i, i) ≠ (text.drop p, p)) = true := by
      simp
      exact Or.inr hip
    rw [hpair, hne2, Bool.and_true, pyStrLT_iff_le_ne _ _ hdne]

/-- The pair of the suffix starting at `p` sits at position `sufRank p`. -/
theorem sufRank_get (text : List Nat) (p : Nat) (hp : p < text.length) :
    ∃ (h : sufRank text p < (SuffixArray.sortedPairs text).length),
      (SuffixArray.sortedPairs text).get ⟨sufRank text p, h⟩ = (text.drop p, p) := by
  have hmem : (text.drop p, p) ∈ SuffixArray.sortedPairs text := by
    rw [(sortedPairs_perm text).mem_iff, SuffixArray.suffixPairs, List.mem_map]
    exact ⟨p, List.mem_range.mpr hp, rfl⟩
  obtain ⟨⟨k, hk⟩, hke⟩ := List.mem_iff_get.mp hmem
  obtain ⟨q, hq, hqe, hqr⟩ := sortedPairs_get_spec text k hk
  have hpq : q = p := by
    have h2 := hke.symm.trans hqe
    exact (by simpa using congrArg Prod.snd h2 : p = q).symm
  subst hpq
  subst hqr
  exact ⟨hk, hke⟩

theorem sufRank_lt (text : List Nat) (p : Nat) (hp : p < text.length) :
    sufRank text p < text.length := by
  obtain ⟨h, _⟩ := sufRank_get text p hp
  rw [sortedPairs_length] at h
  exact h

theorem sufRank_inj (text : List Nat) (p q : Nat) (hp : p < text.length)
    (hq : q < text.length) (h : sufRank text p = sufRank text q) : p = q := by
  obtain ⟨h1, he1⟩ := sufRank_get text p hp
  obtain ⟨h2, he2⟩ := sufRank_get text q hq
  rw [show (⟨sufRank text p, h1⟩ : Fin (SuffixArray.sortedPairs text).length)
      = ⟨sufRank text q, h2⟩ from Fin.ext h] at he1
  have := he1.symm.trans he2
  simpa using congrArg Prod.snd this

theorem countP_lt_of_witness {α : Type} [DecidableEq α] {l : List α} (hn : l.Nodup)
    {A B : α → Bool} (hAB : ∀ x ∈ l, A x = true → B x = true)
    {j : α} (hj : j ∈ l) (hAj : A j = false) (hBj : B j = true) :
    l.countP A < l.countP B := by
  have hperm := List.perm_cons_erase hj
  rw [hperm.countP_eq A, hperm.countP_eq B, List.countP_cons, List.countP_cons]
  have hmono : (l.erase j).countP A ≤ (l.erase j).countP B :=
    List.countP_mono_left (fun x hx => hAB x (List.mem_of_mem_erase hx))
  rw [hAj, hBj]
  simp
  omega

theorem sufRank_lt_of_strLT (text : List Nat) (p q : Nat) (hp : p < text.length)
    (hq : q < text.length) (h : pyStrLT (text.drop p) (text.drop q) = true) :
    sufRank text p < sufRank text q := by
  rw [sufRank, sufRank]
  apply countP_lt_of_witness (List.nodup_range _)
    (fun i _ hA => pyStrLT_trans _ _ _ hA h) (List.mem_range.mpr hp)
  · exact pyStrLT_irrefl _
  · exact h

theorem sufRank_le_iff (text : List Nat) (p q : Nat) (hp : p < text.length)
    (hq : q < text.length) :
    sufRank text q ≤ sufRank text p
      ↔ (q = p ∨ pyStrLT (text.drop q) (text.drop p) = true) := by
  constructor
  · intro h
    by_cases hqp : q = p
    · exact Or.inl hqp
    · right
      rcases pyStrLT_total _ _ (drop_ne_of_ne text q p hq hp hqp) with h2 | h2
      · exact h2
      · exact absurd (sufRank_lt_of_strLT text p q hp hq h2) (by omega)
  · intro h
    rcases h with h | h
    · subst h
      exact Nat.le_refl _
    · exact Nat.le_of_lt (sufRank_lt_of_strLT text q p hq hp h)

theorem bwt_length (text : List Nat) : (BWT_Encoding.bwt text).length = text.length := by
  rw [BWT_Encoding.bwt, List.length_map, SuffixArray.naive_suffix_array, List.length_map,
    sortedPairs_length]

theorem getD_range_map (l : List Nat) :
    (List.range l.length).map (fun i => l.getD i 0) = l := by
  apply List.ext_getElem
  · rw [List.length_map, List.length_range]
  · intro i h1 h2
    rw [List.getElem_map, List.getElem_range, List.getD_eq_getElem?_getD,
      List.getElem?_eq_getElem h2, Option.getD_some]

/-- `BWT[sufRank p]` is the character cyclically preceding position `p`. -/
theorem bwt_getD (text : List Nat) (p : Nat) (hp : p < text.length) :
    (BWT_Encoding.bwt text).getD (sufRank text p) 0
      = text.getD ((p + text.length - 1) % text.length) 0 := by
  obtain ⟨h, hget⟩ := sufRank_get text p hp
  rw [List.get_eq_getElem] at hget
  have hl : sufRank text p <
      (((SuffixArray.sortedPairs text).map (fun x => x.2 + 1)).map
        (fun y => text.getD ((y + text.length - 2) % text.length) 0)).length := by
    rw [List.length_map, List.length_map]
    exact h
  rw [BWT_Encoding.bwt, SuffixArray.naive_suffix_array, List.getD_eq_getElem?_getD,
    List.getElem?_eq_getElem hl, Option.getD_some, List.getElem_map, List.getElem_map,
    hget]
  have harith : p + 1 + text.length - 2 = p + text.length - 1 := by omega
  rw [harith]

theorem prev_mod_of_pos (p n : Nat) (hp : p < n) (h1 : 1 ≤ p) :
    (p + n - 1) % n = p - 1 := by
  have h2 : p + n - 1 = n + (p - 1) := by omega
  rw [h2, Nat.add_mod_left]
  exact Nat.mod_eq_of_lt (by omega)

theorem prev_mod_zero (n : Nat) (hn : 1 ≤ n) : (0 + n - 1) % n = n - 1 := by
  have h2 : 0 + n - 1 = n - 1 := by omega
  rw [h2]
  exact Nat.mod_eq_of_lt (by omega)

theorem prevF_range_perm (n : Nat) :
    ((List.range n).map (fun i => (i + n - 1) % n)).Perm (List.range n) := by
  cases n with
  | zero => simp
  | succ m =>
    have hmap : (List.range (m + 1)).map (fun i => (i + (m + 1) - 1) % (m + 1))
        = m :: List.range m := by
      rw [List.range_succ_eq_map, List.map_cons, List.map_map]
      have h0 : (0 + (m + 1) - 1) % (m + 1) = m := prev_mod_zero (m + 1) (by omega)
      rw [h0]
      have h2 : ∀ i ∈ List.range m,
          ((fun i => (i + (m + 1) - 1) % (m + 1)) ∘ Nat.succ) i = id i := by
        intro i hi
        rw [List.mem_range] at hi
        simp only [Function.comp, id]
        rw [prev_mod_of_pos (i + 1) (m + 1) (by omega) (by omega)]
        omega
      rw [List.map_congr_left h2, List.map_id]
    rw [hmap, List.range_succ]
    exact (List.perm_append_singleton m (List.range m)).symm

/-- The BWT string is a permutation of the text. -/
theorem bwt_perm (text : List Nat) : (BWT_Encoding.bwt text).Perm text := by
  cases hn : text.length with
  | zero =>
    have h1 : (BWT_Encoding.bwt text).length = 0 := by rw [bwt_length, hn]
    rw [List.length_eq_zero] at h1
    rw [h1]
    rw [List.length_eq_zero] at hn
    rw [hn]
  | succ m =>
    have hn1 : 1 ≤ text.length := by omega
    rw [BWT_Encoding.bwt, SuffixArray.naive_suffix_array, List.map_map]
    have hp1 : ((SuffixArray.sortedPairs text).map
        ((fun y => text.getD ((y + text.length - 2) % text.length) 0) ∘ fun x => x.2 + 1)).Perm
        ((SuffixArray.suffixPairs text).map
        ((fun y => text.getD ((y + text.length - 2) % text.length) 0) ∘ fun x => x.2 + 1)) :=
      (sortedPairs_perm text).map _
    apply hp1.trans
    rw [SuffixArray.suffixPairs, List.map_map]
    have h2 : ∀ i ∈ List.range text.length,
        (((fun y => text.getD ((y + text.length - 2) % text.length) 0)
          ∘ (fun x : List Nat × Nat => x.2 + 1)) ∘ fun i => (text.drop i, i)) i
        = ((fun j => text.getD j 0) ∘ (fun i => (i + text.length - 1) % text.length)) i := by
      intro i hi
      simp only [Function.comp]
      have harith : i + 1 + text.length - 2 = i + text.length - 1 := by omega
      rw [harith]
    rw [List.map_congr_left h2, ← List.map_map]
    have hp2 : ((List.range text.length).map
        (fun i => (i + text.length - 1) % text.length)).map (fun j => text.getD j 0)
        |>.Perm ((List.range text.length).map (fun j => text.getD j 0)) :=
      (prevF_range_perm text.length).map _
    apply hp2.trans
    rw [getD_range_map]

theorem getD_replicate_self {α : Type} (k i : Nat) (a : α) :
    (List.replicate k a).getD i a = a := by
  rw [List.getD_eq_getElem?_getD, List.getElem?_replicate]
  by_cases h : i < k <;> simp [h]

theorem sorted_take_le (fc : List Nat) (hp : fc.Pairwise (fun a b => a ≤ b)) (m : Nat)
    (hm : m < fc.length) : ∀ a ∈ fc.take m, a ≤ fc.getD m 0 := by
  intro a ha
  rw [List.mem_take_iff_getElem] at ha
  obtain ⟨i, hi, he⟩ := ha
  have hi2 : i < m ∧ i < fc.length := by
    constructor <;> [exact lt_of_lt_of_le hi (min_le_left _ _);
      exact lt_of_lt_of_le hi (min_le_right _ _)]
  have hle := List.pairwise_iff_getElem.mp hp i m hi2.2 hm hi2.1
  rw [List.getD_eq_getElem?_getD, List.getElem?_eq_getElem hm, Option.getD_some]
  rw [← he]
  exact hle

theorem take_succ_getD {α : Type} [Inhabited α] (l : List α) (m : Nat) (hm : m < l.length) :
    l.take (m + 1) = l.take m ++ [l.getD m default] := by
  rw [List.take_succ, List.getElem?_eq_getElem hm]
  rw [List.getD_eq_getElem?_getD, List.getElem?_eq_getElem hm, Option.getD_some]
  rfl

/-- One iteration of the `rank_order` loop body. -/
def roStep (bwt fc : List Nat) (st : List (Option Nat) × List Nat × List Nat)
    (idx : Nat) : List (Option Nat) × List Nat × List Nat :=
  let rk := st.1
  let oc := st.2.1
  let od := st.2.2
  let rk2 := if (rk.getD (fc.getD idx 0 - 36) none) = none
    then rk.set (fc.getD idx 0 - 36) (some idx) else rk
  let j := bwt.getD idx 0 - 36
  (rk2, oc.set j (oc.getD j 0 + 1), od.set idx (oc.getD j 0 + 1))

/-- The `rank_order` fold after `m` iterations. -/
def roFold (bwt fc : List Nat) (m : Nat) : List (Option Nat) × List Nat × List Nat :=
  (List.range m).foldl (roStep bwt fc)
    (List.replicate 91 none, List.replicate 91 0, List.replicate bwt.length 0)

theorem rank_order_eq_fold (bwt : List Nat) :
    BWT_Decoding.rank_order bwt
      = ((roFold bwt (List.insertionSort (fun a b : Nat => a ≤ b) bwt) bwt.length).1,
         (roFold bwt (List.insertionSort (fun a b : Nat => a ≤ b) bwt) bwt.length).2.2) :=
  rfl

theorem roFold_succ (bwt fc : List Nat) (m : Nat) :
    roFold bwt fc (m + 1) = roStep bwt fc (roFold bwt fc m) m := by
  rw [roFold, roFold, List.range_succ, List.foldl_append]
  rfl

/-- Invariant of the `rank_order` loop: after `m` iterations, `rank[d]`
holds the position of the first occurrence of symbol `d+36` among the
first `m` sorted characters (equivalently the number of strictly smaller
characters), `order_checker[d]` counts the occurrences of `d+36` among
the first `m` BWT characters, and `order[idx]` (for `idx < m`) counts the
occurrences of `bwt[idx]` in `bwt[0..idx]`. -/
theorem roFold_inv (bwt fc : List Nat) (hval : ∀ c ∈ bwt, 36 ≤ c ∧ c ≤ 126)
    (hfc_len : fc.length = bwt.length)
    (hfc_sorted : fc.Pairwise (fun a b => a ≤ b))
    (hfc_val : ∀ c ∈ fc, 36 ≤ c ∧ c ≤ 126) :
    ∀ m, m ≤ bwt.length →
    ((roFold bwt fc m).1.length = 91
      ∧ (roFold bwt fc m).2.1.length = 91
      ∧ (roFold bwt fc m).2.2.length = bwt.length)
    ∧ (∀ d, d < 91 → (roFold bwt fc m).1.getD d none
        = if (d + 36) ∈ fc.take m
          then some ((fc.take m).countP (fun e => decide (e < d + 36))) else none)
    ∧ (∀ d, d < 91 → (roFold bwt fc m).2.1.getD d 0 = (bwt.take m).count (d + 36))
    ∧ (∀ idx, idx < m → (roFold bwt fc m).2.2.getD idx 0
        = (bwt.take (idx + 1)).count (bwt.getD idx 0))
    ∧ (∀ idx, m ≤ idx → (roFold bwt fc m).2.2.getD idx 0 = 0) := by
  intro m
  induction m with
  | zero =>
    intro _
    refine ⟨⟨?_, ?_, ?_⟩, ?_, ?_, ?_, ?_⟩
    · rw [roFold, List.range_zero, List.foldl_nil, List.length_replicate]
    · rw [roFold, List.range_zero, List.foldl_nil, List.length_replicate]
    · rw [roFold, List.range_zero, List.foldl_nil, List.length_replicate]
    · intro d _
      rw [roFold, List.range_zero, List.foldl_nil]
      rw [List.take_zero, if_neg (by simp)]
      exact getD_replicate_self 91 d none
    · intro d _
      rw [roFold, List.range_zero, List.foldl_nil, List.take_zero, List.count_nil]
      exact getD_replicate_self 91 d 0
    · intro idx h
      omega
    · intro idx _
      rw [roFold, List.range_zero, List.foldl_nil]
      exact getD_replicate_self bwt.length idx 0
  | succ m ih =>
    intro hm1
    have hm : m < bwt.length := by omega
    obtain ⟨⟨hL1, hL2, hL3⟩, hR, hO, hD1, hD2⟩ := ih (by omega)
    rw [roFold_succ, roStep]
    have hfcm : m < fc.length := by omega
    have hwmem : fc.getD m 0 ∈ fc := by
      rw [List.getD_eq_getElem?_getD, List.getElem?_eq_getElem hfcm, Option.getD_some]
      exact List.getElem_mem _
    obtain ⟨hw36, hw126⟩ := hfc_val _ hwmem
    have hcmem : bwt.getD m 0 ∈ bwt := by
      rw [List.getD_eq_getElem?_getD, List.getElem?_eq_getElem hm, Option.getD_some]
      exact List.getElem_mem _
    obtain ⟨hc36, hc126⟩ := hval (bwt.getD m 0) hcmem
    have htake : fc.take (m + 1) = fc.take m ++ [fc.getD m 0] := by
      have := take_succ_getD fc m hfcm
      simpa using this
    have htakeb : bwt.take (m + 1) = bwt.take m ++ [bwt.getD m 0] := by
      have := take_succ_getD bwt m hm
      simpa using this
    have htlen : (fc.take m).length = m := by
      rw [List.length_take]
      omega
    have hle_take : ∀ a ∈ fc.take m, a ≤ fc.getD m 0 := sorted_take_le fc hfc_sorted m hfcm
    refine ⟨⟨?_, ?_, ?_⟩, ?_, ?_, ?_, ?_⟩
    · by_cases hcase : (roFold bwt fc m).1.getD (fc.getD m 0 - 36) none = none
      · rw [if_pos hcase, List.length_set]
        exact hL1
      · rw [if_neg hcase]
        exact hL1
    · rw [List.length_set]
      exact hL2
    · rw [List.length_set]
      exact hL3
    · intro d hd
      by_cases hcase : (roFold bwt fc m).1.getD (fc.getD m 0 - 36) none = none
      · rw [if_pos hcase]
        have hnotin : fc.getD m 0 ∉ fc.take m := by
          intro hmem2
          have hset := hR (fc.getD m 0 - 36) (by omega)
          rw [if_pos (by rw [show fc.getD m 0 - 36 + 36 = fc.getD m 0 from by omega]; exact hmem2)] at hset
          rw [hcase] at hset
          exact Option.noConfusion hset
        by_cases hdw : d = fc.getD m 0 - 36
        · subst hdw
          rw [getD_set_self _ _ _ _ (by omega)]
          have hd36 : fc.getD m 0 - 36 + 36 = fc.getD m 0 := by omega
          rw [hd36, if_pos (by rw [htake]; exact List.mem_append.mpr (Or.inr (by simp)))]
          have hall : (fc.take m).countP (fun e => decide (e < fc.getD m 0)) = m := by
            rw [List.countP_eq_length.mpr, htlen]
            intro a ha
            have h1 := hle_take a ha
            have h2 : a ≠ fc.getD m 0 := fun he => hnotin (he ▸ ha)
            simp only [decide_eq_true_eq]
            omega
          rw [htake, List.countP_append, hall]
          simp
        · rw [getD_set_ne _ _ _ _ _ (fun he => hdw he.symm)]
          rw [hR d hd]
          have hmemiff : ((d + 36) ∈ fc.take (m + 1)) ↔ ((d + 36) ∈ fc.take m) := by
            rw [htake, List.mem_append]
            constructor
            · intro h
              rcases h with h | h
              · exact h
              · simp only [List.mem_singleton] at h
                omega
            · exact Or.inl
          by_cases hmem2 : (d + 36) ∈ fc.take m
          · rw [if_pos hmem2, if_pos (hmemiff.mpr hmem2)]
            have hwge : d + 36 ≤ fc.getD m 0 := hle_take _ hmem2
            rw [htake, List.countP_append]
            have hpf : decide (fc.getD m 0 < d + 36) = false := by
              rw [decide_eq_false_iff_not]
              omega
            have : List.countP (fun e => decide (e < d + 36)) [fc.getD m 0] = 0 := by
              simp only [List.countP_cons, List.countP_nil, hpf]
              simp
            rw [this]
            exact congrArg some (Nat.add_zero _).symm
          · rw [if_neg hmem2, if_neg (fun h => hmem2 (hmemiff.mp h))]
      · rw [if_neg hcase]
        have hin : fc.getD m 0 ∈ fc.take m := by
          by_contra hnot
          have hset := hR (fc.getD m 0 - 36) (by omega)
          rw [if_neg (by rw [show fc.getD m 0 - 36 + 36 = fc.getD m 0 from by omega]; exact hnot)] at hset
          exact hcase hset
        rw [hR d hd]
        have hmemiff : ((d + 36) ∈ fc.take (m + 1)) ↔ ((d + 36) ∈ fc.take m) := by
          rw [htake, List.mem_append]
          constructor
          · intro h
            rcases h with h | h
            · exact h
            · simp only [List.mem_singleton] at h
              rw [h]
              exact hin
          · exact Or.inl
        by_cases hmem2 : (d + 36) ∈ fc.take m
        · rw [if_pos hmem2, if_pos (hmemiff.mpr hmem2)]
          have hwge : d + 36 ≤ fc.getD m 0 := hle_take _ hmem2
          rw [htake, List.countP_append]
          have hpf : decide (fc.getD m 0 < d + 36) = false := by
            rw [decide_eq_false_iff_not]
            omega
          have : List.countP (fun e => decide (e < d + 36)) [fc.getD m 0] = 0 := by
            simp only [List.countP_cons, List.countP_nil, hpf]
            simp
          rw [this]
          exact congrArg some (Nat.add_zero _).symm
        · rw [if_neg hmem2, if_neg (fun h => hmem2 (hmemiff.mp h))]
    · intro d hd
      by_cases hdj : d = bwt.getD m 0 - 36
      · subst hdj
        rw [getD_set_self _ _ _ _ (by omega)]
        rw [hO _ (by omega), htakeb, List.count_append]
        have hd36 : bwt.getD m 0 - 36 + 36 = bwt.getD m 0 := by omega
        rw [hd36]
        simp
      · rw [getD_set_ne _ _ _ _ _ (fun he => hdj he.symm)]
        rw [hO d hd, htakeb, List.count_append]
        have : List.count (d + 36) [bwt.getD m 0] = 0 := by
          rw [List.count_eq_zero]
          simp only [List.mem_singleton]
          omega
        rw [this]
        omega
    · intro idx hidx
      by_cases hidm : idx = m
      · subst hidm
        rw [getD_set_self _ _ _ _ (by omega)]
        rw [hO _ (by omega), htakeb, List.count_append]
        have hd36 : bwt.getD idx 0 - 36 + 36 = bwt.getD idx 0 := by omega
        rw [hd36]
        simp
      · rw [getD_set_ne _ _ _ _ _ (fun he => hidm he.symm)]
        exact hD1 idx (by omega)
    · intro idx hidx
      rw [getD_set_ne _ _ _ _ _ (by omega)]
      exact hD2 idx (by omega)

/-- `rank[c-36]` after the full pass: the number of characters of the BWT
string strictly smaller than `c` (= first position of `c` in the sorted
first column). -/
theorem rank_getD (bwt : List Nat) (hval : ∀ c ∈ bwt, 36 ≤ c ∧ c ≤ 126) (c : Nat)
    (hc : c ∈ bwt) :
    (BWT_Decoding.rank_order bwt).1.getD (c - 36) none
      = some (bwt.countP (fun e => decide (e < c))) := by
  have hperm : (List.insertionSort (fun a b : Nat => a ≤ b) bwt).Perm bwt :=
    List.perm_insertionSort _ _
  have hlen : (List.insertionSort (fun a b : Nat => a ≤ b) bwt).length = bwt.length :=
    hperm.length_eq
  have hsorted : (List.insertionSort (fun a b : Nat => a ≤ b) bwt).Pairwise
      (fun a b => a ≤ b) := by
    haveI : IsTotal Nat (fun a b : Nat => a ≤ b) := ⟨Nat.le_total⟩
    haveI : IsTrans Nat (fun a b : Nat => a ≤ b) := ⟨fun a b c => Nat.le_trans⟩
    exact List.sorted_insertionSort _ _
  have hfval : ∀ d ∈ List.insertionSort (fun a b : Nat => a ≤ b) bwt, 36 ≤ d ∧ d ≤ 126 :=
    fun d hd => hval d (hperm.mem_iff.mp hd)
  obtain ⟨hc36, hc126⟩ := hval c hc
  obtain ⟨_, hR, _, _, _⟩ := roFold_inv bwt (List.insertionSort (fun a b : Nat => a ≤ b) bwt)
    hval hlen hsorted hfval bwt.length (Nat.le_refl _)
  rw [rank_order_eq_fold]
  rw [hR (c - 36) (by omega)]
  have hc36e : c - 36 + 36 = c := by omega
  rw [hc36e, ← hlen, List.take_length]
  rw [if_pos (hperm.mem_iff.mpr hc)]
  rw [hperm.countP_eq]

/-- `order[idx]` after the full pass: occurrences of `bwt[idx]` among
`bwt[0..idx]`. -/
theorem order_getD (bwt : List Nat) (hval : ∀ c ∈ bwt, 36 ≤ c ∧ c ≤ 126)
    (idx : Nat) (hidx : idx < bwt.length) :
    (BWT_Decoding.rank_order bwt).2.getD idx 0
      = (bwt.take (idx + 1)).count (bwt.getD idx 0) := by
  have hperm : (List.insertionSort (fun a b : Nat => a ≤ b) bwt).Perm bwt :=
    List.perm_insertionSort _ _
  have hlen : (List.insertionSort (fun a b : Nat => a ≤ b) bwt).length = bwt.length :=
    hperm.length_eq
  have hsorted : (List.insertionSort (fun a b : Nat => a ≤ b) bwt).Pairwise
      (fun a b => a ≤ b) := by
    haveI : IsTotal Nat (fun a b : Nat => a ≤ b) := ⟨Nat.le_total⟩
    haveI : IsTrans Nat (fun a b : Nat => a ≤ b) := ⟨fun a b c => Nat.le_trans⟩
    exact List.sorted_insertionSort _ _
  have hfval : ∀ d ∈ List.insertionSort (fun a b : Nat => a ≤ b) bwt, 36 ≤ d ∧ d ≤ 126 :=
    fun d hd => hval d (hperm.mem_iff.mp hd)
  obtain ⟨_, _, _, hD1, _⟩ := roFold_inv bwt (List.insertionSort (fun a b : Nat => a ≤ b) bwt)
    hval hlen hsorted hfval bwt.length (Nat.le_refl _)
  rw [rank_order_eq_fold]
  exact hD1 idx hidx

theorem countP_range_getD (l : List Nat) (p : Nat → Bool) :
    (List.range l.length).countP (fun i => p (l.getD i 0)) = l.countP p := by
  conv_rhs => rw [← getD_range_map l]
  rw [List.countP_map]
  rfl

theorem count_take_countP_range (l : List Nat) (c : Nat) : ∀ m, m ≤ l.length →
    (l.take m).count c = (List.range m).countP (fun i => decide (l.getD i 0 = c)) := by
  intro m
  induction m with
  | zero =>
    intro _
    simp
  | succ m ih =>
    intro h
    have ht := take_succ_getD l m (by omega)
    rw [show (default : Nat) = 0 from rfl] at ht
    rw [ht, List.count_append, List.range_succ, List.countP_append, ih (by omega)]
    have hL : List.count c [l.getD m 0] = if l.getD m 0 = c then 1 else 0 :=
      List.count_singleton' c (l.getD m 0)
    have hRR : List.countP (fun i => decide (l.getD i 0 = c)) [m]
        = if l.getD m 0 = c then 1 else 0 := by
      rw [List.countP_cons, List.countP_nil]
      by_cases hc : l.getD m 0 = c
      · rw [if_pos (by simpa using hc), if_pos hc]
      · rw [if_neg (by simpa using hc), if_neg hc]
    rw [hL, hRR]

theorem countP_or_split {l : List Nat} {A B : Nat → Bool}
    (hdisj : ∀ x ∈ l, ¬(A x = true ∧ B x = true)) :
    l.countP (fun x => A x || B x) = l.countP A + l.countP B := by
  induction l with
  | nil => rfl
  | cons a l ih =>
    rw [List.countP_cons, List.countP_cons, List.countP_cons,
      ih (fun x hx => hdisj x (List.mem_cons_of_mem _ hx))]
    by_cases hA : A a = true
    · have hB : ¬ B a = true := fun h => hdisj a (List.mem_cons_self _ _) ⟨hA, h⟩
      rw [Bool.not_eq_true] at hB
      simp [hA, hB]
      omega
    · rw [Bool.not_eq_true] at hA
      by_cases hB : B a = true
      · simp [hA, hB]
        omega
      · rw [Bool.not_eq_true] at hB
        simp [hA, hB]

theorem countP_range_restrict (Q : Nat → Bool) (m n : Nat) (hmn : m ≤ n) :
    (List.range m).countP Q
      = (List.range n).countP (fun x => decide (x < m) && Q x) := by
  have hsplit : List.range n = List.range m ++ (List.range (n - m)).map (fun x => m + x) := by
    rw [← List.range_add]
    congr 1
    omega
  rw [hsplit, List.countP_append]
  have h1 : (List.range m).countP (fun x => decide (x < m) && Q x)
      = (List.range m).countP Q := by
    apply List.countP_congr
    intro x hx
    rw [List.mem_range] at hx
    simp [hx]
  have h2 : ((List.range (n - m)).map (fun x => m + x)).countP
      (fun x => decide (x < m) && Q x) = 0 := by
    rw [List.countP_eq_zero]
    intro a ha
    rw [List.mem_map] at ha
    obtain ⟨y, _, hy⟩ := ha
    simp only [Bool.and_eq_true, decide_eq_true_eq]
    intro hcon
    omega
  rw [h1, h2]
  omega

theorem countP_eq_single {l : List Nat} (hnd : l.Nodup) {p : Nat} (hp : p ∈ l)
    {D : Nat → Bool} (hD : D p = true) :
    l.countP (fun q => decide (q = p) && D q) = 1 := by
  have hperm := List.perm_cons_erase hp
  rw [hperm.countP_eq, List.countP_cons]
  have hpp : (decide (p = p) && D p) = true := by simp [hD]
  rw [hpp]
  have h0 : (l.erase p).countP (fun q => decide (q = p) && D q) = 0 := by
    rw [List.countP_eq_zero]
    intro a ha
    have hne : a ≠ p := ((List.Nodup.mem_erase_iff hnd).mp ha).1
    simp [hne]
  rw [h0]
  simp

theorem pyStrLT_cons (a b : Nat) (as bs : List Nat) :
    pyStrLT (a :: as) (b :: bs)
      = (decide (a < b) || (decide (a = b) && pyStrLT as bs)) := by
  rw [pyStrLT]
  by_cases h1 : a < b
  · simp [h1]
  · by_cases h2 : a = b
    · simp [h1, h2]
    · simp [h1, h2]

theorem drop_cons_getD (l : List Nat) (i : Nat) (hi : i < l.length) :
    l.drop i = l.getD i 0 :: l.drop (i + 1) := by
  rw [List.drop_eq_getElem_cons hi]
  congr 1
  rw [List.getD_eq_getElem?_getD, List.getElem?_eq_getElem hi, Option.getD_some]

/-- Decomposition of the rank of the predecessor suffix: suffixes smaller
than the suffix at `p-1` either start with a smaller character, or start
with the same character `c = textS[p-1]` and have a smaller tail. -/
theorem sufRank_pred_split (textS : List Nat)
    (hsent : textS.getD (textS.length - 1) 0 = 36)
    (hmid : ∀ i, i < textS.length - 1 → 37 ≤ textS.getD i 0)
    (p : Nat) (hp1 : 1 ≤ p) (hpn : p ≤ textS.length - 1) :
    sufRank textS (p - 1)
      = textS.countP (fun e => decide (e < textS.getD (p - 1) 0))
        + (List.range (textS.length - 1)).countP
            (fun i => decide (textS.getD i 0 = textS.getD (p - 1) 0)
              && pyStrLT (textS.drop (i + 1)) (textS.drop p)) := by
  have hn1 : 2 ≤ textS.length := by omega
  have hc : 37 ≤ textS.getD (p - 1) 0 := hmid (p - 1) (by omega)
  have hp0 : p - 1 + 1 = p := by omega
  have hdropp : textS.drop (p - 1) = textS.getD (p - 1) 0 :: textS.drop p := by
    rw [drop_cons_getD textS (p - 1) (by omega), hp0]
  rw [sufRank]
  have hstep1 : (List.range textS.length).countP
      (fun i => pyStrLT (textS.drop i) (textS.drop (p - 1)))
      = (List.range textS.length).countP
        (fun i => decide (textS.getD i 0 < textS.getD (p - 1) 0)
          || (decide (textS.getD i 0 = textS.getD (p - 1) 0)
              && pyStrLT (textS.drop (i + 1)) (textS.drop p))) := by
    apply List.countP_congr
    intro i hi
    rw [List.mem_range] at hi
    rw [drop_cons_getD textS i hi, hdropp, pyStrLT_cons]
  rw [hstep1]
  rw [countP_or_split (by
    intro x hx hcon
    obtain ⟨h1, h2⟩ := hcon
    simp only [Bool.and_eq_true, decide_eq_true_eq] at h1 h2
    omega)]
  congr 1
  · exact countP_range_getD textS (fun e => decide (e < textS.getD (p - 1) 0))
  · have hsplit : List.range textS.length = List.range (textS.length - 1)
        ++ [textS.length - 1] := by
      rw [← List.range_succ]
      congr 1
      omega
    rw [hsplit, List.countP_append]
    have hlast : List.countP (fun i => decide (textS.getD i 0 = textS.getD (p - 1) 0)
        && pyStrLT (textS.drop (i + 1)) (textS.drop p)) [textS.length - 1] = 0 := by
      rw [List.countP_cons, List.countP_nil]
      have hfalse : decide (textS.getD (textS.length - 1) 0 = textS.getD (p - 1) 0) = false := by
        rw [decide_eq_false_iff_not, hsent]
        omega
      simp only [hfalse, Bool.false_and]
      simp
    rw [hlast, Nat.add_zero]

theorem sufRank_range_perm (textS : List Nat) :
    ((List.range textS.length).map (sufRank textS)).Perm (List.range textS.length) := by
  have hnd : ((List.range textS.length).map (sufRank textS)).Nodup := by
    apply List.Nodup.map_on
    · intro x hx y hy hxy
      rw [List.mem_range] at hx hy
      exact sufRank_inj textS x y hx hy hxy
    · exact List.nodup_range _
  have hsub : ((List.range textS.length).map (sufRank textS)) ⊆ List.range textS.length := by
    intro a ha
    rw [List.mem_map] at ha
    obtain ⟨i, hi, he⟩ := ha
    rw [List.mem_range] at hi
    rw [List.mem_range, ← he]
    exact sufRank_lt textS i hi
  apply List.Subperm.perm_of_length_le (hnd.subperm hsub)
  rw [List.length_map]

/-- The count of `textS[p-1]` among the first `sufRank p + 1` BWT
characters: the run at `p` itself plus one occurrence for every strictly
smaller suffix whose predecessor character is the same. -/
theorem bwt_count_take (textS : List Nat) (hval : ∀ c ∈ textS, 36 ≤ c ∧ c ≤ 126)
    (hsent : textS.getD (textS.length - 1) 0 = 36)
    (hmid : ∀ i, i < textS.length - 1 → 37 ≤ textS.getD i 0)
    (p : Nat) (hp1 : 1 ≤ p) (hpn : p ≤ textS.length - 1) :
    ((BWT_Encoding.bwt textS).take (sufRank textS p + 1)).count (textS.getD (p - 1) 0)
      = 1 + (List.range (textS.length - 1)).countP
            (fun i => decide (textS.getD i 0 = textS.getD (p - 1) 0)
              && pyStrLT (textS.drop (i + 1)) (textS.drop p)) := by
  have hn1 : 2 ≤ textS.length := by omega
  have hpln : p < textS.length := by omega
  have hk : sufRank textS p < textS.length := sufRank_lt textS p hpln
  have hc : 37 ≤ textS.getD (p - 1) 0 := hmid (p - 1) (by omega)
  have hblen : (BWT_Encoding.bwt textS).length = textS.length := bwt_length textS
  rw [count_take_countP_range (BWT_Encoding.bwt textS) (textS.getD (p - 1) 0)
    (sufRank textS p + 1) (by omega)]
  rw [countP_range_restrict _ (sufRank textS p + 1) textS.length (by omega)]
  rw [← hblen]
  rw [hblen]
  have hstep : (List.range textS.length).countP
      (fun x => decide (x < sufRank textS p + 1)
        && decide ((BWT_Encoding.bwt textS).getD x 0 = textS.getD (p - 1) 0))
      = (List.range textS.length).countP
        ((fun x => decide (x < sufRank textS p + 1)
          && decide ((BWT_Encoding.bwt textS).getD x 0 = textS.getD (p - 1) 0))
          ∘ sufRank textS) := by
    rw [← List.countP_map]
    exact ((sufRank_range_perm textS).countP_eq _).symm
  rw [hstep]
  have hstep2 : (List.range textS.length).countP
      ((fun x => decide (x < sufRank textS p + 1)
        && decide ((BWT_Encoding.bwt textS).getD x 0 = textS.getD (p - 1) 0))
        ∘ sufRank textS)
      = (List.range textS.length).countP
        (fun q => (decide (q = p)
            && decide (textS.getD ((q + textS.length - 1) % textS.length) 0
              = textS.getD (p - 1) 0))
          || (pyStrLT (textS.drop q) (textS.drop p)
            && decide (textS.getD ((q + textS.length - 1) % textS.length) 0
              = textS.getD (p - 1) 0))) := by
    apply List.countP_congr
    intro q hq
    rw [List.mem_range] at hq
    simp only [Function.comp, Bool.and_eq_true, Bool.or_eq_true, decide_eq_true_eq]
    rw [bwt_getD textS q hq]
    constructor
    · intro ⟨hlt, hbc⟩
      have hle : sufRank textS q ≤ sufRank textS p := by omega
      rcases (sufRank_le_iff textS p q hpln hq).mp hle with h | h
      · exact Or.inl ⟨h, hbc⟩
      · exact Or.inr ⟨h, hbc⟩
    · intro h
      rcases h with ⟨hqp, hbc⟩ | ⟨hlt, hbc⟩
      · subst hqp
        exact ⟨by omega, hbc⟩
      · have := sufRank_lt_of_strLT textS q p hq hpln hlt
        exact ⟨by omega, hbc⟩
  rw [hstep2]
  rw [countP_or_split (by
    intro x hx hcon
    obtain ⟨h1, h2⟩ := hcon
    simp only [Bool.and_eq_true, decide_eq_true_eq] at h1 h2
    obtain ⟨hx1, _⟩ := h1
    subst hx1
    rw [pyStrLT_irrefl] at h2
    exact absurd h2.1 (by simp))]
  congr 1
  · apply countP_eq_single (List.nodup_range _) (List.mem_range.mpr hpln)
    rw [decide_eq_true_eq]
    rw [prev_mod_of_pos p textS.length hpln hp1]
  · have hsplit : List.range textS.length
        = 0 :: (List.range (textS.length - 1)).map Nat.succ := by
      rw [← List.range_succ_eq_map]
      congr 1
      omega
    rw [hsplit, List.countP_cons, List.countP_map]
    have hzero : (pyStrLT (textS.drop 0) (textS.drop p)
        && decide (textS.getD ((0 + textS.length - 1) % textS.length) 0
          = textS.getD (p - 1) 0)) = false := by
      have h36 : textS.getD ((0 + textS.length - 1) % textS.length) 0 = 36 := by
        rw [prev_mod_zero textS.length (by omega)]
        exact hsent
      have hd : decide (textS.getD ((0 + textS.length - 1) % textS.length) 0
          = textS.getD (p - 1) 0) = false := by
        rw [decide_eq_false_iff_not, h36]
        omega
      rw [hd, Bool.and_false]
    simp only [hzero]
    have hcongr : (List.range (textS.length - 1)).countP
        ((fun q => pyStrLT (textS.drop q) (textS.drop p)
          && decide (textS.getD ((q + textS.length - 1) % textS.length) 0
            = textS.getD (p - 1) 0)) ∘ Nat.succ)
        = (List.range (textS.length - 1)).countP
          (fun i => decide (textS.getD i 0 = textS.getD (p - 1) 0)
            && pyStrLT (textS.drop (i + 1)) (textS.drop p)) := by
      apply List.countP_congr
      intro i hi
      rw [List.mem_range] at hi
      simp only [Function.comp, Bool.and_eq_true, decide_eq_true_eq]
      have hprev : (Nat.succ i + textS.length - 1) % textS.length = i := by
        have h2 : Nat.succ i + textS.length - 1 = textS.length + i := by omega
        rw [h2, Nat.add_mod_left]
        exact Nat.mod_eq_of_lt (by omega)
      rw [hprev]
      constructor
      · intro ⟨h1, h2⟩
        exact ⟨h2, h1⟩
      · intro ⟨h1, h2⟩
        exact ⟨h2, h1⟩
    rw [hcongr]
    simp

theorem bwt_getD_pred (textS : List Nat) (p : Nat) (hp1 : 1 ≤ p) (hp : p < textS.length) :
    (BWT_Encoding.bwt textS).getD (sufRank textS p) 0 = textS.getD (p - 1) 0 := by
  rw [bwt_getD textS p hp, prev_mod_of_pos p textS.length hp hp1]

theorem bwt_val (textS : List Nat) (hval : ∀ c ∈ textS, 36 ≤ c ∧ c ≤ 126) :
    ∀ c ∈ BWT_Encoding.bwt textS, 36 ≤ c ∧ c ≤ 126 :=
  fun c hc => hval c ((bwt_perm textS).mem_iff.mp hc)

/-- The LF step: `formula` applied at the row of the suffix starting at
`p` gives the row of the suffix starting at `p - 1`. -/
theorem formula_LF (textS : List Nat) (hval : ∀ c ∈ textS, 36 ≤ c ∧ c ≤ 126)
    (hsent : textS.getD (textS.length - 1) 0 = 36)
    (hmid : ∀ i, i < textS.length - 1 → 37 ≤ textS.getD i 0)
    (p : Nat) (hp1 : 1 ≤ p) (hpn : p ≤ textS.length - 1) :
    BWT_Decoding.formula (BWT_Encoding.bwt textS)
        (BWT_Decoding.rank_order (BWT_Encoding.bwt textS)).1
        (BWT_Decoding.rank_order (BWT_Encoding.bwt textS)).2
        (sufRank textS p)
      = sufRank textS (p - 1) := by
  have hn1 : 2 ≤ textS.length := by omega
  have hpln : p < textS.length := by omega
  have hk := sufRank_lt textS p hpln
  have hblen := bwt_length textS
  have hbval := bwt_val textS hval
  have hbchar : (BWT_Encoding.bwt textS).getD (sufRank textS p) 0 = textS.getD (p - 1) 0 :=
    bwt_getD_pred textS p hp1 hpln
  have hcmem : textS.getD (p - 1) 0 ∈ BWT_Encoding.bwt textS := by
    rw [← hbchar]
    rw [List.getD_eq_getElem?_getD, List.getElem?_eq_getElem (by omega), Option.getD_some]
    exact List.getElem_mem _
  rw [BWT_Decoding.formula, hbchar]
  rw [rank_getD (BWT_Encoding.bwt textS) hbval (textS.getD (p - 1) 0) hcmem]
  rw [Option.getD_some]
  rw [order_getD (BWT_Encoding.bwt textS) hbval (sufRank textS p) (by omega)]
  rw [hbchar]
  rw [bwt_count_take textS hval hsent hmid p hp1 hpn]
  rw [(bwt_perm textS).countP_eq]
  rw [sufRank_pred_split textS hsent hmid p hp1 hpn]
  omega

/-- The suffix consisting of the sentinel alone is the smallest: row 0. -/
theorem sufRank_last (textS : List Nat)
    (hsent : textS.getD (textS.length - 1) 0 = 36)
    (hmid : ∀ i, i < textS.length - 1 → 37 ≤ textS.getD i 0)
    (hn1 : 1 ≤ textS.length) :
    sufRank textS (textS.length - 1) = 0 := by
  rw [sufRank, List.countP_eq_zero]
  intro i hi
  rw [List.mem_range] at hi
  have hdropl : textS.drop (textS.length - 1) = [36] := by
    rw [drop_cons_getD textS (textS.length - 1) (by omega), hsent]
    have h2 : textS.length - 1 + 1 = textS.length := by omega
    rw [h2, List.drop_length]
  have hfalse : pyStrLT (textS.drop i) (textS.drop (textS.length - 1)) = false := by
    rw [hdropl, drop_cons_getD textS i hi]
    by_cases hi2 : i < textS.length - 1
    · have hc := hmid i hi2
      rw [show ([36] : List Nat) = 36 :: [] from rfl, pyStrLT]
      rw [if_neg (by omega), if_neg (by omega)]
    · have hieq : i = textS.length - 1 := by omega
      subst hieq
      rw [hsent]
      have h2 : textS.length - 1 + 1 = textS.length := by omega
      rw [h2, List.drop_length]
      rfl
  rw [hfalse]
  simp

/-- What the BWT decode loop computes: positions `m-1, …, 0` of the answer
array set to the text characters. -/
def fillAns (textS : List Nat) : Nat → List (Option Nat) → List (Option Nat)
  | 0, ans => ans
  | m + 1, ans => fillAns textS m (ans.set m (some (textS.getD m 0)))

theorem fillAns_length (textS : List Nat) :
    ∀ m ans, (fillAns textS m ans).length = ans.length := by
  intro m
  induction m with
  | zero => intro ans; rfl
  | succ m ih =>
    intro ans
    rw [fillAns, ih, List.length_set]

theorem fillAns_getD_ge (textS : List Nat) :
    ∀ m ans i, m ≤ i → (fillAns textS m ans).getD i none = ans.getD i none := by
  intro m
  induction m with
  | zero => intro ans i _; rfl
  | succ m ih =>
    intro ans i hi
    rw [fillAns, ih _ _ (by omega), getD_set_ne _ _ _ _ _ (by omega)]

theorem fillAns_getD (textS : List Nat) :
    ∀ m ans i, i < m → m ≤ ans.length →
    (fillAns textS m ans).getD i none = some (textS.getD i 0) := by
  intro m
  induction m with
  | zero => intro ans i hi _; omega
  | succ m ih =>
    intro ans i hi hm
    rw [fillAns]
    by_cases him : i = m
    · subst him
      rw [fillAns_getD_ge textS i _ i (Nat.le_refl _)]
      rw [getD_set_self _ _ _ _ (by omega)]
    · exact ih _ i (by omega) (by rw [List.length_set]; omega)

/-- The decode loop of `BWT_Decoding` started at row `sufRank m` with the
index list `[m-1, …, 0]` left to fill: it never hits the sentinel break
and fills positions `m-1, …, 0` with `textS[m-1], …, textS[0]`. -/
theorem decodeLoop_fills (textS : List Nat) (hval : ∀ c ∈ textS, 36 ≤ c ∧ c ≤ 126)
    (hsent : textS.getD (textS.length - 1) 0 = 36)
    (hmid : ∀ i, i < textS.length - 1 → 37 ≤ textS.getD i 0) :
    ∀ (m : Nat), m ≤ textS.length - 1 → ∀ (ans : List (Option Nat)),
    BWT_Decoding.decodeLoop (BWT_Encoding.bwt textS)
        (BWT_Decoding.rank_order (BWT_Encoding.bwt textS)).1
        (BWT_Decoding.rank_order (BWT_Encoding.bwt textS)).2
        (List.range m).reverse (sufRank textS m) ans
      = fillAns textS m ans := by
  intro m
  induction m with
  | zero =>
    intro _ ans
    rw [List.range_zero, List.reverse_nil, BWT_Decoding.decodeLoop, fillAns]
  | succ m ih =>
    intro hm ans
    have hrev : (List.range (m + 1)).reverse = m :: (List.range m).reverse := by
      rw [List.range_succ, List.reverse_append, List.reverse_singleton,
        List.singleton_append]
    rw [hrev, BWT_Decoding.decodeLoop]
    have hchar : (BWT_Encoding.bwt textS).getD (sufRank textS (m + 1)) 0
        = textS.getD m 0 := by
      have h2 := bwt_getD_pred textS (m + 1) (by omega) (by omega)
      simpa using h2
    have hne36 : ¬ (BWT_Encoding.bwt textS).getD (sufRank textS (m + 1)) 0 = 36 := by
      rw [hchar]
      have := hmid m (by omega)
      omega
    rw [if_neg hne36]
    have hform : BWT_Decoding.formula (BWT_Encoding.bwt textS)
        (BWT_Decoding.rank_order (BWT_Encoding.bwt textS)).1
        (BWT_Decoding.rank_order (BWT_Encoding.bwt textS)).2
        (sufRank textS (m + 1)) = sufRank textS m := by
      have h2 := formula_LF textS hval hsent hmid (m + 1) (by omega) (by omega)
      simpa using h2
    rw [hform, hchar]
    rw [ih (by omega)]
    rw [fillAns]

/-- `get_text` on the BWT of a sentinel-terminated text recovers the text
with the sentinel stripped. -/
theorem get_text_bwt (textS : List Nat) (hval : ∀ c ∈ textS, 36 ≤ c ∧ c ≤ 126)
    (hsent : textS.getD (textS.length - 1) 0 = 36)
    (hmid : ∀ i, i < textS.length - 1 → 37 ≤ textS.getD i 0)
    (hn1 : 1 ≤ textS.length) :
    BWT_Decoding.get_text (BWT_Encoding.bwt textS)
      = (List.range (textS.length - 1)).map (fun i => textS.getD i 0) := by
  rw [BWT_Decoding.get_text]
  have hblen : (BWT_Encoding.bwt textS).length = textS.length := bwt_length textS
  rw [hblen]
  have hloop := decodeLoop_fills textS hval hsent hmid (textS.length - 1) (Nat.le_refl _)
    (List.replicate (textS.length - 1) none)
  rw [sufRank_last textS hsent hmid hn1] at hloop
  rw [hloop]
  have hfill : fillAns textS (textS.length - 1)
      (List.replicate (textS.length - 1) none)
      = (List.range (textS.length - 1)).map (fun i => some (textS.getD i 0)) := by
    apply List.ext_getElem
    · rw [fillAns_length, List.length_replicate, List.length_map, List.length_range]
    · intro i h1 h2
      have hil : i < textS.length - 1 := by
        rw [fillAns_length, List.length_replicate] at h1
        exact h1
      have hgd := fillAns_getD textS (textS.length - 1)
        (List.replicate (textS.length - 1) none) i hil
        (by rw [List.length_replicate])
      rw [List.getD_eq_getElem?_getD, List.getElem?_eq_getElem h1, Option.getD_some] at hgd
      rw [hgd, List.getElem_map, List.getElem_range]
  rw [hfill]
  have hmm : (List.range (textS.length - 1)).map (fun i => some (textS.getD i 0))
      = ((List.range (textS.length - 1)).map (fun i => textS.getD i 0)).map some := by
    rw [List.map_map]
    rfl
  rw [hmm, List.filterMap_map]
  have hcomp : (List.filterMap (id ∘ some)
      ((List.range (textS.length - 1)).map (fun i => textS.getD i 0)))
      = List.filterMap some
        ((List.range (textS.length - 1)).map (fun i => textS.getD i 0)) := by
    apply List.filterMap_congr
    intro x _
    rfl
  rw [hcomp, List.filterMap_some]

theorem getD_append_here {α : Type} (X : List α) (b : α) (Y : List α) (d : α) :
    (X ++ b :: Y).getD X.length d = b := by
  induction X with
  | nil => rfl
  | cons a X ih => simpa using ih

/-- Claim C6: for every text over the admitted alphabet not containing the
sentinel, the inverse BWT (the rank/order/LF decode of `BWT_Decoding`)
applied to the forward BWT of the text with `'$'` appended returns exactly
the text, sentinel stripped. -/
theorem claim_C6_bwt_inverse (t : List Nat) (hval : ∀ c ∈ t, 37 ≤ c ∧ c ≤ 126) :
    BWT_Decoding.get_text (BWT_Encoding.bwt (t ++ [36])) = t := by
  have hlen : (t ++ [36]).length = t.length + 1 := by simp
  have hvalS : ∀ c ∈ t ++ [36], 36 ≤ c ∧ c ≤ 126 := by
    intro c hc
    rcases List.mem_append.mp hc with h | h
    · have := hval c h
      omega
    · simp at h
      omega
  have hgdt : ∀ i, i < t.length → (t ++ [36]).getD i 0 = t.getD i 0 := by
    intro i hi
    exact List.getD_append t [36] 0 i hi
  have hsent : (t ++ [36]).getD ((t ++ [36]).length - 1) 0 = 36 := by
    rw [hlen]
    have h2 : t.length + 1 - 1 = t.length := by omega
    rw [h2]
    exact getD_append_here t 36 [] 0
  have hmid : ∀ i, i < (t ++ [36]).length - 1 → 37 ≤ (t ++ [36]).getD i 0 := by
    intro i hi
    rw [hlen] at hi
    have hi2 : i < t.length := by omega
    rw [hgdt i hi2]
    have hmem : t.getD i 0 ∈ t := by
      rw [List.getD_eq_getElem?_getD, List.getElem?_eq_getElem hi2, Option.getD_some]
      exact List.getElem_mem _
    exact (hval _ hmem).1
  rw [get_text_bwt (t ++ [36]) hvalS hsent hmid (by rw [hlen]; omega)]
  rw [hlen]
  have h2 : t.length + 1 - 1 = t.length := by omega
  rw [h2]
  have h3 : (List.range t.length).map (fun i => (t ++ [36]).getD i 0)
      = (List.range t.length).map (fun i => t.getD i 0) := by
    apply List.map_congr_left
    intro i hi
    rw [List.mem_range] at hi
    exact hgdt i hi
  rw [h3, getD_range_map]

/-- Witness for C6: the BWT of `"ab$"` decodes back to `"ab"`. -/
theorem claim_C6_bwt_inverse_witness :
    BWT_Decoding.get_text (BWT_Encoding.bwt ([97, 98] ++ [36])) = [97, 98] :=
  claim_C6_bwt_inverse [97, 98] (by decide)

namespace HuffManEncoding

/-- Every heap element's symbol group contains a symbol whose accumulated
code so far is all-`false` (it was on the `'0'` side of every merge it took
part in). -/
def FalseOk (chars : List HuffEntry) (heap : List (Nat × List Nat)) : Prop :=
  ∀ p ∈ heap, ∃ c ∈ p.2, ∀ b ∈ codeBits chars c, b = false

theorem step_falseOk (chars : List HuffEntry) (heap h2 : List (Nat × List Nat))
    (L R : Nat × List Nat) (hperm : heap.Perm (L :: R :: h2))
    (hlen91 : chars.length = 91) (hs : SymsOk heap) (hd : HeapDisj heap)
    (hf : FalseOk chars heap) :
    FalseOk (appendAll (appendAll chars L.2 false) R.2 true)
      ((L.1 + R.1, L.2 ++ R.2) :: h2) := by
  have hs3 : SymsOk (L :: R :: h2) := fun p hp => hs p (hperm.mem_iff.mpr hp)
  have hd3 : HeapDisj (L :: R :: h2) :=
    (hperm.pairwise_iff (fun h => heapDisj_symm h)).mp hd
  have hf3 : FalseOk chars (L :: R :: h2) := fun p hp => hf p (hperm.mem_iff.mpr hp)
  obtain ⟨hLR, hdtail⟩ := List.pairwise_cons.mp hd3
  obtain ⟨hRq, hdh2⟩ := List.pairwise_cons.mp hdtail
  have hLRdisj : ∀ c, c ∈ L.2 → c ∉ R.2 := hLR R (List.mem_cons_self _ _)
  obtain ⟨hLne, hLnd, hLrange⟩ := hs3 L (List.mem_cons_self _ _)
  obtain ⟨hRne, hRnd, hRrange⟩ := hs3 R (List.mem_cons_of_mem _ (List.mem_cons_self _ _))
  have eqL : ∀ x ∈ L.2, codeBits (appendAll (appendAll chars L.2 false) R.2 true) x
      = codeBits chars x ++ [false] := by
    intro x hx
    have hx36 := hLrange x hx
    have houtR : ∀ d ∈ R.2, d - 36 ≠ x - 36 := by
      intro d hd hdx
      have hd36 := hRrange d hd
      have h2x : d = x := by omega
      subst h2x
      exact hLRdisj d hx hd
    rw [appendAll_codeBits_outside _ _ _ _ houtR,
      appendAll_codeBits_mem L.2 chars false x hLnd hx hx36.1
        (fun d hd => (hLrange d hd).1) (by omega)]
  have eqOut : ∀ x, 36 ≤ x → x ∉ L.2 → x ∉ R.2 →
      codeBits (appendAll (appendAll chars L.2 false) R.2 true) x
        = codeBits chars x := by
    intro x hx36 hxL hxR
    have houtR : ∀ d ∈ R.2, d - 36 ≠ x - 36 := by
      intro d hd hdx
      have hd36 := hRrange d hd
      have h2x : d = x := by omega
      subst h2x
      exact hxR hd
    have houtL : ∀ d ∈ L.2, d - 36 ≠ x - 36 := by
      intro d hd hdx
      have hd36 := hLrange d hd
      have h2x : d = x := by omega
      subst h2x
      exact hxL hd
    rw [appendAll_codeBits_outside _ _ _ _ houtR,
      appendAll_codeBits_outside _ _ _ _ houtL]
  intro p hp
  rcases List.mem_cons.mp hp with hhead | htail
  · obtain ⟨c, hcL, hcf⟩ := hf3 L (List.mem_cons_self _ _)
    refine ⟨c, ?_, ?_⟩
    · rw [hhead]
      exact List.mem_append.mpr (Or.inl hcL)
    · rw [eqL c hcL]
      intro b hb
      rcases List.mem_append.mp hb with h | h
      · exact hcf b h
      · simpa using h
  · obtain ⟨c, hcp, hcf⟩ := hf3 p (List.mem_cons_of_mem _ (List.mem_cons_of_mem _ htail))
    refine ⟨c, hcp, ?_⟩
    have hc36 := (hs3 p (List.mem_cons_of_mem _ (List.mem_cons_of_mem _ htail))).2.2 c hcp
    have hcL : c ∉ L.2 := fun hcl => hLR p (List.mem_cons_of_mem _ htail) c hcl hcp
    have hcR : c ∉ R.2 := fun hcr => hRq p htail c hcr hcp
    rw [eqOut c hc36.1 hcL hcR]
    exact hcf

theorem hLoop_falseOk : ∀ (f : Nat) (chars : List HuffEntry)
    (heap : List (Nat × List Nat)),
    chars.length = 91 → SymsOk heap → HeapDisj heap → CodesOk chars heap →
    FalseOk chars heap →
    FalseOk (hLoop f chars heap).1 (hLoop f chars heap).2 := by
  intro f
  induction f with
  | zero =>
    intro chars heap _ _ _ _ hf
    exact hf
  | succ f ih =>
    intro chars heap h91 hs hd hc hf
    by_cases hlen : 1 < heap.length
    · rw [hLoop, if_pos hlen]
      have hne : heap ≠ [] := by
        intro h
        rw [h] at hlen
        simp at hlen
      have hperm1 : heap.Perm ((popMin heap).1 :: (popMin heap).2) := popMin_perm hne
      have hlen1 : (popMin heap).2.length = heap.length - 1 := popMin_snd_length hne
      have h1ne : (popMin heap).2 ≠ [] := by
        intro h
        rw [h] at hlen1
        simp at hlen1
        omega
      have hperm2 : (popMin heap).2.Perm
          ((popMin (popMin heap).2).1 :: (popMin (popMin heap).2).2) := popMin_perm h1ne
      have hperm : heap.Perm ((popMin heap).1 :: (popMin (popMin heap).2).1
          :: (popMin (popMin heap).2).2) :=
        hperm1.trans (hperm2.cons (popMin heap).1)
      obtain ⟨s91, sS, sD, sC, _⟩ :=
        step_preserves chars heap (popMin (popMin heap).2).2 (popMin heap).1
          (popMin (popMin heap).2).1 hperm h91 hs hd hc
      have sF := step_falseOk chars heap (popMin (popMin heap).2).2 (popMin heap).1
        (popMin (popMin heap).2).1 hperm h91 hs hd hf
      exact ih _ _ s91 sS sD sC sF
    · rw [hLoop, if_neg hlen]
      exact hf

end HuffManEncoding

theorem codeBits_map_inl (l : List Nat) (c : Nat) :
    codeBits (l.map (Sum.inl : Nat → HuffEntry)) c = [] := by
  rw [codeBits, List.getD_eq_getElem?_getD, List.getElem?_map]
  cases l[c - 36]? with
  | none => rfl
  | some x => rfl

/-- Some symbol of the final Huffman table carries an all-`false` code:
the symbol that sat in the `'0'` merge group at every step. -/
theorem exists_allfalse_code (t : List Nat) (hne : t ≠ [])
    (hval : ∀ c ∈ t, 37 ≤ c ∧ c ≤ 126) :
    ∃ c ∈ Compress.huffOrder (t ++ [36]),
      ∀ b ∈ Compress.codeOf (t ++ [36]) c, b = false := by
  have hvalS : ∀ c ∈ t ++ [36], 36 ≤ c ∧ c ≤ 126 := by
    intro c hc
    rcases List.mem_append.mp hc with h | h
    · have := hval c h
      omega
    · simp at h
      omega
  obtain ⟨hnd, hmem, hrange, hcne, _⟩ := Compress.huffman_facts t hne hval
  have h91 : ((Compress.countChars (t ++ [36])).map (Sum.inl : Nat → HuffEntry)).length
      = 91 := by
    rw [List.length_map, Compress.countChars_length]
  have hf0 : HuffManEncoding.FalseOk
      ((Compress.countChars (t ++ [36])).map (Sum.inl : Nat → HuffEntry))
      (Compress.uniqueList (t ++ [36])) := by
    intro p hp
    obtain ⟨i, hi, hpos, hpe⟩ := Compress.uniqueList_mem.mp hp
    refine ⟨i + 36, by rw [hpe]; simp, ?_⟩
    intro b hb
    rw [codeBits_map_inl] at hb
    simp at hb
  have hF := HuffManEncoding.hLoop_falseOk (Compress.uniqueList (t ++ [36])).length
    ((Compress.countChars (t ++ [36])).map (Sum.inl : Nat → HuffEntry))
    (Compress.uniqueList (t ++ [36])) h91 Compress.uniqueList_symsOk
    Compress.uniqueList_heapDisj (Compress.uniqueList_codesOk _) hf0
  obtain ⟨f91, fS, fD, fC, fIn, fPos, fMax⟩ :=
    HuffManEncoding.hLoop_invariant (Compress.uniqueList (t ++ [36])).length
      ((Compress.countChars (t ++ [36])).map (Sum.inl : Nat → HuffEntry))
      (Compress.uniqueList (t ++ [36]))
      h91 Compress.uniqueList_symsOk Compress.uniqueList_heapDisj
      (Compress.uniqueList_codesOk _)
  have hrun : Compress.huffRun (t ++ [36])
      = HuffManEncoding.hLoop (Compress.uniqueList (t ++ [36])).length
        ((Compress.countChars (t ++ [36])).map (Sum.inl : Nat → HuffEntry))
        (Compress.uniqueList (t ++ [36])) := rfl
  rw [← hrun] at hF f91 fS fPos fMax
  have h36mem : (36 : Nat) ∈ t ++ [36] := List.mem_append.mpr (Or.inr (by simp))
  have huniqNe : Compress.uniqueList (t ++ [36]) ≠ [] := by
    obtain ⟨p, hp, _⟩ := (Compress.inHeap_uniqueList hvalS 36).mpr h36mem
    intro h
    rw [h] at hp
    simp at hp
  have hfh1 : (Compress.huffRun (t ++ [36])).2.length = 1 := by
    have h1 : 1 ≤ (Compress.huffRun (t ++ [36])).2.length := by
      apply fPos
      cases hu : Compress.uniqueList (t ++ [36]) with
      | nil => exact absurd hu huniqNe
      | cons a l => simp
    have h2 : (Compress.huffRun (t ++ [36])).2.length ≤ 1 := by
      refine le_trans fMax ?_
      omega
    omega
  obtain ⟨q, hq⟩ := List.length_eq_one.mp hfh1
  have horder : Compress.huffOrder (t ++ [36]) = q.2 := by
    rw [Compress.huffOrder, hq]
    rfl
  obtain ⟨c, hcq, hcf⟩ := hF q (by rw [hq]; exact List.mem_cons_self _ _)
  have hcmem : c ∈ Compress.huffOrder (t ++ [36]) := by
    rw [horder]
    exact hcq
  refine ⟨c, hcmem, ?_⟩
  have hcrange := hrange c hcmem
  have hcodeOf : Compress.codeOf (t ++ [36]) c
      = (codeBits (Compress.huffRun (t ++ [36])).1 c).reverse := by
    rw [Compress.codeOf_eq_codeBits, Compress.huffChars]
    exact HuffManEncoding.revAll_codeBits_mem (Compress.huffOrder (t ++ [36]))
      (Compress.huffRun (t ++ [36])).1 c hnd hcmem hcrange.1
      (fun d hd => (hrange d hd).1) (by rw [f91]; omega)
  rw [hcodeOf]
  intro b hb
  rw [List.mem_reverse] at hb
  exact hcf b hb

theorem bitsToNat_lt : ∀ bs : List Bool, bitsToNat bs < 2 ^ bs.length := by
  intro bs
  induction bs with
  | nil => simp [bitsToNat]
  | cons b rest ih =>
    rw [bitsToNat_cons, List.length_cons, pow_succ]
    cases b
    · simp
      omega
    · simp
      omega

theorem bitsToNat_inj : ∀ (a b : List Bool), a.length = b.length →
    bitsToNat a = bitsToNat b → a = b := by
  intro a
  induction a with
  | nil =>
    intro b hlen _
    rw [List.length_nil] at hlen
    exact (List.length_eq_zero.mp hlen.symm).symm
  | cons x xs ih =>
    intro b hlen hv
    cases b with
    | nil => simp at hlen
    | cons y ys =>
      rw [List.length_cons, List.length_cons] at hlen
      have hlen2 : xs.length = ys.length := by omega
      rw [bitsToNat_cons, bitsToNat_cons, hlen2] at hv
      have hx := bitsToNat_lt xs
      have hy := bitsToNat_lt ys
      rw [hlen2] at hx
      have hxy : x = y := by
        cases x <;> cases y <;> simp at hv ⊢ <;> omega
      subst hxy
      have hvv : bitsToNat xs = bitsToNat ys := by
        cases x <;> simp at hv <;> omega
      rw [ih ys hlen2 hvv]

/-- An 8-bit group is reproduced exactly by `format(byte, '08b')`. -/
theorem zfill8_roundtrip (bs : List Bool) (h8 : bs.length = 8) :
    zfill 8 (binPy (bitsToNat bs)) = bs := by
  apply bitsToNat_inj
  · rw [h8, zfill, List.length_append, List.length_replicate]
    by_cases h0 : bitsToNat bs = 0
    · rw [binPy, if_pos h0]
      simp
    · rw [binPy, if_neg h0, natBits_length]
      have hlt : bitsToNat bs < 2 ^ 8 := by
        have := bitsToNat_lt bs
        rw [h8] at this
        exact this
      have hle : bitLength (bitsToNat bs) ≤ 8 := by
        rw [bitLength_eq_size]
        exact Nat.size_le.mpr hlt
      omega
  · rw [bitsToNat_zfill]
    by_cases h0 : bitsToNat bs = 0
    · rw [binPy, if_pos h0, h0]
      rfl
    · rw [binPy, if_neg h0, bitsToNat_natBits]

/-- Reading back the written bytes gives the original bit string followed
by the 0-7 all-zero padding bits of the last byte. -/
theorem bytesToBits_writeBytes : ∀ (f : Nat) (s : List Bool), s.length ≤ 8 * (f + 1) →
    bytesToBits (Compress.writeBytes f s)
      = s ++ List.replicate ((8 - s.length % 8) % 8) false := by
  intro f
  induction f with
  | zero =>
    intro s hs
    rw [Compress.writeBytes]
    by_cases h0 : 0 < s.length
    · rw [if_pos h0]
      rw [bytesToBits, List.flatMap_cons, List.flatMap_nil, List.append_nil]
      have hlen : (s ++ List.replicate (8 - s.length) false).length = 8 := by
        rw [List.length_append, List.length_replicate]
        omega
      rw [zfill8_roundtrip _ hlen]
      have hmod : (8 - s.length % 8) % 8 = 8 - s.length := by
        by_cases h88 : s.length = 8
        · rw [h88]
        · have h1 : s.length % 8 = s.length := Nat.mod_eq_of_lt (by omega)
          rw [h1]
          exact Nat.mod_eq_of_lt (by omega)
      rw [hmod]
    · rw [if_neg h0]
      have hnil : s = [] := List.length_eq_zero.mp (by omega)
      rw [hnil]
      rfl
  | succ f ih =>
    intro s hs
    rw [Compress.writeBytes]
    by_cases h8 : 8 ≤ s.length
    · rw [if_pos h8]
      rw [bytesToBits, List.flatMap_cons]
      have htake8 : (s.take 8).length = 8 := by
        rw [List.length_take]
        omega
      rw [zfill8_roundtrip _ htake8]
      have hdlen : (s.drop 8).length = s.length - 8 := by
        rw [List.length_drop]
      have hih := ih (s.drop 8) (by omega)
      rw [bytesToBits] at hih
      rw [hih]
      rw [← List.append_assoc, List.take_append_drop]
      have hmod : (s.drop 8).length % 8 = s.length % 8 := by
        rw [hdlen]
        have h2 : s.length = (s.length - 8) + 8 := by omega
        conv_rhs => rw [h2]
        rw [Nat.add_mod_right]
      rw [hmod]
    · rw [if_neg h8]
      by_cases h0 : 0 < s.length
      · rw [if_pos h0]
        rw [bytesToBits, List.flatMap_cons, List.flatMap_nil, List.append_nil]
        have hlen : (s ++ List.replicate (8 - s.length) false).length = 8 := by
          rw [List.length_append, List.length_replicate]
          omega
        rw [zfill8_roundtrip _ hlen]
        have hmod : (8 - s.length % 8) % 8 = 8 - s.length := by
          have h1 : s.length % 8 = s.length := Nat.mod_eq_of_lt (by omega)
          rw [h1]
          exact Nat.mod_eq_of_lt (by omega)
        rw [hmod]
      · rw [if_neg h0]
        have hnil : s = [] := List.length_eq_zero.mp (by omega)
        rw [hnil]
        rfl

/-- The bits read back from the binary file: the compressed stream plus
its all-zero padding. -/
theorem bytesToBits_outBytes (t : List Nat) :
    bytesToBits (Compress.outBytes t)
      = Compress.compressBits t
        ++ List.replicate ((8 - (Compress.compressBits t).length % 8) % 8) false := by
  rw [Compress.outBytes]
  exact bytesToBits_writeBytes (Compress.compressBits t).length (Compress.compressBits t)
    (by omega)

namespace HuffmanDecoding

/-- Follow a bit path down the trie. -/
def trieGet : PyNode → List Bool → Option PyNode
  | t, [] => some t
  | t, b :: bs =>
    match t.child b with
    | none => none
    | some t2 => trieGet t2 bs

/-- The payload stored at the end of a bit path, if the path exists. -/
def payloadAt (t : PyNode) (q : List Bool) : Option Nat :=
  match trieGet t q with
  | none => none
  | some node => node.payload

theorem payloadAt_empty : ∀ q : List Bool, payloadAt (.mk none none none) q = none := by
  intro q
  cases q with
  | nil => rfl
  | cons b bs =>
    cases b <;> rfl

theorem insertCode_payloadAt : ∀ (k : List Bool) (t : PyNode) (c : Nat) (q : List Bool),
    payloadAt (insertCode t k c) q = if q = k then some c else payloadAt t q := by
  intro k
  induction k with
  | nil =>
    intro t c q
    cases t with
    | mk p l r =>
      cases q with
      | nil => rfl
      | cons b bs =>
        rw [if_neg (by simp)]
        cases b <;> rfl
  | cons kb ks ih =>
    intro t c q
    cases t with
    | mk p l r =>
      cases kb
      · cases q with
        | nil =>
          rw [if_neg (by simp)]
          rfl
        | cons qb qs =>
          cases qb
          · have hred : payloadAt (insertCode (PyNode.mk p l r) (false :: ks) c)
                (false :: qs)
                = payloadAt (insertCode
                    (match l with | some t2 => t2 | none => PyNode.mk none none none)
                    ks c) qs := rfl
            rw [hred, ih]
            by_cases hq : qs = ks
            · rw [if_pos hq, if_pos (by rw [hq])]
            · rw [if_neg hq, if_neg (by simp [hq])]
              cases l with
              | none =>
                rw [payloadAt_empty]
                rfl
              | some lt => rfl
          · rw [if_neg (by simp)]
            rfl
      · cases q with
        | nil =>
          rw [if_neg (by simp)]
          rfl
        | cons qb qs =>
          cases qb
          · rw [if_neg (by simp)]
            rfl
          · have hred : payloadAt (insertCode (PyNode.mk p l r) (true :: ks) c)
                (true :: qs)
                = payloadAt (insertCode
                    (match r with | some t2 => t2 | none => PyNode.mk none none none)
                    ks c) qs := rfl
            rw [hred, ih]
            by_cases hq : qs = ks
            · rw [if_pos hq, if_pos (by rw [hq])]
            · rw [if_neg hq, if_neg (by simp [hq])]
              cases r with
              | none =>
                rw [payloadAt_empty]
                rfl
              | some rt => rfl

theorem insertCode_trieGet_prefix : ∀ (k : List Bool) (t : PyNode) (c : Nat)
    (q r : List Bool), q ++ r = k → trieGet (insertCode t k c) q ≠ none := by
  intro k
  induction k with
  | nil =>
    intro t c q r hqr
    have hq : q = [] := by
      cases q with
      | nil => rfl
      | cons a as => simp at hqr
    subst hq
    cases t with
    | mk p l r2 => simp [insertCode, trieGet]
  | cons kb ks ih =>
    intro t c q r hqr
    cases t with
    | mk p l r2 =>
      cases q with
      | nil =>
        cases kb <;> simp [insertCode, trieGet]
      | cons qb qs =>
        have hqb : qb = kb ∧ qs ++ r = ks := by
          rw [List.cons_append] at hqr
          exact ⟨(List.cons.injEq _ _ _ _).mp hqr |>.1, (List.cons.injEq _ _ _ _).mp hqr |>.2⟩
        obtain ⟨hqb1, hqb2⟩ := hqb
        subst hqb1
        cases qb
        · have hred : trieGet (insertCode (PyNode.mk p l r2) (false :: ks) c) (false :: qs)
              = trieGet (insertCode
                  (match l with | some t2 => t2 | none => PyNode.mk none none none)
                  ks c) qs := rfl
          rw [hred]
          exact ih _ c qs r hqb2
        · have hred : trieGet (insertCode (PyNode.mk p l r2) (true :: ks) c) (true :: qs)
              = trieGet (insertCode
                  (match r2 with | some t2 => t2 | none => PyNode.mk none none none)
                  ks c) qs := rfl
          rw [hred]
          exact ih _ c qs r hqb2

theorem insertCode_trieGet_mono : ∀ (q : List Bool) (t : PyNode) (k : List Bool) (c : Nat),
    trieGet t q ≠ none → trieGet (insertCode t k c) q ≠ none := by
  intro q
  induction q with
  | nil =>
    intro t k c _
    cases ht : trieGet (insertCode t k c) [] with
    | none => exact absurd ht (by rw [trieGet]; simp)
    | some x => simp
  | cons qb qs ih =>
    intro t k c h
    cases t with
    | mk p l r =>
      cases k with
      | nil =>
        cases qb
        · exact h
        · exact h
      | cons kb ks =>
        cases kb <;> cases qb
        · -- k starts false, q starts false
          cases l with
          | none =>
            exfalso
            apply h
            rfl
          | some lt =>
            have hred : trieGet (insertCode (PyNode.mk p (some lt) r) (false :: ks) c)
                (false :: qs) = trieGet (insertCode lt ks c) qs := rfl
            have hred2 : trieGet (PyNode.mk p (some lt) r) (false :: qs)
                = trieGet lt qs := rfl
            rw [hred2] at h
            rw [hred]
            exact ih lt ks c h
        · -- k starts false, q starts true: right child untouched
          exact h
        · -- k starts true, q starts false
          exact h
        · cases r with
          | none =>
            exfalso
            apply h
            rfl
          | some rt =>
            have hred : trieGet (insertCode (PyNode.mk p l (some rt)) (true :: ks) c)
                (true :: qs) = trieGet (insertCode rt ks c) qs := rfl
            have hred2 : trieGet (PyNode.mk p l (some rt)) (true :: qs)
                = trieGet rt qs := rfl
            rw [hred2] at h
            rw [hred]
            exact ih rt ks c h

end HuffmanDecoding

namespace HuffmanDecoding

theorem fold_trieGet_mono : ∀ (table : List (Nat × List Bool)) (t : PyNode)
    (q : List Bool), trieGet t q ≠ none →
    trieGet (table.foldl (fun t p => insertCode t p.2 p.1) t) q ≠ none := by
  intro table
  induction table with
  | nil => intro t q h; exact h
  | cons e rest ih =>
    intro t q h
    rw [List.foldl_cons]
    exact ih _ q (insertCode_trieGet_mono q t e.2 e.1 h)

theorem fold_payloadAt_frozen : ∀ (table : List (Nat × List Bool)) (t : PyNode)
    (q : List Bool), (∀ e ∈ table, e.2 ≠ q) →
    payloadAt (table.foldl (fun t p => insertCode t p.2 p.1) t) q = payloadAt t q := by
  intro table
  induction table with
  | nil => intro t q _; rfl
  | cons e rest ih =>
    intro t q h
    rw [List.foldl_cons]
    rw [ih _ q (fun d hd => h d (List.mem_cons_of_mem _ hd))]
    rw [insertCode_payloadAt]
    rw [if_neg (fun he => h e (List.mem_cons_self _ _) he.symm)]

theorem generate_payloadAt_code : ∀ (table : List (Nat × List Bool)) (t : PyNode)
    (c : Nat) (k : List Bool), (c, k) ∈ table →
    (∀ e ∈ table, ∀ e2 ∈ table, e.2 = e2.2 → e = e2) →
    (∀ e ∈ table, ∀ e2 ∈ table, e ≠ e2 → e.2 ≠ e2.2) →
    table.Nodup →
    payloadAt (table.foldl (fun t p => insertCode t p.2 p.1) t) k = some c := by
  intro table
  induction table with
  | nil => intro t c k hmem; simp at hmem
  | cons e rest ih =>
    intro t c k hmem hcu hcd hnd
    rw [List.foldl_cons]
    rcases List.mem_cons.mp hmem with hh | hr
    · rw [fold_payloadAt_frozen rest _ k]
      · rw [← hh, insertCode_payloadAt, if_pos rfl]
      · intro d hd he
        have hde : d = e := by
          apply hcu d (List.mem_cons_of_mem _ hd) e (List.mem_cons_self _ _)
          rw [he, ← hh]
        rw [hde] at hd
        exact (List.nodup_cons.mp hnd).1 hd
    · exact ih _ c k hr
        (fun d hd d2 hd2 => hcu d (List.mem_cons_of_mem _ hd) d2 (List.mem_cons_of_mem _ hd2))
        (fun d hd d2 hd2 => hcd d (List.mem_cons_of_mem _ hd) d2 (List.mem_cons_of_mem _ hd2))
        (List.nodup_cons.mp hnd).2

theorem generate_payloadAt_none : ∀ (table : List (Nat × List Bool)) (t : PyNode)
    (q : List Bool), payloadAt t q = none → (∀ e ∈ table, e.2 ≠ q) →
    payloadAt (table.foldl (fun t p => insertCode t p.2 p.1) t) q = none := by
  intro table t q h0 hq
  rw [fold_payloadAt_frozen table t q hq]
  exact h0

/-- Walking the trie on a code followed by arbitrary bits finds exactly the
code's symbol, consuming exactly the code. -/
theorem walk_code : ∀ (k : List Bool) (tr : PyNode) (rest : List Bool) (idx c : Nat),
    k ≠ [] →
    (∀ q r, q ++ r = k → trieGet tr q ≠ none) →
    payloadAt tr k = some c →
    (∀ q, q ≠ [] → (∃ r, r ≠ [] ∧ q ++ r = k) → payloadAt tr q = none) →
    walk tr (k ++ rest) idx = .found c (idx + k.length) := by
  intro k
  induction k with
  | nil => intro tr rest idx c hne; exact absurd rfl hne
  | cons b bs ih =>
    intro tr rest idx c _ hpath hpay hpref
    rw [List.cons_append, walk]
    have hstep : trieGet tr [b] ≠ none := hpath [b] bs rfl
    cases hchild : tr.child b with
    | none =>
      exfalso
      apply hstep
      cases b
      · cases tr with
        | mk p l r =>
          have : l = none := hchild
          rw [this]
          rfl
      · cases tr with
        | mk p l r =>
          have : r = none := hchild
          rw [this]
          rfl
    | some t2 =>
      have htrans : ∀ q : List Bool, trieGet t2 q = trieGet tr (b :: q) := by
        intro q
        cases b
        · cases tr with
          | mk p l r =>
            cases l with
            | none => exact absurd hchild (by intro h2; exact Option.noConfusion h2)
            | some lt =>
              have hlt : lt = t2 := Option.some.inj hchild
              subst hlt
              rfl
        · cases tr with
          | mk p l r =>
            cases r with
            | none => exact absurd hchild (by intro h2; exact Option.noConfusion h2)
            | some rt =>
              have hrt : rt = t2 := Option.some.inj hchild
              subst hrt
              rfl
      have hpayAt : ∀ q : List Bool, payloadAt t2 q = payloadAt tr (b :: q) := by
        intro q
        rw [payloadAt, payloadAt, htrans q]
      cases bs with
      | nil =>
        have hp2 : t2.payload = some c := by
          have h3 := hpay
          rw [← hpayAt []] at h3
          exact h3
        simp only [hp2, List.length_cons, List.length_nil]
      | cons b2 bs2 =>
        have hp2 : t2.payload = none := by
          have h3 := hpref [b] (by simp) ⟨b2 :: bs2, by simp, rfl⟩
          rw [← hpayAt []] at h3
          exact h3
        have hih := ih t2 rest (idx + 1) c (by simp)
          (fun q r hqr => by rw [htrans q]; exact hpath (b :: q) r (by rw [← hqr]; rfl))
          (by rw [hpayAt (b2 :: bs2)]; exact hpay)
          (fun q hq hex => by
            obtain ⟨r, hr, hqr⟩ := hex
            rw [hpayAt q]
            exact hpref (b :: q) (by simp) ⟨r, hr, by rw [← hqr]; rfl⟩)
        simp only [hp2, hih, List.length_cons]
        congr 1
        omega

end HuffmanDecoding

namespace HuffmanDecoding

/-- Walking a trie path that exists, carries no payload, and ends with the
bits: the walk runs out of input. -/
theorem walk_exhausted : ∀ (q : List Bool) (tr : PyNode) (idx : Nat),
    (∀ q1 r, q1 ++ r = q → trieGet tr q1 ≠ none) →
    (∀ q1, q1 ≠ [] → (∃ r, q1 ++ r = q) → payloadAt tr q1 = none) →
    walk tr q idx = .exhausted := by
  intro q
  induction q with
  | nil => intro tr idx _ _; rfl
  | cons b qs ih =>
    intro tr idx hpath hpref
    rw [walk]
    have hstep : trieGet tr [b] ≠ none := hpath [b] qs rfl
    cases hchild : tr.child b with
    | none =>
      exfalso
      apply hstep
      cases b
      · cases tr with
        | mk p l r =>
          have hl : l = none := hchild
          rw [hl]
          rfl
      · cases tr with
        | mk p l r =>
          have hr : r = none := hchild
          rw [hr]
          rfl
    | some t2 =>
      have htrans : ∀ u : List Bool, trieGet t2 u = trieGet tr (b :: u) := by
        intro u
        cases b
        · cases tr with
          | mk p l r =>
            cases l with
            | none => exact absurd hchild (by intro h2; exact Option.noConfusion h2)
            | some lt =>
              have hlt : lt = t2 := Option.some.inj hchild
              subst hlt
              rfl
        · cases tr with
          | mk p l r =>
            cases r with
            | none => exact absurd hchild (by intro h2; exact Option.noConfusion h2)
            | some rt =>
              have hrt : rt = t2 := Option.some.inj hchild
              subst hrt
              rfl
      have hpayAt : ∀ u : List Bool, payloadAt t2 u = payloadAt tr (b :: u) := by
        intro u
        rw [payloadAt, payloadAt, htrans u]
      have hp2 : t2.payload = none := by
        have h3 := hpref [b] (by simp) ⟨qs, rfl⟩
        rw [← hpayAt []] at h3
        exact h3
      have hih := ih t2 (idx + 1)
        (fun q1 r hqr => by rw [htrans q1]; exact hpath (b :: q1) r (by rw [← hqr]; rfl))
        (fun q1 hq1 hex => by
          obtain ⟨r, hqr⟩ := hex
          rw [hpayAt q1]
          exact hpref (b :: q1) (by simp) ⟨r, by rw [← hqr]; rfl⟩)
      simp only [hp2, hih]

end HuffmanDecoding

theorem drop_allfalse (bits : List Bool) (e : Nat)
    (h : ∀ j, e ≤ j → bits.getD j false = false) :
    ∀ b ∈ bits.drop e, b = false := by
  intro b hb
  obtain ⟨i, hi, hbe⟩ := List.mem_iff_getElem.mp hb
  have hgd : bits.getD (e + i) false = false := h (e + i) (by omega)
  rw [List.getElem_drop] at hbe
  rw [List.getD_eq_getElem?_getD, List.getElem?_eq_getElem
    (by rw [List.length_drop] at hi; omega), Option.getD_some] at hgd
  rw [← hbe]
  exact hgd

/-- On an all-zero bit region, the data loop only reads empty runs (or runs
out of input) and returns `ok` with the accumulator untouched — given that
the trie holds an all-`false` code, so the walk can never step off the
trie. -/
theorem dataLoop_allfalse_ok (tr : PyNode) (k0 : List Bool) (c0 : Nat)
    (hk0ne : k0 ≠ []) (hk0f : ∀ b ∈ k0, b = false)
    (hpath : ∀ q r, q ++ r = k0 → HuffmanDecoding.trieGet tr q ≠ none)
    (hpay : HuffmanDecoding.payloadAt tr k0 = some c0)
    (hpref : ∀ q, q ≠ [] → (∃ r, r ≠ [] ∧ q ++ r = k0) →
      HuffmanDecoding.payloadAt tr q = none) :
    ∀ (f : Nat) (bits : List Bool) (e : Nat) (acc : List Nat),
    (∀ j, e ≤ j → bits.getD j false = false) →
    ∃ e2, Decompress.dataLoop tr bits f e acc = Decompress.DataRes.ok acc e2 := by
  have hk0rep : k0 = List.replicate k0.length false :=
    List.eq_replicate.mpr ⟨rfl, hk0f⟩
  intro f
  induction f with
  | zero =>
    intro bits e acc _
    exact ⟨e, rfl⟩
  | succ f ih =>
    intro bits e acc hz
    rw [Decompress.dataLoop]
    by_cases he : e < bits.length
    · rw [if_pos he]
      have hDrep : bits.drop e = List.replicate (bits.length - e) false := by
        apply List.eq_replicate.mpr
        exact ⟨by rw [List.length_drop], drop_allfalse bits e hz⟩
      by_cases hcmp : bits.length - e < k0.length
      · -- the remaining bits are a proper prefix of the all-false code
        have hsplit : ∃ suf : List Bool, bits.drop e ++ suf = k0 ∧ suf ≠ [] := by
          refine ⟨List.replicate (k0.length - (bits.length - e)) false, ?_, ?_⟩
          · rw [hDrep]
            conv_rhs => rw [hk0rep]
            rw [← List.replicate_add]
            congr 1
            omega
          · intro hnil
            have := congrArg List.length hnil
            rw [List.length_replicate] at this
            simp at this
            omega
        obtain ⟨suf, hsuf, hsufne⟩ := hsplit
        have hwalk : HuffmanDecoding.walk tr (bits.drop e) e = .exhausted := by
          apply HuffmanDecoding.walk_exhausted
          · intro q1 r hqr
            exact hpath q1 (r ++ suf) (by rw [← List.append_assoc, hqr, hsuf])
          · intro q1 hq1 hex
            obtain ⟨r, hqr⟩ := hex
            exact hpref q1 hq1 ⟨r ++ suf, by
              constructor
              · intro hrs
                exact hsufne (List.append_eq_nil.mp hrs).2
              · rw [← List.append_assoc, hqr, hsuf]⟩
        rw [HuffmanDecoding.decode, hwalk]
        exact ⟨e, rfl⟩
      · -- a full all-false code is read, decoding an empty run
        have hsplit : bits.drop e = k0 ++ List.replicate (bits.length - e - k0.length) false := by
          rw [hDrep]
          conv_lhs => rw [show bits.length - e = k0.length + (bits.length - e - k0.length) from by omega]
          rw [List.replicate_add]
          congr 1
          exact hk0rep.symm
        have hwalk : HuffmanDecoding.walk tr (bits.drop e) e
            = .found c0 (e + k0.length) := by
          rw [hsplit]
          exact HuffmanDecoding.walk_code k0 tr _ e c0 hk0ne hpath hpay hpref
        rw [HuffmanDecoding.decode, hwalk]
        dsimp only
        have hel0 : (EliasDecoding.decode bits (e + k0.length)).1 = 0 :=
          EliasDecoding.decode_allzero bits (e + k0.length)
            (fun j hj => hz j (by omega))
        rw [hel0]
        have hge := EliasDecoding.decode_snd_ge bits (e + k0.length)
        obtain ⟨e2, hih⟩ := ih bits (EliasDecoding.decode bits (e + k0.length)).2
          acc (fun j hj => hz j (by omega))
        rw [List.replicate_zero, List.append_nil]
        exact ⟨e2, hih⟩
    · rw [if_neg he]
      exact ⟨e, rfl⟩

theorem elias_string_len_pos (v : Nat) : 1 ≤ (EliasEncoding.elias_string v).length := by
  rw [EliasEncoding.elias_string_eq, List.length_append]
  by_cases h0 : v = 0
  · rw [binPy, if_pos h0]
    simp
  · rw [binPy, if_neg h0, natBits_length]
    have : 0 < bitLength v := bitLength_pos (by omega)
    omega

theorem getD_append_false (X Z : List Bool) (hZ : ∀ b ∈ Z, b = false) :
    ∀ j, X.length ≤ j → (X ++ Z).getD j false = false := by
  intro j hj
  rw [List.getD_eq_getElem?_getD, List.getElem?_append_right hj]
  cases hg : Z[j - X.length]? with
  | none => rfl
  | some b =>
    have hjb : j - X.length < Z.length := by
      by_contra hge
      rw [List.getElem?_eq_none (by omega)] at hg
      exact Option.noConfusion hg
    rw [List.getElem?_eq_getElem hjb] at hg
    have hb : b ∈ Z := by
      rw [← Option.some.inj hg]
      exact List.getElem_mem _
    rw [Option.getD_some]
    exact hZ b hb

theorem replicate_cons_shift {α : Type} (n : Nat) (a : α) (X : List α) :
    List.replicate n a ++ (a :: X) = List.replicate (n + 1) a ++ X := by
  induction n with
  | zero => rfl
  | succ n ih =>
    rw [List.replicate_succ, List.cons_append, ih,
      show List.replicate (n + 1 + 1) a = a :: List.replicate (n + 1) a from rfl,
      List.cons_append]

/-- The data loop decodes the run-length Huffman payload of `msgLoop` back
into the original symbol list (prefixed by the partially counted run),
then consumes the all-zero padding harmlessly. -/
theorem dataLoop_msg (tr : PyNode) (code : Nat → List Bool) (S : List Nat) (Z : List Bool)
    (hW : ∀ c ∈ S, ∀ (pre rest : List Bool),
      HuffmanDecoding.decode tr (pre ++ (code c ++ rest)) pre.length
        = HuffmanDecoding.DecodeRes.found c (pre.length + (code c).length))
    (hcne : ∀ c ∈ S, 1 ≤ (code c).length)
    (hP : ∀ (f : Nat) (bits : List Bool) (e : Nat) (acc : List Nat),
      (∀ j, e ≤ j → bits.getD j false = false) →
      ∃ e2, Decompress.dataLoop tr bits f e acc = Decompress.DataRes.ok acc e2)
    (hZ : ∀ b ∈ Z, b = false) :
    ∀ (l : List Nat), l ≠ [] → (∀ x ∈ l, x ∈ S) →
    ∀ (counter : Nat), 1 ≤ counter →
    ∀ (f : Nat) (pre : List Bool) (acc : List Nat),
    (pre ++ (Compress.msgLoop code l counter ++ Z)).length ≤ pre.length + f →
    ∃ e2, Decompress.dataLoop tr (pre ++ (Compress.msgLoop code l counter ++ Z))
        f pre.length acc
      = Decompress.DataRes.ok
          (acc ++ (List.replicate (counter - 1) (l.headD 0) ++ l)) e2 := by
  intro l
  induction l with
  | nil =>
    intro h
    exact absurd rfl h
  | cons c l2 ih =>
    intro _ hsub counter hctr f pre acc hfuel
    have hclen := hcne c (hsub c (List.mem_cons_self _ _))
    have helen := elias_string_len_pos counter
    cases l2 with
    | nil =>
      have hmsg : Compress.msgLoop code [c] counter
          = code c ++ EliasEncoding.elias_string counter := rfl
      rw [hmsg] at hfuel ⊢
      cases f with
      | zero =>
        exfalso
        rw [List.length_append, List.length_append, List.length_append] at hfuel
        omega
      | succ f =>
        rw [Decompress.dataLoop]
        have hlt : pre.length
            < (pre ++ ((code c ++ EliasEncoding.elias_string counter) ++ Z)).length := by
          rw [List.length_append, List.length_append, List.length_append]
          omega
        rw [if_pos hlt]
        have hb1 : pre ++ ((code c ++ EliasEncoding.elias_string counter) ++ Z)
            = pre ++ (code c ++ (EliasEncoding.elias_string counter ++ Z)) := by
          simp [List.append_assoc]
        rw [hb1]
        rw [hW c (hsub c (List.mem_cons_self _ _)) pre
          (EliasEncoding.elias_string counter ++ Z)]
        dsimp only
        have he1 : EliasDecoding.decode
            (pre ++ (code c ++ (EliasEncoding.elias_string counter ++ Z)))
            (pre.length + (code c).length)
            = (counter, (pre.length + (code c).length)
              + (EliasEncoding.elias_string counter).length) := by
          have hb2 : pre ++ (code c ++ (EliasEncoding.elias_string counter ++ Z))
              = (pre ++ code c) ++ (EliasEncoding.elias_string counter ++ Z) := by
            simp [List.append_assoc]
          rw [hb2]
          have h3 := EliasDecoding.decode_at counter hctr (pre ++ code c) Z
          rw [List.length_append] at h3
          exact h3
        rw [he1]
        dsimp only
        obtain ⟨e2, hok⟩ := hP f
          (pre ++ (code c ++ (EliasEncoding.elias_string counter ++ Z)))
          (pre.length + (code c).length + (EliasEncoding.elias_string counter).length)
          (acc ++ List.replicate counter c)
          (by
            intro j hj
            have hb3 : pre ++ (code c ++ (EliasEncoding.elias_string counter ++ Z))
                = (pre ++ (code c ++ EliasEncoding.elias_string counter)) ++ Z := by
              simp [List.append_assoc]
            rw [hb3]
            apply getD_append_false _ Z hZ j
            rw [List.length_append, List.length_append]
            omega)
        refine ⟨e2, ?_⟩
        rw [hok]
        have hlist : acc ++ List.replicate counter c
            = acc ++ (List.replicate (counter - 1) (([c] : List Nat).headD 0) ++ [c]) := by
          have hh : (([c] : List Nat).headD 0) = c := rfl
          rw [hh]
          conv_lhs => rw [show counter = (counter - 1) + 1 from by omega,
            List.replicate_succ']
        rw [hlist]
    | cons c2 rest =>
      by_cases hcc : c = c2
      · have hmsg : Compress.msgLoop code (c :: c2 :: rest) counter
            = Compress.msgLoop code (c2 :: rest) (counter + 1) := by
          rw [Compress.msgLoop, if_pos hcc]
        rw [hmsg] at hfuel ⊢
        obtain ⟨e2, hok⟩ := ih (by simp) (fun x hx => hsub x (List.mem_cons_of_mem _ hx))
          (counter + 1) (by omega) f pre acc hfuel
        refine ⟨e2, ?_⟩
        rw [hok]
        subst hcc
        have hlist : acc ++ (List.replicate (counter + 1 - 1) ((c :: rest).headD 0)
              ++ (c :: rest))
            = acc ++ (List.replicate (counter - 1) ((c :: c :: rest).headD 0)
              ++ (c :: c :: rest)) := by
          rw [show ((c :: rest).headD 0) = c from rfl,
            show ((c :: c :: rest).headD 0) = c from rfl,
            show List.replicate (counter - 1) c ++ (c :: c :: rest)
              = List.replicate (counter - 1 + 1) c ++ (c :: rest)
              from replicate_cons_shift _ _ _,
            show counter - 1 + 1 = counter from by omega,
            show counter + 1 - 1 = counter from by omega]
        rw [hlist]
      · have hmsg : Compress.msgLoop code (c :: c2 :: rest) counter
            = (code c ++ EliasEncoding.elias_string counter)
              ++ Compress.msgLoop code (c2 :: rest) 1 := by
          rw [Compress.msgLoop, if_neg hcc]
        rw [hmsg] at hfuel ⊢
        cases f with
        | zero =>
          exfalso
          rw [List.length_append, List.length_append, List.length_append,
            List.length_append] at hfuel
          omega
        | succ f =>
          rw [Decompress.dataLoop]
          have hlt : pre.length < (pre ++ (((code c ++ EliasEncoding.elias_string counter)
              ++ Compress.msgLoop code (c2 :: rest) 1) ++ Z)).length := by
            rw [List.length_append, List.length_append, List.length_append,
              List.length_append]
            omega
          rw [if_pos hlt]
          have hb1 : pre ++ (((code c ++ EliasEncoding.elias_string counter)
                ++ Compress.msgLoop code (c2 :: rest) 1) ++ Z)
              = pre ++ (code c ++ (EliasEncoding.elias_string counter
                ++ (Compress.msgLoop code (c2 :: rest) 1 ++ Z))) := by
            simp [List.append_assoc]
          rw [hb1]
          rw [hW c (hsub c (List.mem_cons_self _ _)) pre
            (EliasEncoding.elias_string counter
              ++ (Compress.msgLoop code (c2 :: rest) 1 ++ Z))]
          dsimp only
          have he1 : EliasDecoding.decode
              (pre ++ (code c ++ (EliasEncoding.elias_string counter
                ++ (Compress.msgLoop code (c2 :: rest) 1 ++ Z))))
              (pre.length + (code c).length)
              = (counter, (pre.length + (code c).length)
                + (EliasEncoding.elias_string counter).length) := by
            have hb2 : pre ++ (code c ++ (EliasEncoding.elias_string counter
                  ++ (Compress.msgLoop code (c2 :: rest) 1 ++ Z)))
                = (pre ++ code c) ++ (EliasEncoding.elias_string counter
                  ++ (Compress.msgLoop code (c2 :: rest) 1 ++ Z)) := by
              simp [List.append_assoc]
            rw [hb2]
            have h3 := EliasDecoding.decode_at counter hctr (pre ++ code c)
              (Compress.msgLoop code (c2 :: rest) 1 ++ Z)
            rw [List.length_append] at h3
            exact h3
          rw [he1]
          dsimp only
          have hb3 : pre ++ (code c ++ (EliasEncoding.elias_string counter
                ++ (Compress.msgLoop code (c2 :: rest) 1 ++ Z)))
              = (pre ++ (code c ++ EliasEncoding.elias_string counter))
                ++ (Compress.msgLoop code (c2 :: rest) 1 ++ Z) := by
            simp [List.append_assoc]
          have hplen : (pre ++ (code c ++ EliasEncoding.elias_string counter)).length
              = pre.length + (code c).length
                + (EliasEncoding.elias_string counter).length := by
            rw [List.length_append, List.length_append]
            omega
          obtain ⟨e2, hok⟩ := ih (by simp)
            (fun x hx => hsub x (List.mem_cons_of_mem _ hx)) 1 (Nat.le_refl _) f
            (pre ++ (code c ++ EliasEncoding.elias_string counter))
            (acc ++ List.replicate counter c)
            (by
              rw [← hb3, hplen]
              rw [List.length_append, List.length_append, List.length_append,
                List.length_append] at hfuel ⊢
              omega)
          rw [← hb3, hplen] at hok
          refine ⟨e2, ?_⟩
          rw [hok]
          have hlist : (acc ++ List.replicate counter c)
                ++ (List.replicate (1 - 1) ((c2 :: rest).headD 0) ++ (c2 :: rest))
              = acc ++ (List.replicate (counter - 1) ((c :: c2 :: rest).headD 0)
                ++ (c :: c2 :: rest)) := by
            rw [show ((c2 :: rest).headD 0) = c2 from rfl,
              show ((c :: c2 :: rest).headD 0) = c from rfl,
              show (1 : Nat) - 1 = 0 from rfl, List.replicate_zero, List.nil_append,
              show List.replicate (counter - 1) c ++ (c :: c2 :: rest)
                = List.replicate (counter - 1 + 1) c ++ (c2 :: rest)
                from replicate_cons_shift _ _ _,
              show counter - 1 + 1 = counter from by omega,
              List.append_assoc]
          rw [hlist]

theorem fold_trieGet_prefix (table : List (Nat × List Bool)) : ∀ (t0 : PyNode)
    (c : Nat) (k q r : List Bool), (c, k) ∈ table → q ++ r = k →
    HuffmanDecoding.trieGet
      (table.foldl (fun t p => HuffmanDecoding.insertCode t p.2 p.1) t0) q ≠ none := by
  induction table with
  | nil =>
    intro t0 c k q r hmem
    simp at hmem
  | cons e rest ih =>
    intro t0 c k q r hmem hqr
    rw [List.foldl_cons]
    rcases List.mem_cons.mp hmem with hh | hr
    · apply HuffmanDecoding.fold_trieGet_mono
      have he2 : e.2 = k := by rw [← hh]
      rw [he2]
      exact HuffmanDecoding.insertCode_trieGet_prefix k t0 e.1 q r hqr
    · exact ih _ c k q r hr hqr

/-- The decoder's trie, built from the serialized table, finds exactly the
encoded symbol on any stream positioned at its code. -/
theorem decode_trie_found (t : List Nat) (hne : t ≠ [])
    (hval : ∀ c ∈ t, 37 ≤ c ∧ c ≤ 126) :
    ∀ c ∈ Compress.huffOrder (t ++ [36]), ∀ (pre rest : List Bool),
    HuffmanDecoding.decode
      (HuffmanDecoding.generate_huffman_tree ((Compress.huffOrder (t ++ [36])).map
        (fun d => (d, Compress.codeOf (t ++ [36]) d))))
      (pre ++ (Compress.codeOf (t ++ [36]) c ++ rest)) pre.length
      = HuffmanDecoding.DecodeRes.found c
          (pre.length + (Compress.codeOf (t ++ [36]) c).length) := by
  obtain ⟨hnd, hmem, hrange, hcne, hpf⟩ := Compress.huffman_facts t hne hval
  intro c hc pre rest
  have htabnd : ((Compress.huffOrder (t ++ [36])).map
      (fun d => (d, Compress.codeOf (t ++ [36]) d))).Nodup := by
    apply List.Nodup.map_on
    · intro x _ y _ hxy
      simpa using congrArg Prod.fst hxy
    · exact hnd
  have hcu : ∀ e ∈ (Compress.huffOrder (t ++ [36])).map
        (fun d => (d, Compress.codeOf (t ++ [36]) d)),
      ∀ e2 ∈ (Compress.huffOrder (t ++ [36])).map
        (fun d => (d, Compress.codeOf (t ++ [36]) d)),
      e.2 = e2.2 → e = e2 := by
    intro e he e2 he2 hee
    rw [List.mem_map] at he he2
    obtain ⟨x, hx, hxe⟩ := he
    obtain ⟨y, hy, hye⟩ := he2
    rw [← hxe, ← hye] at hee ⊢
    simp only at hee ⊢
    by_cases hxy : x = y
    · rw [hxy]
    · exfalso
      exact hpf x hx y hy hxy ⟨[], by rw [List.append_nil]; exact hee⟩
  have hcmem : (c, Compress.codeOf (t ++ [36]) c)
      ∈ (Compress.huffOrder (t ++ [36])).map
        (fun d => (d, Compress.codeOf (t ++ [36]) d)) := by
    rw [List.mem_map]
    exact ⟨c, hc, rfl⟩
  rw [HuffmanDecoding.decode, List.drop_left]
  apply HuffmanDecoding.walk_code
  · exact hcne c hc
  · intro q r hqr
    exact fold_trieGet_prefix _ _ c _ q r hcmem hqr
  · rw [HuffmanDecoding.generate_huffman_tree]
    apply HuffmanDecoding.generate_payloadAt_code _ _ c _ hcmem hcu
      (fun e he e2 he2 hee h2 => hee (hcu e he e2 he2 h2)) htabnd
  · intro q hq hex
    obtain ⟨r, hr, hqr⟩ := hex
    rw [HuffmanDecoding.generate_huffman_tree]
    apply HuffmanDecoding.generate_payloadAt_none
    · exact HuffmanDecoding.payloadAt_empty q
    · intro e he heq
      rw [List.mem_map] at he
      obtain ⟨y, hy, hye⟩ := he
      rw [← hye] at heq
      simp only at heq
      by_cases hyc : y = c
      · subst hyc
        rw [heq] at hqr
        have hlen := congrArg List.length hqr
        rw [List.length_append] at hlen
        have : r = [] := by
          rw [← List.length_eq_zero]
          omega
        exact hr this
      · exact hpf y hy c hc hyc ⟨r, by rw [heq]; exact hqr⟩

/-- Path existence, payload placement, and payload-freeness of proper
prefixes, for every code of the decoder's reconstructed trie. -/
theorem trie_payload_facts (t : List Nat) (hne : t ≠ [])
    (hval : ∀ c ∈ t, 37 ≤ c ∧ c ≤ 126) :
    ∀ c ∈ Compress.huffOrder (t ++ [36]),
    (∀ q r, q ++ r = Compress.codeOf (t ++ [36]) c →
      HuffmanDecoding.trieGet
        (HuffmanDecoding.generate_huffman_tree ((Compress.huffOrder (t ++ [36])).map
          (fun d => (d, Compress.codeOf (t ++ [36]) d)))) q ≠ none)
    ∧ HuffmanDecoding.payloadAt
        (HuffmanDecoding.generate_huffman_tree ((Compress.huffOrder (t ++ [36])).map
          (fun d => (d, Compress.codeOf (t ++ [36]) d))))
        (Compress.codeOf (t ++ [36]) c) = some c
    ∧ (∀ q, q ≠ [] → (∃ r, r ≠ [] ∧ q ++ r = Compress.codeOf (t ++ [36]) c) →
        HuffmanDecoding.payloadAt
          (HuffmanDecoding.generate_huffman_tree ((Compress.huffOrder (t ++ [36])).map
            (fun d => (d, Compress.codeOf (t ++ [36]) d)))) q = none) := by
  obtain ⟨hnd, hmem, hrange, hcne, hpf⟩ := Compress.huffman_facts t hne hval
  intro c hc
  have htabnd : ((Compress.huffOrder (t ++ [36])).map
      (fun d => (d, Compress.codeOf (t ++ [36]) d))).Nodup := by
    apply List.Nodup.map_on
    · intro x _ y _ hxy
      simpa using congrArg Prod.fst hxy
    · exact hnd
  have hcu : ∀ e ∈ (Compress.huffOrder (t ++ [36])).map
        (fun d => (d, Compress.codeOf (t ++ [36]) d)),
      ∀ e2 ∈ (Compress.huffOrder (t ++ [36])).map
        (fun d => (d, Compress.codeOf (t ++ [36]) d)),
      e.2 = e2.2 → e = e2 := by
    intro e he e2 he2 hee
    rw [List.mem_map] at he he2
    obtain ⟨x, hx, hxe⟩ := he
    obtain ⟨y, hy, hye⟩ := he2
    rw [← hxe, ← hye] at hee ⊢
    simp only at hee ⊢
    by_cases hxy : x = y
    · rw [hxy]
    · exfalso
      exact hpf x hx y hy hxy ⟨[], by rw [List.append_nil]; exact hee⟩
  have hcmem : (c, Compress.codeOf (t ++ [36]) c)
      ∈ (Compress.huffOrder (t ++ [36])).map
        (fun d => (d, Compress.codeOf (t ++ [36]) d)) := by
    rw [List.mem_map]
    exact ⟨c, hc, rfl⟩
  refine ⟨?_, ?_, ?_⟩
  · intro q r hqr
    exact fold_trieGet_prefix _ _ c _ q r hcmem hqr
  · rw [HuffmanDecoding.generate_huffman_tree]
    apply HuffmanDecoding.generate_payloadAt_code _ _ c _ hcmem hcu
      (fun e he e2 he2 hee h2 => hee (hcu e he e2 he2 h2)) htabnd
  · intro q hq hex
    obtain ⟨r, hr, hqr⟩ := hex
    rw [HuffmanDecoding.generate_huffman_tree]
    apply HuffmanDecoding.generate_payloadAt_none
    · exact HuffmanDecoding.payloadAt_empty q
    · intro e he heq
      rw [List.mem_map] at he
      obtain ⟨y, hy, hye⟩ := he
      rw [← hye] at heq
      simp only at heq
      by_cases hyc : y = c
      · subst hyc
        rw [heq] at hqr
        have hlen := congrArg List.length hqr
        rw [List.length_append] at hlen
        have : r = [] := by
          rw [← List.length_eq_zero]
          omega
        exact hr this
      · exact hpf y hy c hc hyc ⟨r, by rw [heq]; exact hqr⟩

/-- `get_text ∘ bwt` strips the sentinel and recovers the user text. -/
theorem get_text_bwt_strip (t : List Nat) (hval : ∀ c ∈ t, 37 ≤ c ∧ c ≤ 126) :
    BWT_Decoding.get_text (BWT_Encoding.bwt (t ++ [36])) = t := by
  have hlen : (t ++ [36]).length = t.length + 1 := by simp
  have hvalS : ∀ c ∈ t ++ [36], 36 ≤ c ∧ c ≤ 126 := by
    intro c hc
    rcases List.mem_append.mp hc with h | h
    · have := hval c h
      omega
    · simp at h
      omega
  have hgdt : ∀ i, i < t.length → (t ++ [36]).getD i 0 = t.getD i 0 := by
    intro i hi
    exact List.getD_append t [36] 0 i hi
  have hsent : (t ++ [36]).getD ((t ++ [36]).length - 1) 0 = 36 := by
    rw [hlen]
    have h2 : t.length + 1 - 1 = t.length := by omega
    rw [h2]
    exact getD_append_here t 36 [] 0
  have hmid : ∀ i, i < (t ++ [36]).length - 1 → 37 ≤ (t ++ [36]).getD i 0 := by
    intro i hi
    rw [hlen] at hi
    have hi2 : i < t.length := by omega
    rw [hgdt i hi2]
    have hmem : t.getD i 0 ∈ t := by
      rw [List.getD_eq_getElem?_getD, List.getElem?_eq_getElem hi2, Option.getD_some]
      exact List.getElem_mem _
    exact (hval _ hmem).1
  rw [get_text_bwt (t ++ [36]) hvalS hsent hmid (by rw [hlen]; omega)]
  rw [hlen]
  have h2 : t.length + 1 - 1 = t.length := by omega
  rw [h2]
  have h3 : (List.range t.length).map (fun i => (t ++ [36]).getD i 0)
      = (List.range t.length).map (fun i => t.getD i 0) := by
    apply List.map_congr_left
    intro i hi
    rw [List.mem_range] at hi
    exact hgdt i hi
  rw [h3, getD_range_map]

/-- Claim C1: for every nonempty text over the admitted alphabet (bytes in
[0x24, 0x7E], sentinel '$' not appearing), decompressing the bytes the
compressor writes recovers exactly the original text. -/
theorem claim_C1_round_trip (t : List Nat) (hne : t ≠ [])
    (hval : ∀ c ∈ t, 37 ≤ c ∧ c ≤ 126) :
    Decompress.decompressBytes (Compress.outBytes t) = some t := by
  obtain ⟨hnd, hmem, hrange, hcne, hpf⟩ := Compress.huffman_facts t hne hval
  rw [Decompress.decompressBytes, bytesToBits_outBytes]
  have hZ : ∀ b ∈ List.replicate ((8 - (Compress.compressBits t).length % 8) % 8) false,
      b = false := fun b hb => List.eq_of_mem_replicate hb
  have hbits : Compress.compressBits t
        ++ List.replicate ((8 - (Compress.compressBits t).length % 8) % 8) false
      = Compress.header (t ++ [36])
        ++ (Compress.message (t ++ [36])
          ++ List.replicate ((8 - (Compress.compressBits t).length % 8) % 8) false) := by
    rw [Compress.compressBits, List.append_assoc]
  rw [hbits]
  simp only [Decompress.run]
  have hhd := decode_header_spec t (Compress.message (t ++ [36])
    ++ List.replicate ((8 - (Compress.compressBits t).length % 8) % 8) false) hne hval
  rw [hhd]
  dsimp only
  rw [Decompress.decode_data]
  obtain ⟨c0, hc0, hc0f⟩ := exists_allfalse_code t hne hval
  obtain ⟨hpath0, hpay0, hpref0⟩ := trie_payload_facts t hne hval c0 hc0
  have hbwtne : BWT_Encoding.bwt (t ++ [36]) ≠ [] := by
    have hlb := bwt_length (t ++ [36])
    intro h
    rw [h, List.length_nil, List.length_append, List.length_singleton] at hlb
    omega
  have hmsg : Compress.message (t ++ [36])
      = Compress.msgLoop (Compress.codeOf (t ++ [36])) (BWT_Encoding.bwt (t ++ [36])) 1 :=
    rfl
  rw [hmsg]
  obtain ⟨e2, hok⟩ := dataLoop_msg
    (HuffmanDecoding.generate_huffman_tree ((Compress.huffOrder (t ++ [36])).map
      (fun d => (d, Compress.codeOf (t ++ [36]) d))))
    (Compress.codeOf (t ++ [36])) (Compress.huffOrder (t ++ [36]))
    (List.replicate ((8 - (Compress.compressBits t).length % 8) % 8) false)
    (decode_trie_found t hne hval)
    (fun c hc => List.length_pos.mpr (hcne c hc))
    (dataLoop_allfalse_ok _ (Compress.codeOf (t ++ [36]) c0) c0
      (hcne c0 hc0) hc0f hpath0 hpay0 hpref0)
    hZ
    (BWT_Encoding.bwt (t ++ [36])) hbwtne
    (fun x hx => (hmem x).mpr ((bwt_perm (t ++ [36])).mem_iff.mp hx))
    1 (Nat.le_refl _)
    ((Compress.header (t ++ [36])
      ++ (Compress.msgLoop (Compress.codeOf (t ++ [36]))
          (BWT_Encoding.bwt (t ++ [36])) 1
        ++ List.replicate ((8 - (Compress.compressBits t).length % 8) % 8) false)).length
      + 1)
    (Compress.header (t ++ [36])) []
    (by omega)
  rw [hok]
  dsimp only
  rw [show (1 : Nat) - 1 = 0 from rfl, List.replicate_zero, List.nil_append,
    List.nil_append]
  rw [get_text_bwt_strip t hval]

/-- Witness for C1: compressing and decompressing `"ab"` returns `"ab"`. -/
theorem claim_C1_round_trip_witness :
    Decompress.decompressBytes (Compress.outBytes [97, 98]) = some [97, 98] :=
  claim_C1_round_trip [97, 98] (by simp) (by decide)
